import Mathlib

/-!
The package gohan/router: route registration and lookup.

A shallow embedding of `src/router/router.go` (`Router.add`, `Router.find`,
`Router.Handle`, `Router.ServeHTTP`, `Router.noFound`), of `Service.Handle` in
`src/gohan.go` and of `PathParam` in `src/request/request.go`, together with the
properties of registration and dispatch that follow from the code.

Modelling conventions.

* A Go `string` is a sequence of bytes.  It is modelled by `Str`, a list of code units;
  each element stands for one byte.  The router only ever inspects the ASCII bytes
  `'/'` and `':'`, compares strings for equality, slices off the first byte and splits
  on `'/'`.
* A Go run-time panic (index or slice bound out of range) is an explicit outcome,
  `Except.error`, never a silent default value.
* `map[string][]*routerEntry` is a total function from method names to route sequences;
  a key that is absent (or a nil map) reads as the empty sequence, as in Go.
* `map[string]string` is an association list with at most one pair per key; Go maps are
  unordered, so only `mapIndex` and the set of keys are meaningful.
* `strings.ToUpper` is modelled byte by byte on strings of ASCII bytes.  On the other
  strings it applies the Unicode case tables of the standard library; that branch is an
  argument `U` of `ToUpper` and of `Handle`, and the theorems hold for every `U`.
* Function values (handlers, hooks) are opaque.  `ServeHTTP` is described by the calls it
  makes, in order, and by its outcome, for an arbitrary behaviour of the called functions
  (each call returns or panics with a value).
-/

namespace Gohan

set_option autoImplicit false

/-- A Go string: a sequence of code units (bytes). -/
abbrev Str := List Char

/-- Go run-time panics that the router code can raise by indexing. -/
inductive Panic where
  /-- Raised by `s[i]` with `i ≥ len(s)`: "index out of range". -/
  | indexOutOfRange
  /-- Raised by `s[1:]` with `len(s) = 0`: "slice bounds out of range". -/
  | sliceBoundsOutOfRange
  /-- Raised by a call of a nil function value: "nil pointer dereference". -/
  | nilDereference
  deriving DecidableEq, Repr

deriving instance DecidableEq for Except

/-- The call `strings.Split(s, sep)` for a one-byte separator: the pieces of `s` between
consecutive occurrences of `sep`; the result always has at least one piece. -/
def Split : Str → Char → List Str
  | [], _ => [[]]
  | c :: cs, sep =>
    if c = sep then [] :: Split cs sep
    else
      match Split cs sep with
      | [] => [[c]]
      | w :: ws => (c :: w) :: ws

/-- The call `strings.Contains(s, sep)` for a one-byte `sep`. -/
def Contains (s : Str) (sep : Char) : Bool :=
  s.elem sep

/-- A value of type `map[string]string`; the nil map and the empty map are both `[]`. -/
abbrev Params := List (Str × Str)

/-- The map assignment `params[k] = v`. -/
def mapAssign : Params → Str → Str → Params
  | [], k, v => [(k, v)]
  | (k', v') :: ps, k, v =>
    if k' = k then (k, v) :: ps else (k', v') :: mapAssign ps k v

/-- The map read `params[k]` (with the comma-ok result as an `Option`). -/
def mapIndex : Params → Str → Option Str
  | [], _ => none
  | (k', v) :: ps, k => if k' = k then some v else mapIndex ps k

/-- The keys of a map. -/
def mapKeys (ps : Params) : List Str :=
  ps.map Prod.fst

/-- The type `MiddlewareFunc`, with handlers taken from an abstract type `H`. -/
abbrev MiddlewareFunc (H : Type) := H → H

/-- The struct `routerEntry`.  A `HandlerFunc` is a Go function value and may be nil
(`none`). -/
structure routerEntry (H : Type) where
  HasParams : Bool
  Handler : Option H
  Pattern : Str
  segments : List Str
  deriving DecidableEq, Repr

/-- The struct `Router`.  Function values (the route handlers, the `NotFound` handler
and the `PanicHandler` hook) are opaque values of one type `H`; nil is `none`.  The mutex
`mu` is not a field of the state: `add` holds it for its whole body, so `add` is one
atomic step on this state. -/
structure Router (H : Type) where
  entries : Str → List (routerEntry H)
  NotFound : Option H
  PanicHandler : Option H

/-- The constructor `New`: a router without routes, `NotFound` and `PanicHandler` nil. -/
def New {H : Type} : Router H :=
  { entries := fun _ => [], NotFound := none, PanicHandler := none }

/-- The errors built by `fmt.Errorf` in `add`, one constructor per format string. -/
inductive RouterError where
  /-- The format "router - invalid pattern: %s". -/
  | invalidPattern (pattern : Str)
  /-- The format "router - path must begin with '/': %s". -/
  | mustBeginWithSlash (pattern : Str)
  /-- The format "router - nil handler for pattern %s". -/
  | nilHandler (pattern : Str)
  /-- The format "router - multiple registrations for pattern %s". -/
  | multipleRegistrations (pattern : Str)
  /-- The format "router - the pattern %s matched with %s". -/
  | matched (pattern other : Str)
  deriving DecidableEq, Repr

/-- The error taxonomy of the specification. -/
inductive ErrorKind where
  | PatternError
  | HandlerError
  | DuplicateError
  | ConflictError
  deriving DecidableEq, Repr

/-- The class of each error of `add` in the specification's taxonomy. -/
def RouterError.kind : RouterError → ErrorKind
  | .invalidPattern _ => .PatternError
  | .mustBeginWithSlash _ => .PatternError
  | .nilHandler _ => .HandlerError
  | .multipleRegistrations _ => .DuplicateError
  | .matched _ _ => .ConflictError

/-- The test `s[0] == ':'` on a non-empty segment: the segment is a parameter. -/
def isParam : Str → Bool
  | [] => false
  | c :: _ => decide (c = ':')

/-- The inner loop of `find` (`for i, value := range segments`), with the map `params`
built so far.  The first list holds the remaining segments of the url, the second one
the remaining `entry.segments[i:]`.  `some params` is `match == true`, `none` is the
`break` with `match == false`. -/
def matchSegments : List Str → List Str → Params → Except Panic (Option Params)
  | [], _, params => .ok (some params)
  | _ :: _, [], _ => .error .indexOutOfRange
  | value :: rest, eseg :: erest, params =>
    match eseg with
    | [] => .error .indexOutOfRange
    | c :: _ =>
      if c = ':' then matchSegments rest erest (mapAssign params eseg value)
      else
        match value with
        | [] => .error .indexOutOfRange
        | v :: _ =>
          if v = ':' ∨ eseg = value then matchSegments rest erest params
          else .ok none

/-- The body of the outer loop of `find` for one entry: `some params` when the entry is
returned with `params`, `none` when the loop goes on to the next entry. -/
def matchEntry {H : Type} (entry : routerEntry H) (url : Str) (hasParam : Bool) :
    Except Panic (Option Params) :=
  if entry.HasParams || hasParam then
    match url with
    | [] => .error .sliceBoundsOutOfRange
    | _ :: tail =>
      let segments := Split tail '/'
      if segments.length ≠ entry.segments.length then .ok none
      else matchSegments segments entry.segments []
  else if entry.Pattern = url then .ok (some [])
  else .ok none

/-- The outer loop of `find` over the sequence `r.entries[method]`. -/
def findIn {H : Type} : List (routerEntry H) → Str → Bool →
    Except Panic (Option (routerEntry H × Params))
  | [], _, _ => .ok none
  | entry :: rest, url, hasParam =>
    match matchEntry entry url hasParam with
    | .error p => .error p
    | .ok (some params) => .ok (some (entry, params))
    | .ok none => findIn rest url hasParam

/-- The method `Router.find`: the entry and the parameters for a request, `none` for the
result `nil, nil`. -/
def find {H : Type} (r : Router H) (method url : Str) (hasParam : Bool) :
    Except Panic (Option (routerEntry H × Params)) :=
  findIn (r.entries method) url hasParam

/-- Lines 67-71 of `add`: one trailing `'/'` is removed, except from the pattern "/". -/
def normalize (pattern : Str) : Str :=
  let n := pattern.length
  if pattern ≠ ['/'] ∧ n > 0 ∧ pattern[n - 1]? = some '/' then pattern.take (n - 1)
  else pattern

/-- The method `Router.add`.  The result is the router state after the call together
with the outcome: `.ok none` for a nil error, `.ok (some e)` for a returned error, and
`.error p` when the call panics.  The `middleware` argument is accepted and, as in the
source, not used. -/
def add {H : Type} (r : Router H) (method pattern : Str) (handler : Option H)
    (_middleware : List (MiddlewareFunc H)) :
    Router H × Except Panic (Option RouterError) :=
  if pattern = [] then (r, .ok (some (.invalidPattern pattern)))
  else if pattern.head? ≠ some '/' then (r, .ok (some (.mustBeginWithSlash pattern)))
  else if handler.isNone then (r, .ok (some (.nilHandler pattern)))
  else
    let pattern := normalize pattern
    let segments := Split (pattern.drop 1) '/'
    if (r.entries method).any (fun entry => decide (entry.Pattern = pattern)) then
      (r, .ok (some (.multipleRegistrations pattern)))
    else
      let hasParam := Contains pattern ':'
      match find r method pattern hasParam with
      | .error p => (r, .error p)
      | .ok (some (h, _)) => (r, .ok (some (.matched pattern h.Pattern)))
      | .ok none =>
        let hasParams := Contains pattern ':'
        let entry : routerEntry H :=
          { HasParams := hasParams, Handler := handler, Pattern := pattern,
            segments := segments }
        ({ r with entries := fun m =>
            if m = method then r.entries method ++ [entry] else r.entries m },
          .ok none)

/-- Registering a list of `(method, pattern, handler)` triples in order with `add`,
stopping at the first call that does not return nil. -/
def addAll {H : Type} (r : Router H) :
    List (Str × Str × Option H) → Router H × Except Panic (Option RouterError)
  | [] => (r, .ok none)
  | (m, p, h) :: rest =>
    match add r m p h [] with
    | (r', .ok none) => addAll r' rest
    | res => res

/-- The router states reachable from `New` by calls of `add` that return nil. -/
inductive Reachable {H : Type} : Router H → Prop where
  | new : Reachable New
  | add (r : Router H) (method pattern : Str) (handler : Option H)
      (middleware : List (MiddlewareFunc H)) :
      Reachable r → (add r method pattern handler middleware).2 = .ok none →
      Reachable (add r method pattern handler middleware).1

/-- The segments that `add` stores for a pattern: the normalized pattern without its
first byte, split on `'/'` (line 73). -/
def segmentsOf (pattern : Str) : List Str :=
  Split ((normalize pattern).drop 1) '/'

/-- The entry that a successful `add` appends (line 92). -/
def newEntry {H : Type} (pattern : Str) (handler : Option H) : routerEntry H :=
  { HasParams := Contains (normalize pattern) ':', Handler := handler,
    Pattern := normalize pattern, segments := segmentsOf pattern }

/-- The entry has the shape that `add` gives to every entry it stores: the pattern starts
with `'/'`, the flag and the segments are computed from the pattern. -/
def routerEntry.Compiled {H : Type} (e : routerEntry H) : Prop :=
  e.Pattern.head? = some '/' ∧ e.HasParams = Contains e.Pattern ':' ∧
    e.segments = Split (e.Pattern.drop 1) '/'

/-- Two segments at the same position are compatible: they are the same text, or one of
them is a parameter.  This is the test of the segment loop of `find`, which is symmetric
in the two segments. -/
def segCompat (a b : Str) : Prop :=
  a = b ∨ isParam a = true ∨ isParam b = true

/-- The invariant that successful registrations maintain on every method's sequence:
every entry is compiled from its pattern, and for an entry `x` stored before an entry
`y` the patterns differ and the conflict probe of `y` against `x` found no match. -/
def RouterInv {H : Type} (r : Router H) : Prop :=
  ∀ m, (∀ e ∈ r.entries m, e.Compiled) ∧
    (r.entries m).Pairwise (fun x y =>
      x.Pattern ≠ y.Pattern ∧ matchEntry x y.Pattern y.HasParams = .ok none)

/-- The route `e` matches the url: the loop body of `find` returns `e`. -/
def Matches {H : Type} (e : routerEntry H) (url : Str) (hasParam : Bool) : Prop :=
  ∃ ps, matchEntry e url hasParam = .ok (some ps)

/-- The route `e` is compared with the url and rejected: the loop of `find` goes on. -/
def Rejects {H : Type} (e : routerEntry H) (url : Str) (hasParam : Bool) : Prop :=
  matchEntry e url hasParam = .ok none

/-- The outcome of a call of `add` is a returned error of the given class. -/
def FailsWith (out : Except Panic (Option RouterError)) (k : ErrorKind) : Prop :=
  ∃ e, out = .ok (some e) ∧ e.kind = k

/-- The method name "GET". -/
def GET : Str := "GET".toList

/-- The method name "HEAD". -/
def HEAD : Str := "HEAD".toList

/-- The method name "POST". -/
def POST : Str := "POST".toList

/-- The method name "DELETE". -/
def DELETE : Str := "DELETE".toList

/-- The router of `TestHandlerParams` for the method HEAD: one route with three
parameters. -/
def headRouter : Router Nat :=
  (add New HEAD "/users/:param1/:param2/nonparam/:param3".toList (some 0) []).1

/-- The entry stored in `headRouter`. -/
def headEntry : routerEntry Nat :=
  newEntry "/users/:param1/:param2/nonparam/:param3".toList (some 0)

/-- A router with the routes GET "/users" and GET "/users/:id", registered in this order. -/
def usersRouter : Router Nat :=
  (add (add New GET "/users".toList (some 0) []).1 GET "/users/:id".toList (some 1) []).1

/-- The router with the routes GET "/", GET "/users" and GET "/user/list", the first
three registrations of `TestShouldNotPanic`. -/
def threeRoutes : Router Nat :=
  (add (add (add New GET "/".toList (some 0) []).1 GET "/users".toList (some 1) []).1
    GET "/user/list".toList (some 2) []).1

/-- The eleven registrations of `TestShouldNotPanic`, in order. -/
def shouldNotPanicRoutes : List (Str × Str × Option Nat) :=
  [(GET, "/".toList, some 0), (GET, "/users".toList, some 1),
    (GET, "/user/list".toList, some 2), (GET, "/users/:id".toList, some 3),
    (GET, "/users/:id/emails".toList, some 4), (GET, "/users/:id/delete".toList, some 5),
    (POST, "/users".toList, some 6), (DELETE, "/users".toList, some 7),
    (GET, "/roles".toList, some 8), (GET, "/role/list".toList, some 9),
    (GET, "/roles/:id".toList, some 10)]

/-- The segment `v` of a request path instantiates the segment `s` of a pattern: a
parameter segment is replaced by a non-empty text without a slash that does not begin
with a colon, every other segment is kept as it is. -/
def Instantiates (s v : Str) : Prop :=
  (isParam s = true ∧ v ≠ [] ∧ isParam v = false ∧ '/' ∉ v) ∨ (isParam s = false ∧ v = s)

/-- The five registrations of `TestHandler`, in order; the handler that writes "1" is 1,
"hello" is 2, "hi" is 3, "2" is 4 and "deleted" is 5. -/
def handlerRoutes : List (Str × Str × Option Nat) :=
  [(GET, "/".toList, some 1), (GET, "/users".toList, some 2),
    (POST, "/users".toList, some 3), (GET, "/users/:id".toList, some 4),
    (DELETE, "/users/:id".toList, some 5)]

/-- The router of `TestHandler` after its five registrations. -/
def handlerRouter : Router Nat :=
  (addAll New handlerRoutes).1

/-- The test at the head of `strings.ToUpper`: every byte of the string is below
`utf8.RuneSelf` (0x80). -/
def isASCII (s : Str) : Bool :=
  s.all (fun c => decide (c.toNat < 128))

/-- The call `strings.ToUpper(s)`.  On a string of ASCII bytes the bytes 'a' to 'z' are
mapped to 'A' to 'Z' and every other byte is kept.  On every other string the result is
`strings.Map(unicode.ToUpper, s)`, which decodes the string and applies the Unicode case
tables of the standard library; that function is the argument `U`, about which nothing
is assumed. -/
def ToUpper (U : Str → Str) (s : Str) : Str :=
  if isASCII s = true then s.map Char.toUpper else U s

/-- A Unicode branch of `strings.ToUpper` that keeps its argument, as
`strings.Map(unicode.ToUpper, s)` does on a valid string whose code points have no other
upper case, such as "ß" (U+00DF, the bytes c3 9f).  It stands for the argument `U` in
evaluations; a method of ASCII bytes does not reach it. -/
def keepRunes : Str → Str :=
  fun s => s

/-- The value passed to `panic`: a run-time error, the error returned by `add` (raised by
`Handle`), or any other Go value, identified by a number. -/
inductive PanicValue where
  | runtime (p : Panic)
  | error (e : RouterError)
  | value (v : Nat)
  deriving DecidableEq, Repr

/-- The method `Router.Handle`: it registers with the upper-cased method and panics with
the error when `add` returns one.  The result is the router state after the call and
`.ok ()` for a normal return or `.error v` for a panic with the value `v`. -/
def Handle {H : Type} (U : Str → Str) (r : Router H) (method path : Str)
    (handle : Option H) (middleware : List (MiddlewareFunc H)) :
    Router H × Except PanicValue Unit :=
  match add r (ToUpper U method) path handle middleware with
  | (r', .ok none) => (r', .ok ())
  | (r', .ok (some err)) => (r', .error (.error err))
  | (r', .error p) => (r', .error (.runtime p))

/-- Registering a list of `(method, pattern, handler)` triples in order with `Handle`,
stopping at the first call that panics. -/
def HandleAll {H : Type} (U : Str → Str) (r : Router H) :
    List (Str × Str × Option H) → Router H × Except PanicValue Unit
  | [] => (r, .ok ())
  | (m, p, h) :: rest =>
    match Handle U r m p h [] with
    | (r', .ok ()) => HandleAll U r' rest
    | res => res

/-- The method name "PUT". -/
def PUT : Str := "PUT".toList

/-- The method name "PATCH". -/
def PATCH : Str := "PATCH".toList

/-- The method name "OPTIONS". -/
def OPTIONS : Str := "OPTIONS".toList

/-- The eight registrations of `TestHServeHttp`, in order; `handlerTest` is the handler 1
and `handlerTest2` is the handler 2. -/
def serveRoutes : List (Str × Str × Option Nat) :=
  [(GET, "/users".toList, some 1), (POST, "/users/:id".toList, some 1),
    (DELETE, "/users/:username".toList, some 1), (GET, "/users/:id/email".toList, some 1),
    (PUT, "/users/:uuid".toList, some 2), (PATCH, "/users/:uuid/update".toList, some 1),
    (OPTIONS, "/users".toList, some 1),
    (HEAD, "/users/:param1/:param2/nonparam/:param3".toList, some 1)]

/-- The router of `TestHServeHttp` after its eight registrations. -/
def serveRouter : Router Nat :=
  (HandleAll keepRunes New serveRoutes).1

/-- The type `url.Values`, a `map[string][]string`, as an association list with at most
one pair per key; the nil map is `[]`. -/
abbrev Values := List (Str × List Str)

/-- The method `Values.Add(key, value)`: the value is appended to the values of the
key. -/
def valuesAdd : Values → Str → Str → Values
  | [], k, v => [(k, [v])]
  | (k', vs) :: rest, k, v =>
    if k' = k then (k', vs ++ [v]) :: rest else (k', vs) :: valuesAdd rest k v

/-- The map read `values[key]`: the values of the key, nil for an absent key. -/
def valuesIndex : Values → Str → List Str
  | [], _ => []
  | (k', vs) :: rest, k => if k' = k then vs else valuesIndex rest k

/-- The method `Values.Get(key)`: the first value of the key, or the empty string. -/
def valuesGet (vals : Values) (key : Str) : Str :=
  match valuesIndex vals key with
  | [] => []
  | v :: _ => v

/-- The part of `http.Request` that the router and `PathParam` use: the method, the path
`URL.Path`, the field `Form` (nil is `none`), and the values that `ParseMultipartForm`
would store in `Form` from the query and the body when `Form` is nil. -/
structure Request where
  Method : Str
  Path : Str
  Form : Option Values
  parsed : Values
  deriving DecidableEq, Repr

/-- The method `Request.FormValue(key)` of net/http: when `Form` is nil it is parsed
first; the result is the first value of the key in `Form`, or the empty string. -/
def FormValue (req : Request) (key : Str) : Str :=
  match req.Form with
  | none => valuesGet req.parsed key
  | some form => valuesGet form key

/-- The function `request.PathParam`: `r.FormValue(":" + name)`. -/
def PathParam (r : Request) (name : Str) : Str :=
  FormValue r (':' :: name)

/-- The loop `for k, v := range params` of `ServeHTTP`: `Form` is made when it is nil and
every pair is added with `req.Form.Add(k, v)`.  Go ranges over a map in an unspecified
order; the keys of `params` are distinct, so every order gives the same map. -/
def publish : Params → Request → Request
  | [], req => req
  | (k, v) :: rest, req =>
    publish rest { req with Form := some (valuesAdd (req.Form.getD []) k v) }

/-- A value of type `http.ResponseWriter`, an opaque identifier. -/
abbrev ResponseWriter := Nat

/-- The calls of function values that `ServeHTTP` and `noFound` make. -/
inductive Event (H : Type) where
  /-- The call `entry.Handler(w, req)`. -/
  | handler (h : H) (w : ResponseWriter) (req : Request)
  /-- The call `r.NotFound.ServeHTTP(w, req)`. -/
  | notFound (nf : H) (w : ResponseWriter) (req : Request)
  /-- The call `http.NotFound(w, req)`, which replies with the status 404. -/
  | httpNotFound (w : ResponseWriter) (req : Request)
  /-- The call `r.PanicHandler(w, req, rcv)`. -/
  | panicHandler (ph : H) (w : ResponseWriter) (req : Request) (rcv : PanicValue)
  deriving DecidableEq, Repr

/-- The event is a call of a route handler. -/
def Event.isHandler {H : Type} : Event H → Bool
  | .handler _ _ _ => true
  | _ => false

/-- The event is a call of the configured `NotFound` handler. -/
def Event.isNotFound {H : Type} : Event H → Bool
  | .notFound _ _ _ => true
  | _ => false

/-- The event is a call of `http.NotFound`. -/
def Event.isHttpNotFound {H : Type} : Event H → Bool
  | .httpNotFound _ _ => true
  | _ => false

/-- The event is a call of the `PanicHandler` hook. -/
def Event.isPanicHandler {H : Type} : Event H → Bool
  | .panicHandler _ _ _ _ => true
  | _ => false

/-- What the called functions do, as far as `ServeHTTP` observes it: a call returns
(`none`) or panics with a value (`some v`). -/
abbrev Calls (H : Type) := Event H → Option PanicValue

/-- The method `Router.noFound`: the calls it makes and its outcome, `none` for a normal
return and `some v` for a panic with the value `v`. -/
def noFound {H : Type} (r : Router H) (calls : Calls H) (w : ResponseWriter)
    (req : Request) : List (Event H) × Option PanicValue :=
  match r.NotFound with
  | some nf => ([.notFound nf w req], calls (.notFound nf w req))
  | none => ([.httpNotFound w req], calls (.httpNotFound w req))

/-- The body of `ServeHTTP` after the deferred function is installed (lines 191-206):
the calls made, the outcome (`none` for reaching the end or the `return`, `some v` for a
panic with `v`), and the request as the body leaves it. -/
def serveBody {H : Type} (r : Router H) (calls : Calls H) (w : ResponseWriter)
    (req : Request) : List (Event H) × Option PanicValue × Request :=
  match find r req.Method req.Path false with
  | .error p => ([], some (.runtime p), req)
  | .ok none => ((noFound r calls w req).1, (noFound r calls w req).2, req)
  | .ok (some (entry, params)) =>
    let req' := publish params req
    match entry.Handler with
    | none => ([], some (.runtime .nilDereference), req')
    | some h => ([.handler h w req'], calls (.handler h w req'), req')

/-- The method `Router.ServeHTTP`: the calls it makes, in order, and its outcome, `none`
for a normal return and `some v` for a panic with the value `v`.  When `PanicHandler` is
set, the deferred function recovers a panic of the body and calls the hook with the
recovered value.  (A panic value is never nil here: `recover` returns nil for it.) -/
def ServeHTTP {H : Type} (r : Router H) (calls : Calls H) (w : ResponseWriter)
    (req : Request) : List (Event H) × Option PanicValue :=
  match r.PanicHandler, (serveBody r calls w req).2.1 with
  | some ph, some rcv =>
    ((serveBody r calls w req).1 ++ [.panicHandler ph w (serveBody r calls w req).2.2 rcv],
      calls (.panicHandler ph w (serveBody r calls w req).2.2 rcv))
  | _, out => ((serveBody r calls w req).1, out)

/-- The request PUT "/users/12345-67890" of `TestHServeHttp`, with a given `Form`. -/
def uuidRequest (form : Option Values) : Request :=
  { Method := PUT, Path := "/users/12345-67890".toList, Form := form, parsed := [] }

/-- The request POST "/users/123456" of `TestHServeHttp`, with a given `Form`. -/
def idRequest (form : Option Values) : Request :=
  { Method := POST, Path := "/users/123456".toList, Form := form, parsed := [] }

/-- The type `gohan.MiddlewareFunc`, on service handlers of an abstract type `G`. -/
abbrev ServiceMiddlewareFunc (G : Type) := G → G

/-- The part of `gohan.Service` that `Service.Handle` uses: the router, and the function
value that `wrapHandle` builds around a service handler (the closure `next`, which is
never nil). -/
structure Service (G H : Type) where
  router : Router H
  wrapHandle : G → H

/-- The method `Service.Handle` of gohan.go: the loop applies each middleware to the
handler built so far, and the wrapped result is registered with `Router.Handle` without
router middlewares.  The result is the service after the call and the outcome of
`Router.Handle`. -/
def Service.Handle {G H : Type} (U : Str → Str) (s : Service G H) (method path : Str)
    (handle : G) (middlewares : List (ServiceMiddlewareFunc G)) :
    Service G H × Except PanicValue Unit :=
  let handle := middlewares.foldl (fun h middleware => middleware h) handle
  ({ s with router := (Gohan.Handle U s.router method path (some (s.wrapHandle handle)) []).1 },
    (Gohan.Handle U s.router method path (some (s.wrapHandle handle)) []).2)

/-- The state of the mutex `r.mu` and of the goroutines that run router code: whether
the write lock is held, the number of read locks held, the number of goroutines inside
the body of `add` (after `r.mu.Lock()`, before the deferred `r.mu.Unlock()`), and the
number of goroutines inside the scan of `find`. -/
structure LockState where
  writer : Bool
  readers : Nat
  adding : Nat
  scanning : Nat
  deriving DecidableEq, Repr

/-- The steps of goroutines that call `add` and `find` (directly or from `ServeHTTP`), as
far as `r.mu` is concerned.  `add` begins with `r.mu.Lock()`, which waits until no lock
is held, and ends with the deferred `r.mu.Unlock()`.  `find` and `ServeHTTP` contain no
call on `r.mu`: a scan begins and ends in any state. -/
inductive LockStep : LockState → LockState → Prop where
  | addLock (s : LockState) : s.writer = false → s.readers = 0 →
      LockStep s { s with writer := true, adding := s.adding + 1 }
  | addUnlock (s : LockState) : 0 < s.adding →
      LockStep s { s with writer := false, adding := s.adding - 1 }
  | findBegin (s : LockState) : LockStep s { s with scanning := s.scanning + 1 }
  | findEnd (s : LockState) : 0 < s.scanning →
      LockStep s { s with scanning := s.scanning - 1 }

/-- The lock states reachable from the state without locks and without goroutines. -/
inductive LockReachable : LockState → Prop where
  | init : LockReachable { writer := false, readers := 0, adding := 0, scanning := 0 }
  | step (s t : LockState) : LockReachable s → LockStep s t → LockReachable t

/-- The router with the single route GET "/users". -/
def onlyUsersRouter : Router Nat :=
  (add New GET "/users".toList (some 0) []).1

/-- The router with the routes GET "/users" and GET "/users/:id/email", the GET routes
of `TestHServeHttp`. -/
def emailRouter : Router Nat :=
  (add (add New GET "/users".toList (some 1) []).1 GET "/users/:id/email".toList
    (some 1) []).1

/-- The router with the single route GET "/a:b", a pattern with a colon inside a
segment. -/
def colonRouter : Router Nat :=
  (add New GET "/a:b".toList (some 0) []).1

/-- The router with the single route GET "/:a/:a", which uses one parameter name at two
positions. -/
def repeatRouter : Router Nat :=
  (add New GET "/:a/:a".toList (some 0) []).1

/-- The router states built from `New` by calls of `Handle`, whatever their outcome, and
by assignments to the exported fields `NotFound` and `PanicHandler`, where every method
passed to `Handle` is a string of ASCII bytes, or a string that the Unicode branch of
`strings.ToUpper` maps to a string without a byte 'a' to 'z'. -/
inductive HandleReachable {H : Type} (U : Str → Str) : Router H → Prop where
  | new : HandleReachable U New
  | handle (r : Router H) (method path : Str) (handle : Option H)
      (middleware : List (MiddlewareFunc H)) :
      (isASCII method = true ∨ ∀ c ∈ U method, c.isLower = false) →
      HandleReachable U r → HandleReachable U (Handle U r method path handle middleware).1
  | configure (r : Router H) (nf ph : Option H) :
      HandleReachable U r → HandleReachable U { r with NotFound := nf, PanicHandler := ph }

/-- A router with the routes GET "/u/lit/a/:p" and GET "/u/:q/b/:r", registered in this
order. -/
def shadowRouter : Router Nat :=
  (add (add New GET "/u/lit/a/:p".toList (some 0) []).1 GET "/u/:q/b/:r".toList
    (some 1) []).1

/-- A router with the routes GET "/x/:id/a" and GET "/x/:id/b", registered in this
order. -/
def twinRouter : Router Nat :=
  (add (add New GET "/x/:id/a".toList (some 0) []).1 GET "/x/:id/b".toList (some 1) []).1

/-- The router of `TestHServeHttp` with both hooks set: the `NotFound` handler 7 and the
`PanicHandler` 9. -/
def hookedRouter : Router Nat :=
  { serveRouter with NotFound := some 7, PanicHandler := some 9 }

/-- The method name "ß": the two bytes c3 9f that encode U+00DF, a lower-case letter
without an upper-case code point, which `strings.ToUpper` keeps. -/
def sharpS : Str := [Char.ofNat 0xc3, Char.ofNat 0x9f]

/-- The call `strings.Join(ws, sep)` for a one-byte separator; the inverse of `Split`,
used to recover a pattern from its segments. -/
def Join : List Str → Char → Str
  | [], _ => []
  | [w], _ => w
  | w :: w' :: ws, sep => w ++ sep :: Join (w' :: ws) sep

/-! ## Strings: `Split`, `Contains`, `normalize` -/

theorem Split_ne_nil (s : Str) (sep : Char) : Split s sep ≠ [] := by
  cases s with
  | nil => simp [Split]
  | cons c cs =>
    unfold Split
    split
    · simp
    · split <;> simp

theorem Join_Split (s : Str) (sep : Char) : Join (Split s sep) sep = s := by
  induction s with
  | nil => simp [Split, Join]
  | cons c cs ih =>
    unfold Split
    split
    · next h =>
      cases hs : Split cs sep with
      | nil => exact absurd hs (Split_ne_nil cs sep)
      | cons w ws => rw [hs] at ih; simp [Join, ih, h]
    · cases hs : Split cs sep with
      | nil => exact absurd hs (Split_ne_nil cs sep)
      | cons w ws =>
        rw [hs] at ih
        cases ws with
        | nil => simpa [Join] using ih
        | cons w' ws' => simp only [Join] at ih ⊢; simp [ih]

theorem Split_injective {a b : Str} {sep : Char} (h : Split a sep = Split b sep) : a = b := by
  rw [← Join_Split a sep, ← Join_Split b sep, h]

theorem mem_of_mem_Split {s : Str} {sep c : Char} {w : Str} (hw : w ∈ Split s sep)
    (hc : c ∈ w) : c ∈ s := by
  induction s generalizing w with
  | nil => simp [Split] at hw; subst hw; simp at hc
  | cons d ds ih =>
    unfold Split at hw
    split at hw
    · rcases List.mem_cons.1 hw with h | h
      · subst h; simp at hc
      · exact List.mem_cons_of_mem _ (ih h hc)
    · cases hs : Split ds sep with
      | nil => exact absurd hs (Split_ne_nil ds sep)
      | cons w' ws =>
        rw [hs] at hw ih
        rcases List.mem_cons.1 hw with h | h
        · subst h
          rcases List.mem_cons.1 hc with h' | h'
          · subst h'; simp
          · exact List.mem_cons_of_mem _ (ih (List.mem_cons_self _ _) h')
        · exact List.mem_cons_of_mem _ (ih (List.mem_cons_of_mem _ h) hc)

theorem Contains_eq_true {s : Str} {c : Char} : Contains s c = true ↔ c ∈ s := by
  simp [Contains]

theorem isParam_iff {s : Str} : isParam s = true ↔ s.head? = some ':' := by
  cases s <;> simp [isParam]

theorem Contains_of_isParam_mem_Split {s : Str} {w : Str} (hw : w ∈ Split s '/')
    (hp : isParam w = true) : Contains s ':' = true := by
  rw [Contains_eq_true]
  apply mem_of_mem_Split hw
  cases w with
  | nil => simp [isParam] at hp
  | cons c cs => simp [isParam] at hp; simp [hp]

theorem normalize_eq_self_or (p : Str) :
    normalize p = p ∨ (p ≠ ['/'] ∧ p = normalize p ++ ['/']) := by
  unfold normalize
  simp only
  split
  · next h =>
    right
    refine ⟨h.1, ?_⟩
    obtain ⟨h1, h2, h3⟩ := h
    have hne : p ≠ [] := by intro h0; simp [h0] at h2
    have hl : p.getLast? = some '/' := by rw [List.getLast?_eq_getElem?]; exact h3
    have := List.dropLast_append_getLast? '/' (by simpa using hl)
    rw [← List.dropLast_eq_take]
    exact this.symm
  · left; rfl

theorem normalize_of_no_trailing_slash {p : Str} (h : p.getLast? ≠ some '/') : normalize p = p := by
  unfold normalize
  simp only
  rw [if_neg]
  rintro ⟨-, -, h3⟩
  exact h (by rw [List.getLast?_eq_getElem?]; exact h3)

theorem normalize_append_slash {p : Str} (h : p ≠ []) : normalize (p ++ ['/']) = p := by
  unfold normalize
  simp only
  rw [if_pos]
  · simp
  · refine ⟨?_, by simp, by simp⟩
    intro h'
    cases p with
    | nil => exact h rfl
    | cons c cs => simp at h'

theorem normalize_head {p : Str} (h : p.head? = some '/') :
    (normalize p).head? = some '/' := by
  rcases normalize_eq_self_or p with h' | ⟨hne, h'⟩
  · rw [h']; exact h
  · cases hn : normalize p with
    | nil => rw [hn] at h'; exact absurd h' hne
    | cons c cs => rw [hn] at h'; rw [h'] at h; simpa using h

theorem normalize_ne_nil {p : Str} (h : p.head? = some '/') : normalize p ≠ [] := by
  intro h0
  have := normalize_head h
  simp [h0] at this

theorem normalize_eq_cons {p : Str} (hp : p.head? = some '/') :
    normalize p = '/' :: (normalize p).drop 1 := by
  have h := normalize_head hp
  cases hn : normalize p with
  | nil => rw [hn] at h; simp at h
  | cons c cs => rw [hn] at h; simp at h; simp [h]

theorem Contains_normalize (p : Str) : Contains (normalize p) ':' = Contains p ':' := by
  rcases normalize_eq_self_or p with h' | ⟨-, h'⟩
  · rw [h']
  · conv_rhs => rw [h']
    simp [Contains]

/-! ## The scan of `find` -/

theorem findIn_eq_ok_none_iff {H : Type} (es : List (routerEntry H)) (url : Str)
    (hasParam : Bool) :
    findIn es url hasParam = .ok none ↔ ∀ e ∈ es, matchEntry e url hasParam = .ok none := by
  induction es with
  | nil => simp [findIn]
  | cons entry rest ih =>
    unfold findIn
    cases h : matchEntry entry url hasParam with
    | error p => simp [h]
    | ok o =>
      cases o with
      | none => simp [ih, h]
      | some ps => simp [h]

theorem findIn_eq_ok_some_iff {H : Type} (es : List (routerEntry H)) (url : Str)
    (hasParam : Bool) (e : routerEntry H) (ps : Params) :
    findIn es url hasParam = .ok (some (e, ps)) ↔
      ∃ k : Nat, es[k]? = some e ∧ matchEntry e url hasParam = .ok (some ps) ∧
        ∀ j : Nat, j < k → ∀ e', es[j]? = some e' → matchEntry e' url hasParam = .ok none := by
  induction es with
  | nil => simp [findIn]
  | cons entry rest ih =>
    unfold findIn
    cases h : matchEntry entry url hasParam with
    | error p =>
      simp only [false_iff, not_exists, reduceCtorEq]
      rintro k ⟨hk, hm, hlt⟩
      cases k with
      | zero =>
        simp at hk; subst hk; rw [h] at hm; cases hm
      | succ k =>
        have := hlt 0 (Nat.succ_pos k) entry (by simp)
        rw [h] at this; cases this
    | ok o =>
      cases o with
      | none =>
        simp only [ih]
        constructor
        · rintro ⟨k, hk, hm, hlt⟩
          refine ⟨k + 1, by simpa using hk, hm, ?_⟩
          intro j hj e' he'
          cases j with
          | zero => simp at he'; subst he'; exact h
          | succ j => exact hlt j (Nat.lt_of_succ_lt_succ hj) e' (by simpa using he')
        · rintro ⟨k, hk, hm, hlt⟩
          cases k with
          | zero => simp at hk; subst hk; rw [h] at hm; cases hm
          | succ k =>
            refine ⟨k, by simpa using hk, hm, ?_⟩
            intro j hj e' he'
            exact hlt (j + 1) (Nat.succ_lt_succ hj) e' (by simpa using he')
      | some qs =>
        constructor
        · intro heq
          simp only [Except.ok.injEq, Option.some.injEq, Prod.mk.injEq] at heq
          obtain ⟨rfl, rfl⟩ := heq
          exact ⟨0, by simp, h, by intro j hj; exact absurd hj (Nat.not_lt_zero j)⟩
        · rintro ⟨k, hk, hm, hlt⟩
          cases k with
          | zero =>
            simp at hk; subst hk; rw [h] at hm
            simp only [Except.ok.injEq, Option.some.injEq] at hm
            subst hm; rfl
          | succ k =>
            have := hlt 0 (Nat.succ_pos k) entry (by simp)
            rw [h] at this; cases this

theorem findIn_eq_error_iff {H : Type} (es : List (routerEntry H)) (url : Str)
    (hasParam : Bool) (p : Panic) :
    findIn es url hasParam = .error p ↔
      ∃ (k : Nat) (e : routerEntry H), es[k]? = some e ∧ matchEntry e url hasParam = .error p ∧
        ∀ j : Nat, j < k → ∀ e', es[j]? = some e' → matchEntry e' url hasParam = .ok none := by
  induction es with
  | nil => simp [findIn]
  | cons entry rest ih =>
    unfold findIn
    cases h : matchEntry entry url hasParam with
    | error q =>
      constructor
      · intro heq
        simp only [Except.error.injEq] at heq
        subst heq
        exact ⟨0, entry, by simp, h, by intro j hj; exact absurd hj (Nat.not_lt_zero j)⟩
      · rintro ⟨k, e, hk, hm, hlt⟩
        cases k with
        | zero => simp at hk; subst hk; rw [h] at hm; simpa using hm
        | succ k =>
          have := hlt 0 (Nat.succ_pos k) entry (by simp)
          rw [h] at this; cases this
    | ok o =>
      cases o with
      | none =>
        simp only [ih]
        constructor
        · rintro ⟨k, e, hk, hm, hlt⟩
          refine ⟨k + 1, e, by simpa using hk, hm, ?_⟩
          intro j hj e' he'
          cases j with
          | zero => simp at he'; subst he'; exact h
          | succ j => exact hlt j (Nat.lt_of_succ_lt_succ hj) e' (by simpa using he')
        · rintro ⟨k, e, hk, hm, hlt⟩
          cases k with
          | zero => simp at hk; subst hk; rw [h] at hm; cases hm
          | succ k =>
            refine ⟨k, e, by simpa using hk, hm, ?_⟩
            intro j hj e' he'
            exact hlt (j + 1) (Nat.succ_lt_succ hj) e' (by simpa using he')
      | some qs =>
        simp only [false_iff, not_exists, reduceCtorEq]
        rintro k e ⟨hk, hm, hlt⟩
        cases k with
        | zero => simp at hk; subst hk; rw [h] at hm; cases hm
        | succ k =>
          have := hlt 0 (Nat.succ_pos k) entry (by simp)
          rw [h] at this; cases this

/-! ## Maps of parameters -/

theorem mapIndex_mapAssign_self (ps : Params) (k v : Str) :
    mapIndex (mapAssign ps k v) k = some v := by
  induction ps with
  | nil => simp [mapAssign, mapIndex]
  | cons kv ps ih =>
    obtain ⟨k', v'⟩ := kv
    unfold mapAssign
    split
    · simp [mapIndex]
    · next h => simp [mapIndex, h, ih]

theorem mapIndex_mapAssign_ne (ps : Params) {k k' : Str} (v : Str) (h : k' ≠ k) :
    mapIndex (mapAssign ps k v) k' = mapIndex ps k' := by
  induction ps with
  | nil => simp [mapAssign, mapIndex, Ne.symm h]
  | cons kv ps ih =>
    obtain ⟨k₀, v₀⟩ := kv
    unfold mapAssign
    split
    · next h0 => subst h0; simp [mapIndex, Ne.symm h]
    · next h0 => simp only [mapIndex, ih]

theorem mapKeys_mapAssign_of_not_mem {ps : Params} {k : Str} (v : Str)
    (h : k ∉ mapKeys ps) : mapKeys (mapAssign ps k v) = mapKeys ps ++ [k] := by
  induction ps with
  | nil => simp [mapAssign, mapKeys]
  | cons kv ps ih =>
    obtain ⟨k₀, v₀⟩ := kv
    simp only [mapKeys, List.map_cons, List.mem_cons, not_or] at h
    unfold mapAssign
    rw [if_neg (Ne.symm h.1)]
    have := ih (by simpa [mapKeys] using h.2)
    simp only [mapKeys] at this
    simp [mapKeys, this]

/-! ## The segment loop -/

theorem matchSegments_bindings (vs es : List Str) (acc ps : Params)
    (hlen : vs.length = es.length)
    (hnd : (es.filter isParam).Nodup)
    (hdisj : ∀ k ∈ es.filter isParam, k ∉ mapKeys acc)
    (h : matchSegments vs es acc = .ok (some ps)) :
    mapKeys ps = mapKeys acc ++ es.filter isParam ∧
    (∀ (i : Nat) (hi : i < es.length), isParam es[i] = true → mapIndex ps es[i] = vs[i]?) ∧
    (∀ k, k ∉ es.filter isParam → mapIndex ps k = mapIndex acc k) := by
  induction vs generalizing es acc with
  | nil =>
    cases es with
    | nil =>
      simp only [matchSegments, Except.ok.injEq, Option.some.injEq] at h
      subst h
      simp
    | cons e es => simp at hlen
  | cons v vs ih =>
    cases es with
    | nil => simp at hlen
    | cons e es =>
      have hlen' : vs.length = es.length := by simpa using hlen
      cases e with
      | nil => simp [matchSegments] at h
      | cons c cs =>
        by_cases hc : c = ':'
        · subst hc
          have hpar : isParam (':' :: cs) = true := by simp [isParam]
          simp only [matchSegments, if_true] at h
          rw [List.filter_cons_of_pos hpar] at hnd hdisj
          have hnd' := (List.nodup_cons.1 hnd)
          have hk : (':' :: cs) ∉ mapKeys acc := hdisj _ (List.mem_cons_self _ _)
          have hkeys := mapKeys_mapAssign_of_not_mem v hk
          obtain ⟨h1, h2, h3⟩ := ih es (mapAssign acc (':' :: cs) v) hlen' hnd'.2
            (by
              intro k hkm
              rw [hkeys]
              simp only [List.mem_append, List.mem_singleton, not_or]
              refine ⟨hdisj k (List.mem_cons_of_mem _ hkm), ?_⟩
              rintro rfl
              exact hnd'.1 hkm) h
          refine ⟨?_, ?_, ?_⟩
          · rw [h1, hkeys, List.filter_cons_of_pos hpar]; simp
          · intro i hi hp
            cases i with
            | zero =>
              simp only [List.getElem_cons_zero, List.getElem?_cons_zero]
              rw [h3 _ hnd'.1, mapIndex_mapAssign_self]
            | succ i =>
              simp only [List.getElem_cons_succ, List.getElem?_cons_succ]
              exact h2 i (by simpa using hi) (by simpa using hp)
          · intro k hk'
            rw [List.filter_cons_of_pos hpar] at hk'
            simp only [List.mem_cons, not_or] at hk'
            rw [h3 k hk'.2, mapIndex_mapAssign_ne _ _ hk'.1]
        · have hpar : ¬ (isParam (c :: cs) = true) := by simp [isParam, hc]
          rw [List.filter_cons_of_neg hpar] at hnd hdisj ⊢
          simp only [matchSegments, if_neg hc] at h
          cases v with
          | nil => simp at h
          | cons d ds =>
            simp only at h
            split at h
            · obtain ⟨h1, h2, h3⟩ := ih es acc hlen' hnd hdisj h
              refine ⟨h1, ?_, h3⟩
              intro i hi hp
              cases i with
              | zero => simp only [List.getElem_cons_zero] at hp; exact absurd hp hpar
              | succ i =>
                simp only [List.getElem_cons_succ, List.getElem?_cons_succ]
                exact h2 i (by simpa using hi) (by simpa using hp)
            · simp at h

theorem segCompat_symm {a b : Str} (h : segCompat a b) : segCompat b a := by
  rcases h with h | h | h
  · exact Or.inl h.symm
  · exact Or.inr (Or.inr h)
  · exact Or.inr (Or.inl h)

theorem matchSegments_ne_ok_none {vs es : List Str} (acc : Params)
    (h : List.Forall₂ segCompat vs es) : matchSegments vs es acc ≠ .ok none := by
  induction h generalizing acc with
  | nil => simp [matchSegments]
  | @cons v e vs es hve _ ih =>
    cases e with
    | nil => simp [matchSegments]
    | cons c cs =>
      by_cases hc : c = ':'
      · subst hc; simpa [matchSegments] using ih _
      · cases v with
        | nil => simp [matchSegments, hc]
        | cons d ds =>
          have hcond : d = ':' ∨ c :: cs = d :: ds := by
            rcases hve with h | h | h
            · exact Or.inr h.symm
            · left; simpa [isParam] using h
            · simp [isParam, hc] at h
          simp only [matchSegments, if_neg hc, if_pos hcond]
          exact ih _

theorem matchSegments_ok_some_of_compat {vs es : List Str} (acc : Params)
    (h : List.Forall₂ segCompat vs es) (hv : ∀ v ∈ vs, v ≠ []) (he : ∀ e ∈ es, e ≠ []) :
    ∃ ps, matchSegments vs es acc = .ok (some ps) := by
  induction h generalizing acc with
  | nil => exact ⟨acc, by simp [matchSegments]⟩
  | @cons v e vs es hve _ ih =>
    have hv' : ∀ v ∈ vs, v ≠ [] := fun x hx => hv x (List.mem_cons_of_mem _ hx)
    have he' : ∀ e ∈ es, e ≠ [] := fun x hx => he x (List.mem_cons_of_mem _ hx)
    cases e with
    | nil => exact absurd rfl (he [] (List.mem_cons_self _ _))
    | cons c cs =>
      by_cases hc : c = ':'
      · subst hc; simpa [matchSegments] using ih _ hv' he'
      · cases v with
        | nil => exact absurd rfl (hv [] (List.mem_cons_self _ _))
        | cons d ds =>
          have hcond : d = ':' ∨ c :: cs = d :: ds := by
            rcases hve with h | h | h
            · exact Or.inr h.symm
            · left; simpa [isParam] using h
            · simp [isParam, hc] at h
          simp only [matchSegments, if_neg hc, if_pos hcond]
          exact ih _ hv' he'

theorem matchSegments_compat_of_ok_some {vs es : List Str} {acc ps : Params}
    (hlen : vs.length = es.length) (h : matchSegments vs es acc = .ok (some ps)) :
    List.Forall₂ segCompat vs es := by
  induction vs generalizing es acc with
  | nil =>
    cases es with
    | nil => exact List.Forall₂.nil
    | cons e es => simp at hlen
  | cons v vs ih =>
    cases es with
    | nil => simp at hlen
    | cons e es =>
      have hlen' : vs.length = es.length := by simpa using hlen
      cases e with
      | nil => simp [matchSegments] at h
      | cons c cs =>
        by_cases hc : c = ':'
        · subst hc
          simp only [matchSegments, if_true] at h
          exact List.Forall₂.cons (Or.inr (Or.inr (by simp [isParam]))) (ih hlen' h)
        · simp only [matchSegments, if_neg hc] at h
          cases v with
          | nil => simp at h
          | cons d ds =>
            simp only at h
            split at h
            · next hcond =>
              refine List.Forall₂.cons ?_ (ih hlen' h)
              rcases hcond with hd | hd
              · exact Or.inr (Or.inl (by simp [isParam, hd]))
              · exact Or.inl hd.symm
            · simp at h

theorem matchSegments_ok_none_of_mismatch {vs es : List Str} (acc : Params)
    (hv : ∀ v ∈ vs, v ≠ []) (he : ∀ e ∈ es, e ≠ []) (i : Nat)
    (hi : i < vs.length) (hj : i < es.length) (hne : vs[i] ≠ es[i])
    (hpv : isParam vs[i] = false) (hpe : isParam es[i] = false) :
    matchSegments vs es acc = .ok none := by
  induction vs generalizing es acc i with
  | nil => simp at hi
  | cons v vs ih =>
    cases es with
    | nil => simp at hj
    | cons e es =>
      have hv' : ∀ v ∈ vs, v ≠ [] := fun x hx => hv x (List.mem_cons_of_mem _ hx)
      have he' : ∀ e ∈ es, e ≠ [] := fun x hx => he x (List.mem_cons_of_mem _ hx)
      cases e with
      | nil => exact absurd rfl (he [] (List.mem_cons_self _ _))
      | cons c cs =>
        cases v with
        | nil => exact absurd rfl (hv [] (List.mem_cons_self _ _))
        | cons d ds =>
          cases i with
          | zero =>
            simp only [List.getElem_cons_zero] at hne hpv hpe
            have hc : c ≠ ':' := by simpa [isParam] using hpe
            have hd : d ≠ ':' := by simpa [isParam] using hpv
            have hcond : ¬ (d = ':' ∨ c :: cs = d :: ds) := by
              rintro (h | h)
              · exact hd h
              · exact hne h.symm
            simp only [matchSegments, if_neg hc, if_neg hcond]
          | succ i =>
            simp only [List.getElem_cons_succ] at hne hpv hpe
            have hi' : i < vs.length := by simpa using hi
            have hj' : i < es.length := by simpa using hj
            by_cases hc : c = ':'
            · subst hc
              simp only [matchSegments, if_true]
              exact ih _ hv' he' i hi' hj' hne hpv hpe
            · simp only [matchSegments, if_neg hc]
              split
              · exact ih _ hv' he' i hi' hj' hne hpv hpe
              · rfl

/-! ## Registration -/

theorem add_eq_of_valid {H : Type} (r : Router H) (m : Str) {p : Str} {h : Option H}
    (mw : List (MiddlewareFunc H)) (hp : p.head? = some '/') (hh : h.isSome = true) :
    add r m p h mw =
      if (r.entries m).any (fun e => decide (e.Pattern = normalize p)) then
        (r, .ok (some (.multipleRegistrations (normalize p))))
      else
        match find r m (normalize p) (Contains (normalize p) ':') with
        | .error q => (r, .error q)
        | .ok (some (e, _)) => (r, .ok (some (.matched (normalize p) e.Pattern)))
        | .ok none =>
          ({ r with entries := fun k =>
              if k = m then r.entries m ++ [newEntry p h] else r.entries k }, .ok none) := by
  have hne : p ≠ [] := by intro h0; simp [h0] at hp
  have hh' : h.isNone = false := by cases h <;> simp at hh ⊢
  unfold add
  rw [if_neg hne, if_neg (by simpa using hp)]
  simp only [hh', Bool.false_eq_true, if_false]
  rfl

theorem add_eq_ok_none_iff {H : Type} (r : Router H) (m p : Str) (h : Option H)
    (mw : List (MiddlewareFunc H)) :
    (add r m p h mw).2 = .ok none ↔
      p.head? = some '/' ∧ h.isSome = true ∧ (∀ e ∈ r.entries m, e.Pattern ≠ normalize p) ∧
        ∀ e ∈ r.entries m, matchEntry e (normalize p) (Contains (normalize p) ':') = .ok none := by
  by_cases hp : p.head? = some '/'
  · cases h with
    | none =>
      have hne : p ≠ [] := by intro h0; simp [h0] at hp
      unfold add
      rw [if_neg hne, if_neg (by simpa using hp)]
      simp
    | some h =>
      rw [add_eq_of_valid r m mw hp (show (some h).isSome = true from rfl)]
      split
      · next hany =>
        simp only [List.any_eq_true, decide_eq_true_eq] at hany
        obtain ⟨e, he, heq⟩ := hany
        simp only [reduceCtorEq, Except.ok.injEq, false_iff, not_and]
        intro _ _ hno
        exact absurd heq (hno e he)
      · next hany =>
        simp only [List.any_eq_true, decide_eq_true_eq, not_exists, not_and] at hany
        rw [← findIn_eq_ok_none_iff]
        unfold find
        cases hf : findIn (r.entries m) (normalize p) (Contains (normalize p) ':') with
        | error q => simp
        | ok o =>
          cases o with
          | none => simp [hp]; exact hany
          | some ep => simp
  · constructor
    · intro hok
      unfold add at hok
      split at hok
      · simp at hok
      · simp at hok
    · intro hc; exact absurd hc.1 hp

theorem add_entries_of_ok {H : Type} {r : Router H} {m p : Str} {h : Option H}
    {mw : List (MiddlewareFunc H)} (hok : (add r m p h mw).2 = .ok none) :
    (add r m p h mw).1.entries =
      fun k => if k = m then r.entries m ++ [newEntry p h] else r.entries k := by
  have hc := (add_eq_ok_none_iff r m p h mw).1 hok
  obtain ⟨hp, hh, hdup, hfind⟩ := hc
  rw [add_eq_of_valid r m mw hp hh] at hok ⊢
  have hany : ¬ ((r.entries m).any (fun e => decide (e.Pattern = normalize p)) = true) := by
    simp only [List.any_eq_true, decide_eq_true_eq, not_exists, not_and]
    exact hdup
  rw [if_neg hany]
  have hf : find r m (normalize p) (Contains (normalize p) ':') = .ok none :=
    (findIn_eq_ok_none_iff _ _ _).2 hfind
  rw [hf]

theorem add_unchanged_of_not_ok {H : Type} (r : Router H) (m p : Str) (h : Option H)
    (mw : List (MiddlewareFunc H)) (hne : (add r m p h mw).2 ≠ .ok none) :
    (add r m p h mw).1 = r := by
  by_cases hp : p.head? = some '/'
  · cases h with
    | none =>
      have hp0 : p ≠ [] := by intro h0; simp [h0] at hp
      unfold add
      rw [if_neg hp0, if_neg (by simpa using hp)]
      simp
    | some h =>
      rw [add_eq_of_valid r m mw hp (show (some h).isSome = true from rfl)] at hne ⊢
      split
      · rfl
      · next hany =>
        rw [if_neg hany] at hne
        cases hf : find r m (normalize p) (Contains (normalize p) ':') with
        | error q => rfl
        | ok o =>
          cases o with
          | none => rw [hf] at hne; exact absurd rfl hne
          | some ep => rfl
  · unfold add
    split
    · rfl
    · rfl

theorem add_duplicate {H : Type} (r : Router H) (m : Str) {p : Str} {h : Option H}
    (mw : List (MiddlewareFunc H)) (hp : p.head? = some '/') (hh : h.isSome = true)
    (hdup : ∃ e ∈ r.entries m, e.Pattern = normalize p) :
    add r m p h mw = (r, .ok (some (.multipleRegistrations (normalize p)))) := by
  rw [add_eq_of_valid r m mw hp hh, if_pos]
  simpa using hdup

theorem add_conflict {H : Type} (r : Router H) (m : Str) {p : Str} {h : Option H}
    (mw : List (MiddlewareFunc H)) (hp : p.head? = some '/') (hh : h.isSome = true)
    (hdup : ∀ e ∈ r.entries m, e.Pattern ≠ normalize p) {e : routerEntry H} {ps : Params}
    (hf : find r m (normalize p) (Contains (normalize p) ':') = .ok (some (e, ps))) :
    add r m p h mw = (r, .ok (some (.matched (normalize p) e.Pattern))) := by
  rw [add_eq_of_valid r m mw hp hh, if_neg, hf]
  simpa using hdup

theorem newEntry_compiled {H : Type} {p : Str} (h : Option H) (hp : p.head? = some '/') :
    (newEntry p h).Compiled :=
  ⟨normalize_head hp, rfl, rfl⟩

theorem Reachable.inv {H : Type} {r : Router H} (hr : Reachable r) : RouterInv r := by
  induction hr with
  | new => intro m; simp [New]
  | add r m p h mw _ hok ih =>
    have hc := (add_eq_ok_none_iff r m p h mw).1 hok
    obtain ⟨hp, -, hdup, hfind⟩ := hc
    intro k
    rw [add_entries_of_ok hok]
    by_cases hk : k = m
    · subst hk
      simp only [if_true]
      refine ⟨?_, ?_⟩
      · intro e he
        rcases List.mem_append.1 he with he | he
        · exact (ih k).1 e he
        · rw [List.mem_singleton.1 he]; exact newEntry_compiled h hp
      · rw [List.pairwise_append]
        refine ⟨(ih k).2, List.pairwise_singleton _ _, ?_⟩
        intro x hx y hy
        rw [List.mem_singleton.1 hy]
        exact ⟨hdup x hx, hfind x hx⟩
    · simp only [if_neg hk]
      exact ih k

theorem routerEntry.Compiled.filter_isParam_eq_nil {H : Type} {e : routerEntry H} (hc : e.Compiled)
    (hf : e.HasParams = false) : e.segments.filter isParam = [] := by
  rw [List.filter_eq_nil_iff]
  intro s hs hp
  rw [hc.2.2] at hs
  have h1 := Contains_of_isParam_mem_Split hs hp
  rw [Contains_eq_true] at h1
  have h2 : Contains e.Pattern ':' = true :=
    Contains_eq_true.2 (List.mem_of_mem_drop h1)
  rw [← hc.2.1, hf] at h2
  cases h2

theorem forall₂_segCompat_of_common {xs ys ps : List Str}
    (hx : List.Forall₂ (fun x p => x = p ∨ isParam x = true) xs ps)
    (hy : List.Forall₂ (fun y p => y = p ∨ isParam y = true) ys ps) :
    List.Forall₂ segCompat ys xs := by
  induction hx generalizing ys with
  | nil => cases hy; exact List.Forall₂.nil
  | @cons x p xs ps hxp _ ih =>
    cases hy with
    | @cons y _ ys' _ hyp hrest =>
      refine List.Forall₂.cons ?_ (ih hrest)
      rcases hyp with h | h
      · rcases hxp with h' | h'
        · exact Or.inl (h.trans h'.symm)
        · exact Or.inr (Or.inr h')
      · exact Or.inr (Or.inl h)

/-- What a successful dispatch-time comparison with a concrete path says about the
segments of a compiled entry. -/
theorem matchEntry_concrete {H : Type} {e : routerEntry H} (hc : e.Compiled) {path : Str}
    (hpath : ∀ s ∈ Split (path.drop 1) '/', isParam s = false) {ps : Params}
    (hm : matchEntry e path false = .ok (some ps)) :
    List.Forall₂ (fun x p => x = p ∨ isParam x = true) e.segments (Split (path.drop 1) '/') ∧
      (e.HasParams = false → e.Pattern = path) := by
  unfold matchEntry at hm
  cases hf : e.HasParams with
  | false =>
    simp only [hf, Bool.or_false, Bool.false_eq_true, if_false] at hm
    split at hm
    · next heq =>
      refine ⟨?_, fun _ => heq⟩
      rw [hc.2.2, heq]
      exact List.forall₂_same.2 (fun _ _ => Or.inl rfl)
    · simp at hm
  | true =>
    simp only [hf, Bool.or_false, if_true] at hm
    cases path with
    | nil => simp at hm
    | cons c tail =>
      simp only at hm
      split at hm
      · simp at hm
      · next hlen =>
        simp only [ne_eq, Decidable.not_not] at hlen
        have h1 := matchSegments_compat_of_ok_some hlen hm
        refine ⟨?_, by simp⟩
        simp only [List.drop_succ_cons, List.drop_zero] at hpath ⊢
        have h2 : List.Forall₂ (fun p x => x = p ∨ isParam x = true)
            (Split tail '/') e.segments := by
          rw [List.forall₂_iff_get] at h1 ⊢
          refine ⟨h1.1, fun i hi hj => ?_⟩
          rcases h1.2 i hi hj with h | h | h
          · exact Or.inl h.symm
          · rw [hpath _ (List.get_mem _ _ _)] at h; cases h
          · exact Or.inr h
        exact List.Forall₂.flip h2

theorem matchEntry_ne_ok_none_of_common {H : Type} {x y : routerEntry H} (hx : x.Compiled)
    (hy : y.Compiled) (hne : x.Pattern ≠ y.Pattern) {path : Str}
    (hpath : ∀ s ∈ Split (path.drop 1) '/', isParam s = false) {ps qs : Params}
    (hmx : matchEntry x path false = .ok (some ps))
    (hmy : matchEntry y path false = .ok (some qs)) :
    matchEntry x y.Pattern y.HasParams ≠ .ok none := by
  obtain ⟨fx, ex⟩ := matchEntry_concrete hx hpath hmx
  obtain ⟨fy, ey⟩ := matchEntry_concrete hy hpath hmy
  have hcompat := forall₂_segCompat_of_common fx fy
  unfold matchEntry
  by_cases hflag : (x.HasParams || y.HasParams) = true
  · rw [if_pos hflag]
    obtain ⟨hhead, -, hsegs⟩ := hy
    cases hpat : y.Pattern with
    | nil => rw [hpat] at hhead; simp at hhead
    | cons c tail =>
      rw [hpat] at hsegs
      simp only [List.drop_succ_cons, List.drop_zero] at hsegs
      simp only
      rw [← hsegs, if_neg (by simpa using hcompat.length_eq)]
      exact matchSegments_ne_ok_none [] hcompat
  · simp only [Bool.or_eq_true, not_or, Bool.not_eq_true] at hflag
    exact absurd ((ex hflag.1).trans (ey hflag.2).symm) hne

/-- Where the probe of `add` does not panic it covers the reverse direction as well: when
the pattern of a stored entry, used as a probe, matches the would-be new route, the
probe of the new pattern against that entry does not reject it. -/
theorem matchEntry_ne_ok_none_of_reverse {H : Type} {e : routerEntry H} (hc : e.Compiled)
    {p : Str} (hp : p.head? = some '/') (h : Option H) {ps : Params}
    (hrev : matchEntry (newEntry p h) e.Pattern e.HasParams = .ok (some ps)) :
    matchEntry e (normalize p) (Contains (normalize p) ':') ≠ .ok none := by
  unfold matchEntry at hrev ⊢
  by_cases hflag : (e.HasParams || Contains (normalize p) ':') = true
  · have hflag' : ((newEntry p h).HasParams || e.HasParams) = true := by
      rw [Bool.or_comm]; exact hflag
    rw [if_pos hflag'] at hrev
    obtain ⟨-, -, hsegs⟩ := hc
    cases hpat : e.Pattern with
    | nil => rw [hpat] at hrev; simp at hrev
    | cons c tail =>
      rw [hpat] at hrev hsegs
      simp only [List.drop_succ_cons, List.drop_zero] at hsegs
      simp only at hrev
      split at hrev
      · simp at hrev
      · next hlen =>
        simp only [ne_eq, Decidable.not_not] at hlen
        have h1 : List.Forall₂ segCompat (Split tail '/') (segmentsOf p) :=
          matchSegments_compat_of_ok_some hlen hrev
        have h2 : List.Forall₂ segCompat (segmentsOf p) e.segments := by
          rw [hsegs]
          exact List.Forall₂.flip (h1.imp (fun _ _ hab => segCompat_symm hab))
        rw [if_pos hflag, normalize_eq_cons hp]
        simp only
        have hl : (Split ((normalize p).drop 1) '/').length = e.segments.length :=
          h2.length_eq
        rw [if_neg (fun hn => hn hl)]
        exact matchSegments_ne_ok_none [] h2
  · have hflag' : ¬ ((newEntry p h).HasParams || e.HasParams) = true := by
      rw [Bool.or_comm]; exact hflag
    rw [if_neg hflag'] at hrev
    rw [if_neg hflag]
    split at hrev
    · next heq =>
      have heq' : e.Pattern = normalize p := heq.symm
      rw [if_pos heq']
      simp
    · simp at hrev

/-! ## Lookup -/

/-- C1. In a table built by registrations, when the dispatch-time lookup
`find(m, path, false)` returns a route whose parameter segments are pairwise distinct,
the keys of the returned bindings are exactly the parameter segments of that route (each
once, with its leading colon, and no other key), each key is bound to the path segment at
the position of its parameter segment, and a route without parameter segments yields the
empty bindings. -/
theorem find_bindings_exact {H : Type} (r : Router H) (hr : Reachable r) (m path : Str)
    (e : routerEntry H) (ps : Params)
    (hfind : find r m path false = .ok (some (e, ps)))
    (hdistinct : (e.segments.filter isParam).Nodup) :
    (mapKeys ps).Perm (e.segments.filter isParam) ∧
    (∀ (i : Nat) (hi : i < e.segments.length), isParam e.segments[i] = true →
      ∃ v, (Split (path.drop 1) '/')[i]? = some v ∧ mapIndex ps e.segments[i] = some v) ∧
    (e.segments.filter isParam = [] → ps = []) := by
  obtain ⟨k, hk, hm, -⟩ := (findIn_eq_ok_some_iff _ _ _ _ _).1 hfind
  have hc : e.Compiled := (hr.inv m).1 e (List.getElem?_mem hk)
  have key : mapKeys ps = e.segments.filter isParam ∧
      (∀ (i : Nat) (hi : i < e.segments.length), isParam e.segments[i] = true →
        ∃ v, (Split (path.drop 1) '/')[i]? = some v ∧
          mapIndex ps e.segments[i] = some v) := by
    unfold matchEntry at hm
    cases hf : e.HasParams with
    | false =>
      have hnil := hc.filter_isParam_eq_nil hf
      simp only [hf, Bool.or_false, Bool.false_eq_true, if_false] at hm
      split at hm
      · simp only [Except.ok.injEq, Option.some.injEq] at hm
        subst hm
        refine ⟨by simp [mapKeys, hnil], ?_⟩
        intro i hi hp
        have : e.segments[i] ∈ e.segments.filter isParam :=
          List.mem_filter.2 ⟨List.getElem_mem _, hp⟩
        rw [hnil] at this
        cases this
      · simp at hm
    | true =>
      simp only [hf, Bool.or_false, if_true] at hm
      cases path with
      | nil => simp at hm
      | cons c tail =>
        simp only at hm
        split at hm
        · simp at hm
        · next hlen =>
          simp only [ne_eq, Decidable.not_not] at hlen
          obtain ⟨h1, h2, -⟩ := matchSegments_bindings _ _ [] ps hlen hdistinct
            (by intro k _; simp [mapKeys]) hm
          refine ⟨by simpa [mapKeys] using h1, ?_⟩
          intro i hi hp
          refine ⟨(Split tail '/')[i], ?_, ?_⟩
          · simp only [List.drop_succ_cons, List.drop_zero]
            exact List.getElem?_eq_getElem (hlen ▸ hi)
          · rw [h2 i hi hp]
            exact List.getElem?_eq_getElem (hlen ▸ hi)
  refine ⟨by rw [key.1], key.2, ?_⟩
  intro hnil
  have := key.1
  rw [hnil] at this
  simpa [mapKeys] using this

/-- C1, on the route HEAD /users/:param1/:param2/nonparam/:param3 and the path
/users/hello/hi/nonparam/hola: the lookup returns the three bindings hello, hi, hola; and
on the route GET /users/:id and the path /users/42: the lookup binds :id to 42. -/
theorem find_bindings_exact_witness :
    find usersRouter GET "/users/42".toList false =
      .ok (some (newEntry "/users/:id".toList (some 1), [(":id".toList, "42".toList)])) ∧
    find headRouter HEAD "/users/hello/hi/nonparam/hola".toList false =
      .ok (some (headEntry,
        [(":param1".toList, "hello".toList), (":param2".toList, "hi".toList),
          (":param3".toList, "hola".toList)])) ∧
    ((mapKeys [(":param1".toList, "hello".toList), (":param2".toList, "hi".toList),
        (":param3".toList, "hola".toList)]).Perm (headEntry.segments.filter isParam) ∧
      (∀ (i : Nat) (hi : i < headEntry.segments.length), isParam headEntry.segments[i] = true →
        ∃ v, (Split ("/users/hello/hi/nonparam/hola".toList.drop 1) '/')[i]? = some v ∧
          mapIndex [(":param1".toList, "hello".toList), (":param2".toList, "hi".toList),
            (":param3".toList, "hola".toList)] headEntry.segments[i] = some v) ∧
      (headEntry.segments.filter isParam = [] →
        [(":param1".toList, "hello".toList), (":param2".toList, "hi".toList),
          (":param3".toList, "hola".toList)] = [])) :=
  ⟨by decide, by decide,
    find_bindings_exact headRouter
      (Reachable.add New HEAD "/users/:param1/:param2/nonparam/:param3".toList (some 0) []
        Reachable.new (by decide))
      HEAD "/users/hello/hi/nonparam/hola".toList headEntry _ (by decide) (by decide)⟩

/-- The lookup `find(m, url, hasParam)` in terms of the comparison of single routes: it
returns a route with bindings exactly when that route stands at some index `k`, matches
with these bindings, and every route at an index below `k` was compared and rejected (so
none of them matches); it returns nil exactly when every route of the sequence is compared
and rejected; and it panics exactly when the comparison of some route panics after all
routes before it were rejected. -/
theorem find_first_match {H : Type} (r : Router H) (m url : Str) (hasParam : Bool) :
    (∀ e ps, find r m url hasParam = .ok (some (e, ps)) ↔
      ∃ k : Nat, (r.entries m)[k]? = some e ∧ matchEntry e url hasParam = .ok (some ps) ∧
        ∀ j : Nat, j < k → ∀ e', (r.entries m)[j]? = some e' →
          Rejects e' url hasParam ∧ ¬ Matches e' url hasParam) ∧
    (find r m url hasParam = .ok none ↔
      ∀ e ∈ r.entries m, Rejects e url hasParam ∧ ¬ Matches e url hasParam) ∧
    (∀ p, find r m url hasParam = .error p ↔
      ∃ (k : Nat) (e : routerEntry H), (r.entries m)[k]? = some e ∧
        matchEntry e url hasParam = .error p ∧
        ∀ j : Nat, j < k → ∀ e', (r.entries m)[j]? = some e' → Rejects e' url hasParam) := by
  have hrej : ∀ e : routerEntry H,
      Rejects e url hasParam ∧ ¬ Matches e url hasParam ↔
        matchEntry e url hasParam = .ok none := by
    intro e
    constructor
    · exact fun h => h.1
    · intro h
      refine ⟨h, ?_⟩
      rintro ⟨ps, hps⟩
      rw [h] at hps
      cases hps
  refine ⟨?_, ?_, ?_⟩
  · intro e ps
    simp only [hrej]
    exact findIn_eq_ok_some_iff _ _ _ _ _
  · simp only [hrej]
    exact findIn_eq_ok_none_iff _ _ _
  · intro p
    exact findIn_eq_error_iff _ _ _ _

/-- C2. The lookup does not return nil whenever no route matches, nor the earliest
matching route whenever there is one: a comparison that reads the first byte of an empty
segment panics.  On the table with GET "/users" and GET "/users/:id", built by two
registrations, no route matches the path "//1" (the first is rejected, the comparison of
the second panics), and `find` panics instead of returning nil.  On the table with
GET "/u/lit/a/:p" and GET "/u/:q/b/:r" the route at index 1 matches the path "/u//b/z",
binding ":q" to the empty segment, and no route before it matches, but `find` panics in
the comparison of the route at index 0 and returns no route. -/
theorem find_panics_before_match :
    Reachable usersRouter ∧
    (usersRouter.entries GET).map (fun e => matchEntry e "//1".toList false) =
      [.ok none, .error .indexOutOfRange] ∧
    (∀ e ∈ usersRouter.entries GET, ¬ Matches e "//1".toList false) ∧
    find usersRouter GET "//1".toList false = .error .indexOutOfRange ∧
    find usersRouter GET "//1".toList false ≠ .ok none ∧
    Reachable shadowRouter ∧
    (shadowRouter.entries GET).map (fun e => matchEntry e "/u//b/z".toList false) =
      [.error .indexOutOfRange,
        .ok (some [(":q".toList, []), (":r".toList, "z".toList)])] ∧
    (∃ e, (shadowRouter.entries GET)[1]? = some e ∧ Matches e "/u//b/z".toList false) ∧
    (∀ e, (shadowRouter.entries GET)[0]? = some e → ¬ Matches e "/u//b/z".toList false) ∧
    find shadowRouter GET "/u//b/z".toList false = .error .indexOutOfRange := by
  have hu : usersRouter.entries GET =
      [newEntry "/users".toList (some 0), newEntry "/users/:id".toList (some 1)] := by
    decide
  have hs : shadowRouter.entries GET =
      [newEntry "/u/lit/a/:p".toList (some 0), newEntry "/u/:q/b/:r".toList (some 1)] := by
    decide
  refine ⟨?_, by decide, ?_, by decide, by decide, ?_, by decide, ?_, ?_, by decide⟩
  · exact Reachable.add _ GET "/users/:id".toList (some 1) []
      (Reachable.add New GET "/users".toList (some 0) [] Reachable.new (by decide))
      (by decide)
  · intro e he
    rw [hu] at he
    rintro ⟨ps, hps⟩
    rcases List.mem_cons.1 he with rfl | he
    · rw [show matchEntry (newEntry "/users".toList (some 0) : routerEntry Nat)
        "//1".toList false = .ok none from by decide] at hps
      cases hps
    · rw [List.mem_singleton.1 he,
        show matchEntry (newEntry "/users/:id".toList (some 1) : routerEntry Nat)
          "//1".toList false = .error .indexOutOfRange from by decide] at hps
      cases hps
  · exact Reachable.add _ GET "/u/:q/b/:r".toList (some 1) []
      (Reachable.add New GET "/u/lit/a/:p".toList (some 0) [] Reachable.new (by decide))
      (by decide)
  · rw [hs]
    exact ⟨_, rfl, [(":q".toList, []), (":r".toList, "z".toList)], by decide⟩
  · intro e he
    rw [hs] at he
    rintro ⟨ps, hps⟩
    have he0 : e = newEntry "/u/lit/a/:p".toList (some 0) := by
      simpa using he.symm
    rw [he0, show matchEntry (newEntry "/u/lit/a/:p".toList (some 0) : routerEntry Nat)
      "/u//b/z".toList false = .error .indexOutOfRange from by decide] at hps
    cases hps

/-- C3. In every table reachable by successful registrations and for every method, no
two routes of the method's sequence have the same (normalized) pattern, and for every
request path none of whose segments begins with a colon at most one position of the
sequence holds a route that matches the path at dispatch. -/
theorem reachable_unambiguous {H : Type} (r : Router H) (hr : Reachable r) (m : Str) :
    ((r.entries m).map (fun e => e.Pattern)).Nodup ∧
    ∀ path : Str, (∀ s ∈ Split (path.drop 1) '/', isParam s = false) →
      ∀ (i j : Nat) (ei ej : routerEntry H),
        (r.entries m)[i]? = some ei → (r.entries m)[j]? = some ej →
        Matches ei path false → Matches ej path false → i = j := by
  obtain ⟨hcomp, hpw⟩ := hr.inv m
  refine ⟨?_, ?_⟩
  · unfold List.Nodup
    rw [List.pairwise_map]
    exact hpw.imp (fun h => h.1)
  · intro path hpath
    have main : ∀ (i j : Nat) (ei ej : routerEntry H),
        (r.entries m)[i]? = some ei → (r.entries m)[j]? = some ej →
        Matches ei path false → Matches ej path false → ¬ i < j := by
      intro i j ei ej hi hj hmi hmj hlt
      obtain ⟨hi', rfl⟩ := List.getElem?_eq_some.1 hi
      obtain ⟨hj', rfl⟩ := List.getElem?_eq_some.1 hj
      obtain ⟨ps, hps⟩ := hmi
      obtain ⟨qs, hqs⟩ := hmj
      have h := List.pairwise_iff_getElem.1 hpw i j hi' hj' hlt
      exact matchEntry_ne_ok_none_of_common (hcomp _ (List.getElem_mem _))
        (hcomp _ (List.getElem_mem _)) h.1 hpath hps hqs h.2
    intro i j ei ej hi hj hmi hmj
    rcases Nat.lt_trichotomy i j with h | h | h
    · exact absurd h (main i j ei ej hi hj hmi hmj)
    · exact h
    · exact absurd h (main j i ej ei hj hi hmj hmi)

/-- C3, on the router holding GET "/users" and GET "/users/:id". -/
theorem reachable_unambiguous_witness :
    ((usersRouter.entries GET).map (fun e => e.Pattern)).Nodup ∧
    ∀ path : Str, (∀ s ∈ Split (path.drop 1) '/', isParam s = false) →
      ∀ (i j : Nat) (ei ej : routerEntry Nat),
        (usersRouter.entries GET)[i]? = some ei → (usersRouter.entries GET)[j]? = some ej →
        Matches ei path false → Matches ej path false → i = j :=
  reachable_unambiguous usersRouter
    (Reachable.add _ GET "/users/:id".toList (some 1) []
      (Reachable.add New GET "/users".toList (some 0) [] Reachable.new (by decide))
      (by decide)) GET

/-! ## Conflicts -/

theorem add_New_ok {H : Type} (m : Str) {p : Str} {h : Option H}
    (mw : List (MiddlewareFunc H)) (hp : p.head? = some '/') (hh : h.isSome = true) :
    (add New m p h mw).2 = .ok none ∧ (add New m p h mw).1.entries m = [newEntry p h] := by
  have hok : (add New m p h mw).2 = .ok none := by
    rw [add_eq_ok_none_iff]
    exact ⟨hp, hh, by simp [New], by simp [New]⟩
  refine ⟨hok, ?_⟩
  rw [add_entries_of_ok hok]
  simp [New]

theorem segmentsOf_eq_of_not_Contains {p q : Str}
    (hcp : Contains (normalize p) ':' = false) (hcq : Contains (normalize q) ':' = false)
    (hcompat : List.Forall₂ segCompat (segmentsOf q) (segmentsOf p)) :
    segmentsOf q = segmentsOf p := by
  have hnp : ∀ s ∈ segmentsOf p, isParam s = false := by
    intro s hs
    by_contra hpar
    have h1 := Contains_of_isParam_mem_Split hs (by simpa using hpar)
    have h2 : Contains (normalize p) ':' = true :=
      Contains_eq_true.2 (List.mem_of_mem_drop (Contains_eq_true.1 h1))
    rw [hcp] at h2
    cases h2
  have hnq : ∀ s ∈ segmentsOf q, isParam s = false := by
    intro s hs
    by_contra hpar
    have h1 := Contains_of_isParam_mem_Split hs (by simpa using hpar)
    have h2 : Contains (normalize q) ':' = true :=
      Contains_eq_true.2 (List.mem_of_mem_drop (Contains_eq_true.1 h1))
    rw [hcq] at h2
    cases h2
  generalize segmentsOf p = xs at hcompat hnp
  generalize segmentsOf q = ys at hcompat hnq
  induction hcompat with
  | nil => rfl
  | @cons y x ys xs hyx _ ih =>
    have hy := hnq y (List.mem_cons_self _ _)
    have hx := hnp x (List.mem_cons_self _ _)
    have hrest := ih (fun s hs => hnp s (List.mem_cons_of_mem _ hs))
      (fun s hs => hnq s (List.mem_cons_of_mem _ hs))
    rcases hyx with h | h | h
    · rw [h, hrest]
    · rw [hy] at h; cases h
    · rw [hx] at h; cases h

theorem add_second_conflict {H : Type} (m p q : Str) (h1 h2 : Option H)
    (hh1 : h1.isSome = true) (hh2 : h2.isSome = true)
    (hp : p.head? = some '/') (hq : q.head? = some '/')
    (hne : normalize p ≠ normalize q)
    (hpne : ∀ s ∈ segmentsOf p, s ≠ []) (hqne : ∀ s ∈ segmentsOf q, s ≠ [])
    (hcompat : List.Forall₂ segCompat (segmentsOf q) (segmentsOf p)) :
    (add New m p h1 []).2 = .ok none ∧
      (add (add New m p h1 []).1 m q h2 []).2 =
        .ok (some (.matched (normalize q) (normalize p))) := by
  obtain ⟨hok, hent⟩ := add_New_ok m ([] : List (MiddlewareFunc H)) hp hh1
  refine ⟨hok, ?_⟩
  have hflag : (Contains (normalize p) ':' || Contains (normalize q) ':') = true := by
    by_contra hcon
    simp only [Bool.or_eq_true, not_or, Bool.not_eq_true] at hcon
    have hseg := segmentsOf_eq_of_not_Contains hcon.1 hcon.2 hcompat
    have hdrop : (normalize q).drop 1 = (normalize p).drop 1 := Split_injective hseg
    apply hne
    rw [normalize_eq_cons hp, normalize_eq_cons hq, hdrop]
  have hmatch : ∃ ps, matchEntry (newEntry p h1) (normalize q) (Contains (normalize q) ':') =
      .ok (some ps) := by
    unfold matchEntry
    rw [if_pos (by simpa [newEntry] using hflag), normalize_eq_cons hq]
    simp only
    have hlen : (Split ((normalize q).drop 1) '/').length = (newEntry p h1).segments.length :=
      hcompat.length_eq
    rw [if_neg (by simpa using hlen)]
    exact matchSegments_ok_some_of_compat [] hcompat hqne hpne
  obtain ⟨ps, hps⟩ := hmatch
  have hfind : find (add New m p h1 []).1 m (normalize q) (Contains (normalize q) ':') =
      .ok (some (newEntry p h1, ps)) := by
    unfold find
    rw [hent]
    simp [findIn, hps]
  have hdup : ∀ e ∈ (add New m p h1 []).1.entries m, e.Pattern ≠ normalize q := by
    intro e he
    rw [hent, List.mem_singleton] at he
    rw [he]
    exact hne
  rw [add_conflict _ m [] hq hh2 hdup hfind]
  rfl

/-- C4. For every method and every two patterns `p`, `q` that start with a slash, have
different normalized texts, only non-empty segments, the same number of segments, and at
every position segments that are equal or of which at least one begins with a colon: on
an empty router the registration of `p` succeeds and the registration of `q` after it
fails with ConflictError, and likewise with `q` registered first and `p` second. -/
theorem conflict_in_both_orders {H : Type} (m p q : Str) (h1 h2 : H)
    (hp : p.head? = some '/') (hq : q.head? = some '/')
    (hne : normalize p ≠ normalize q)
    (hpne : ∀ s ∈ segmentsOf p, s ≠ []) (hqne : ∀ s ∈ segmentsOf q, s ≠ [])
    (hlen : (segmentsOf p).length = (segmentsOf q).length)
    (hpos : ∀ (i : Nat) (hi : i < (segmentsOf p).length) (hj : i < (segmentsOf q).length),
      (segmentsOf p)[i] = (segmentsOf q)[i] ∨ isParam (segmentsOf p)[i] = true ∨
        isParam (segmentsOf q)[i] = true) :
    ((add New m p (some h1) []).2 = .ok none ∧
      (add (add New m p (some h1) []).1 m q (some h2) []).2 =
        .ok (some (.matched (normalize q) (normalize p))) ∧
      FailsWith (add (add New m p (some h1) []).1 m q (some h2) []).2 .ConflictError) ∧
    ((add New m q (some h2) []).2 = .ok none ∧
      (add (add New m q (some h2) []).1 m p (some h1) []).2 =
        .ok (some (.matched (normalize p) (normalize q))) ∧
      FailsWith (add (add New m q (some h2) []).1 m p (some h1) []).2 .ConflictError) := by
  have hpq : List.Forall₂ segCompat (segmentsOf p) (segmentsOf q) := by
    rw [List.forall₂_iff_get]
    exact ⟨hlen, fun i hi hj => hpos i hi hj⟩
  have hqp : List.Forall₂ segCompat (segmentsOf q) (segmentsOf p) := by
    rw [List.forall₂_iff_get] at hpq ⊢
    exact ⟨hpq.1.symm, fun i hi hj => segCompat_symm (hpq.2 i hj hi)⟩
  have a := add_second_conflict m p q (some h1) (some h2) rfl rfl hp hq hne hpne hqne hqp
  have b := add_second_conflict m q p (some h2) (some h1) rfl rfl hq hp (Ne.symm hne) hqne hpne hpq
  exact ⟨⟨a.1, a.2, _, a.2, rfl⟩, ⟨b.1, b.2, _, b.2, rfl⟩⟩

/-- C4, on the patterns of `TestConflicts`: "/users/:id/list" and "/users/email/list". -/
theorem conflict_in_both_orders_witness :
    ((add (New : Router Nat) GET "/users/:id/list".toList (some 1) []).2 = .ok none ∧
      (add (add New GET "/users/:id/list".toList (some 1) []).1 GET
          "/users/email/list".toList (some 2) []).2 =
        .ok (some (.matched (normalize "/users/email/list".toList)
          (normalize "/users/:id/list".toList))) ∧
      FailsWith (add (add New GET "/users/:id/list".toList (some 1) []).1 GET
          "/users/email/list".toList (some 2) []).2 .ConflictError) ∧
    ((add (New : Router Nat) GET "/users/email/list".toList (some 2) []).2 = .ok none ∧
      (add (add New GET "/users/email/list".toList (some 2) []).1 GET
          "/users/:id/list".toList (some 1) []).2 =
        .ok (some (.matched (normalize "/users/:id/list".toList)
          (normalize "/users/email/list".toList))) ∧
      FailsWith (add (add New GET "/users/email/list".toList (some 2) []).1 GET
          "/users/:id/list".toList (some 1) []).2 .ConflictError) :=
  conflict_in_both_orders GET "/users/:id/list".toList "/users/email/list".toList 1 2
    (by decide) (by decide) (by decide) (by decide) (by decide) (by decide) (by decide)

/-- C5. The conflict probe of `add` is not the symmetric test, and the outcome of two
registrations depends on their order: with "/" registered, registering "/:id" panics with
an index out of range (the probe reads the first byte of the empty segment of "/") and
reports no conflict, although the pattern "/" matches the would-be route "/:id"; with
"/:id" registered first, registering "/" fails with ConflictError. -/
theorem conflict_probe_order_dependent :
    (add (add (New : Router Nat) GET "/".toList (some 1) []).1 GET "/:id".toList
        (some 2) []).2 = .error .indexOutOfRange ∧
    (add (add (New : Router Nat) GET "/:id".toList (some 2) []).1 GET "/".toList
        (some 1) []).2 = .ok (some (.matched "/".toList "/:id".toList)) ∧
    find (add (New : Router Nat) GET "/".toList (some 1) []).1 GET "/:id".toList true =
      .error .indexOutOfRange ∧
    matchEntry (newEntry "/:id".toList (some 2) : routerEntry Nat) "/".toList false =
      .ok (some [(":id".toList, [])]) := by
  refine ⟨by decide, by decide, by decide, by decide⟩

/-! ## Errors of registration -/

/-- C6. For every router state, method, pattern and non-nil handlers: when a registration
returns nil, registering the same method and pattern again fails with the
multiple-registrations error (DuplicateError) and leaves the table as it is. -/
theorem add_twice_duplicate {H : Type} (r : Router H) (m p : Str) (h1 h2 : H)
    (mw1 mw2 : List (MiddlewareFunc H)) (hok : (add r m p (some h1) mw1).2 = .ok none) :
    add (add r m p (some h1) mw1).1 m p (some h2) mw2 =
        ((add r m p (some h1) mw1).1, .ok (some (.multipleRegistrations (normalize p)))) ∧
      FailsWith (add (add r m p (some h1) mw1).1 m p (some h2) mw2).2 .DuplicateError := by
  have hp := ((add_eq_ok_none_iff r m p (some h1) mw1).1 hok).1
  have hmem : ∃ e ∈ (add r m p (some h1) mw1).1.entries m, e.Pattern = normalize p := by
    rw [add_entries_of_ok hok]
    exact ⟨newEntry p (some h1), by simp, rfl⟩
  have h := add_duplicate (add r m p (some h1) mw1).1 m mw2 hp
    (show (some h2).isSome = true from rfl) hmem
  exact ⟨h, .multipleRegistrations (normalize p), by rw [h], rfl⟩

/-- C6, on `TestDuplication`: GET "/users" registered twice on a new router. -/
theorem add_twice_duplicate_witness :
    add (add (New : Router Nat) GET "/users".toList (some 1) []).1 GET "/users".toList
        (some 2) [] =
      ((add (New : Router Nat) GET "/users".toList (some 1) []).1,
        .ok (some (.multipleRegistrations (normalize "/users".toList)))) ∧
    FailsWith (add (add (New : Router Nat) GET "/users".toList (some 1) []).1 GET
      "/users".toList (some 2) []).2 .DuplicateError :=
  add_twice_duplicate New GET "/users".toList 1 2 [] [] (by decide)

/-- C7. For every method and every pattern `p` that starts with a slash and does not end
with one (so `p` is not "/"): on an empty router, registering `p` and then `p` followed
by a slash fails on the second call with DuplicateError, and so does registering them in
the other order; in both orders the first call stores the route under the pattern `p`. -/
theorem trailing_slash_duplicate {H : Type} (m p : Str) (h1 h2 : H)
    (hp : p.head? = some '/') (hlast : p.getLast? ≠ some '/') :
    ((add New m p (some h1) []).2 = .ok none ∧
      ((add New m p (some h1) []).1.entries m).map (fun e => e.Pattern) = [p] ∧
      (add (add New m p (some h1) []).1 m (p ++ ['/']) (some h2) []).2 =
        .ok (some (.multipleRegistrations p)) ∧
      FailsWith (add (add New m p (some h1) []).1 m (p ++ ['/']) (some h2) []).2
        .DuplicateError) ∧
    ((add New m (p ++ ['/']) (some h1) []).2 = .ok none ∧
      ((add New m (p ++ ['/']) (some h1) []).1.entries m).map (fun e => e.Pattern) = [p] ∧
      (add (add New m (p ++ ['/']) (some h1) []).1 m p (some h2) []).2 =
        .ok (some (.multipleRegistrations p)) ∧
      FailsWith (add (add New m (p ++ ['/']) (some h1) []).1 m p (some h2) []).2
        .DuplicateError) := by
  have hne : p ≠ [] := by intro h0; simp [h0] at hp
  have hn1 : normalize p = p := normalize_of_no_trailing_slash hlast
  have hn2 : normalize (p ++ ['/']) = p := normalize_append_slash hne
  have hp2 : (p ++ ['/']).head? = some '/' := by
    cases p with
    | nil => exact absurd rfl hne
    | cons c cs => simpa using hp
  obtain ⟨a1, a2⟩ := @add_New_ok H m p (some h1) [] hp rfl
  obtain ⟨b1, b2⟩ := @add_New_ok H m (p ++ ['/']) (some h1) [] hp2 rfl
  have da := add_duplicate (add New m p (some h1) []).1 m [] hp2
    (show (some h2).isSome = true from rfl)
    ⟨newEntry p (some h1), by rw [a2]; simp, by simp [newEntry, hn1, hn2]⟩
  have db := add_duplicate (add New m (p ++ ['/']) (some h1) []).1 m [] hp
    (show (some h2).isSome = true from rfl)
    ⟨newEntry (p ++ ['/']) (some h1), by rw [b2]; simp, by simp [newEntry, hn1, hn2]⟩
  rw [hn2] at da
  rw [hn1] at db
  refine ⟨⟨a1, by simp [a2, newEntry, hn1], by rw [da],
      .multipleRegistrations p, by rw [da], rfl⟩,
    ⟨b1, by simp [b2, newEntry, hn2], by rw [db],
      .multipleRegistrations p, by rw [db], rfl⟩⟩

/-- C7, on `TestDuplication2`: GET "/users" and GET "/users/". -/
theorem trailing_slash_duplicate_witness :
    ((add (New : Router Nat) GET "/users".toList (some 1) []).2 = .ok none ∧
      ((add (New : Router Nat) GET "/users".toList (some 1) []).1.entries GET).map
        (fun e => e.Pattern) = ["/users".toList] ∧
      (add (add (New : Router Nat) GET "/users".toList (some 1) []).1 GET
        ("/users".toList ++ ['/']) (some 2) []).2 =
        .ok (some (.multipleRegistrations "/users".toList)) ∧
      FailsWith (add (add (New : Router Nat) GET "/users".toList (some 1) []).1 GET
        ("/users".toList ++ ['/']) (some 2) []).2 .DuplicateError) ∧
    ((add (New : Router Nat) GET ("/users".toList ++ ['/']) (some 1) []).2 = .ok none ∧
      ((add (New : Router Nat) GET ("/users".toList ++ ['/']) (some 1) []).1.entries GET).map
        (fun e => e.Pattern) = ["/users".toList] ∧
      (add (add (New : Router Nat) GET ("/users".toList ++ ['/']) (some 1) []).1 GET
        "/users".toList (some 2) []).2 =
        .ok (some (.multipleRegistrations "/users".toList)) ∧
      FailsWith (add (add (New : Router Nat) GET ("/users".toList ++ ['/']) (some 1) []).1 GET
        "/users".toList (some 2) []).2 .DuplicateError) :=
  trailing_slash_duplicate GET "/users".toList 1 2 (by decide) (by decide)

/-- C8. For every router state, method and handler (nil or not): registering the empty
pattern, or a pattern whose first byte is not a slash, fails with PatternError and
returns the router state unchanged. -/
theorem add_pattern_error {H : Type} (r : Router H) (m p : Str) (h : Option H)
    (mw : List (MiddlewareFunc H)) (hp : p = [] ∨ p.head? ≠ some '/') :
    (add r m p h mw).1 = r ∧ FailsWith (add r m p h mw).2 .PatternError := by
  by_cases h0 : p = []
  · subst h0
    exact ⟨rfl, _, rfl, rfl⟩
  · have hp' : p.head? ≠ some '/' := by
      rcases hp with hp | hp
      · exact absurd hp h0
      · exact hp
    have : add r m p h mw = (r, .ok (some (.mustBeginWithSlash p))) := by
      unfold add
      rw [if_neg h0, if_pos hp']
    rw [this]
    exact ⟨rfl, _, rfl, rfl⟩

/-- C8, on `TestUrlShouldBeginWithSlash`: the pattern "users". -/
theorem add_pattern_error_witness :
    (add (New : Router Nat) GET "users".toList (some 1) []).1 = New ∧
      FailsWith (add (New : Router Nat) GET "users".toList (some 1) []).2 .PatternError :=
  add_pattern_error New GET "users".toList (some 1) [] (by decide)

/-- C9, as stated, fails: with a nil handler and the pattern "users" or the empty pattern
the call fails with PatternError, not with HandlerError, because `add` checks the pattern
before the handler. -/
theorem nil_handler_not_always_HandlerError :
    (add (New : Router Nat) GET "users".toList none []).2 =
      .ok (some (.mustBeginWithSlash "users".toList)) ∧
    ¬ FailsWith (add (New : Router Nat) GET "users".toList none []).2 .HandlerError ∧
    (add (New : Router Nat) GET [] none []).2 = .ok (some (.invalidPattern [])) ∧
    ¬ FailsWith (add (New : Router Nat) GET [] none []).2 .HandlerError := by
  refine ⟨by decide, ?_, by decide, ?_⟩
  · rintro ⟨e, he, hk⟩
    have h : (add (New : Router Nat) GET "users".toList none []).2 =
        .ok (some (.mustBeginWithSlash "users".toList)) := by decide
    rw [h] at he
    simp only [Except.ok.injEq, Option.some.injEq] at he
    subst he
    cases hk
  · rintro ⟨e, he, hk⟩
    have h : (add (New : Router Nat) GET [] none []).2 = .ok (some (.invalidPattern [])) := by
      decide
    rw [h] at he
    simp only [Except.ok.injEq, Option.some.injEq] at he
    subst he
    cases hk

/-- C9, amended. For every router state, method and pattern that starts with a slash,
registering with a nil handler fails with HandlerError (the nil-handler error) and
returns the router state unchanged. -/
theorem add_nil_handler {H : Type} (r : Router H) (m p : Str)
    (mw : List (MiddlewareFunc H)) (hp : p.head? = some '/') :
    add r m p none mw = (r, .ok (some (.nilHandler p))) ∧
      FailsWith (add r m p none mw).2 .HandlerError := by
  have hne : p ≠ [] := by intro h0; simp [h0] at hp
  have : add r m p none mw = (r, .ok (some (.nilHandler p))) := by
    unfold add
    rw [if_neg hne, if_neg (by simpa using hp)]
    simp
  rw [this]
  exact ⟨rfl, _, rfl, rfl⟩

/-- C9, amended, on `TestHandlerShouldNotBeNil`: GET "/" with a nil handler. -/
theorem add_nil_handler_witness :
    add (New : Router Nat) GET "/".toList none [] =
        (New, .ok (some (.nilHandler "/".toList))) ∧
      FailsWith (add (New : Router Nat) GET "/".toList none []).2 .HandlerError :=
  add_nil_handler New GET "/".toList [] (by decide)

/-- C10. No false conflicts: on a table built by registrations, the registration of
`(m, p, h)` returns nil and appends the new route whenever `p` starts with a slash, `h` is
not nil, and for every route `e` stored under `m` one of these holds: (a) neither `p` nor
the pattern of `e` contains a colon and the normalized texts differ; (b) `p` and `e` have
different numbers of segments; (c) `p` and `e` have only non-empty segments and at some
position their segments are two different texts of which none begins with a colon. -/
theorem add_no_false_conflict {H : Type} (r : Router H) (hr : Reachable r) (m p : Str)
    (h : H) (mw : List (MiddlewareFunc H)) (hp : p.head? = some '/')
    (hall : ∀ e ∈ r.entries m,
      (Contains p ':' = false ∧ Contains e.Pattern ':' = false ∧ normalize p ≠ e.Pattern) ∨
      (segmentsOf p).length ≠ e.segments.length ∨
      ((∀ s ∈ segmentsOf p, s ≠ []) ∧ (∀ s ∈ e.segments, s ≠ []) ∧
        ∃ (i : Nat) (hi : i < (segmentsOf p).length) (hj : i < e.segments.length),
          (segmentsOf p)[i] ≠ e.segments[i] ∧ isParam (segmentsOf p)[i] = false ∧
            isParam e.segments[i] = false)) :
    (add r m p (some h) mw).2 = .ok none ∧
      (add r m p (some h) mw).1.entries m = r.entries m ++ [newEntry p (some h)] := by
  have hdup : ∀ e ∈ r.entries m, e.Pattern ≠ normalize p := by
    intro e he heq
    have hc := (hr.inv m).1 e he
    have hseg : e.segments = segmentsOf p := by
      rw [hc.2.2, heq]; rfl
    rcases hall e he with ha | hb | ⟨-, -, i, hi, hj, hne, -, -⟩
    · exact ha.2.2 heq.symm
    · exact hb (by rw [hseg])
    · exact hne (List.getElem_of_eq hseg.symm hi)
  have hfind : ∀ e ∈ r.entries m,
      matchEntry e (normalize p) (Contains (normalize p) ':') = .ok none := by
    intro e he
    have hc := (hr.inv m).1 e he
    unfold matchEntry
    by_cases hflag : (e.HasParams || Contains (normalize p) ':') = true
    · rw [if_pos hflag, normalize_eq_cons hp]
      simp only
      by_cases hlen : (Split ((normalize p).drop 1) '/').length = e.segments.length
      · rw [if_neg (by simpa using hlen)]
        rcases hall e he with ha | hb | ⟨hpne, hene, i, hi, hj, hne, hpi, hei⟩
        · rw [hc.2.1, Contains_normalize, ha.1, ha.2.1] at hflag
          cases hflag
        · exact absurd hlen hb
        · exact matchSegments_ok_none_of_mismatch [] hpne hene i hi hj hne hpi hei
      · rw [if_pos hlen]
    · rw [if_neg hflag, if_neg (hdup e he)]
  have hok : (add r m p (some h) mw).2 = .ok none :=
    (add_eq_ok_none_iff r m p (some h) mw).2 ⟨hp, rfl, hdup, hfind⟩
  refine ⟨hok, ?_⟩
  rw [add_entries_of_ok hok]
  simp

/-- C10, on `TestShouldNotPanic`: the eleven routes register in order without error, and
the theorem applied to the fourth registration, GET "/users/:id" after GET "/",
GET "/users" and GET "/user/list". -/
theorem add_no_false_conflict_witness :
    (addAll New shouldNotPanicRoutes).2 = .ok none ∧
    ((add threeRoutes GET "/users/:id".toList (some 3) []).2 = .ok none ∧
      (add threeRoutes GET "/users/:id".toList (some 3) []).1.entries GET =
        threeRoutes.entries GET ++ [newEntry "/users/:id".toList (some 3)]) :=
  ⟨by decide,
    add_no_false_conflict threeRoutes
      (Reachable.add _ GET "/user/list".toList (some 2) []
        (Reachable.add _ GET "/users".toList (some 1) []
          (Reachable.add New GET "/".toList (some 0) [] Reachable.new (by decide))
          (by decide))
        (by decide))
      GET "/users/:id".toList 3 [] (by decide)
      (by
        intro e he
        have hent : threeRoutes.entries GET =
            [newEntry "/".toList (some 0), newEntry "/users".toList (some 1),
              newEntry "/user/list".toList (some 2)] := by decide
        rw [hent] at he
        simp only [List.mem_cons, List.mem_singleton, List.not_mem_nil, or_false] at he
        rcases he with rfl | rfl | rfl
        · exact Or.inr (Or.inl (by decide))
        · exact Or.inr (Or.inl (by decide))
        · exact Or.inr (Or.inr ⟨by decide, by decide, 0, by decide, by decide, by decide,
            by decide, by decide⟩))⟩

/-! ## Lookup after registration -/

theorem Split_of_not_mem {w : Str} {sep : Char} (h : sep ∉ w) : Split w sep = [w] := by
  induction w with
  | nil => rfl
  | cons c cs ih =>
    simp only [List.mem_cons, not_or] at h
    unfold Split
    rw [if_neg (Ne.symm h.1), ih h.2]

theorem Split_append_sep {w : Str} {sep : Char} (rest : Str) (h : sep ∉ w) :
    Split (w ++ sep :: rest) sep = w :: Split rest sep := by
  induction w with
  | nil => simp [Split]
  | cons c cs ih =>
    simp only [List.mem_cons, not_or] at h
    simp only [List.cons_append]
    conv_lhs => unfold Split
    rw [if_neg (Ne.symm h.1), ih h.2]

theorem Split_Join {ws : List Str} {sep : Char} (hne : ws ≠ [])
    (h : ∀ w ∈ ws, sep ∉ w) : Split (Join ws sep) sep = ws := by
  induction ws with
  | nil => exact absurd rfl hne
  | cons w ws ih =>
    cases ws with
    | nil => simpa [Join] using Split_of_not_mem (h w (List.mem_cons_self _ _))
    | cons w' ws' =>
      simp only [Join]
      rw [Split_append_sep _ (h w (List.mem_cons_self _ _)),
        ih (by simp) (fun x hx => h x (List.mem_cons_of_mem _ hx))]

theorem not_mem_of_mem_Split {s : Str} {sep : Char} {w : Str} (hw : w ∈ Split s sep) :
    sep ∉ w := by
  induction s generalizing w with
  | nil => simp [Split] at hw; subst hw; simp
  | cons d ds ih =>
    unfold Split at hw
    split at hw
    · rcases List.mem_cons.1 hw with h | h
      · subst h; simp
      · exact ih h
    · next hd =>
      cases hs : Split ds sep with
      | nil => exact absurd hs (Split_ne_nil ds sep)
      | cons w' ws =>
        rw [hs] at hw ih
        rcases List.mem_cons.1 hw with h | h
        · subst h
          simp only [List.mem_cons, not_or]
          exact ⟨Ne.symm hd, ih (List.mem_cons_self _ _)⟩
        · exact ih (List.mem_cons_of_mem _ h)

theorem matchSegments_ok_none_of_instance {rs vs : List Str}
    (hi : List.Forall₂ Instantiates rs vs) {xs : List Str} {acc : Params} (acc' : Params)
    (h : matchSegments rs xs acc = .ok none) : matchSegments vs xs acc' = .ok none := by
  induction hi generalizing xs acc acc' with
  | nil => simp [matchSegments] at h
  | @cons r v rs vs hrv _ ih =>
    cases xs with
    | nil => simp [matchSegments] at h
    | cons x xs =>
      cases x with
      | nil => simp [matchSegments] at h
      | cons c cs =>
        by_cases hc : c = ':'
        · subst hc
          simp only [matchSegments, if_true] at h ⊢
          exact ih _ h
        · simp only [matchSegments, if_neg hc] at h ⊢
          cases r with
          | nil => simp at h
          | cons d ds =>
            simp only at h
            rcases hrv with ⟨hp, hv, hvp, -⟩ | ⟨hp, hv⟩
            · have hd : d = ':' := by simpa [isParam] using hp
              rw [if_pos (Or.inl hd)] at h
              cases v with
              | nil => exact absurd rfl hv
              | cons e es =>
                have he : e ≠ ':' := by simpa [isParam] using hvp
                simp only
                split
                · exact ih _ h
                · rfl
            · subst hv
              have hd : d ≠ ':' := by simpa [isParam] using hp
              simp only
              split at h
              · next hcond => rw [if_pos hcond]; exact ih _ h
              · next hcond => rw [if_neg hcond]

theorem segCompat_of_Instantiates {rs vs : List Str}
    (hi : List.Forall₂ Instantiates rs vs) : List.Forall₂ segCompat vs rs := by
  induction hi with
  | nil => exact List.Forall₂.nil
  | @cons r v rs vs hrv _ ih =>
    refine List.Forall₂.cons ?_ ih
    rcases hrv with ⟨hp, -⟩ | ⟨-, hv⟩
    · exact Or.inr (Or.inr hp)
    · exact Or.inl hv

theorem eq_of_Instantiates_of_no_param {rs vs : List Str}
    (hi : List.Forall₂ Instantiates rs vs) (hnp : rs.filter isParam = []) : vs = rs := by
  induction hi with
  | nil => rfl
  | @cons r v rs vs hrv _ ih =>
    rw [List.filter_eq_nil_iff] at hnp
    have hr : ¬ isParam r = true := hnp r (List.mem_cons_self _ _)
    have hrest : rs.filter isParam = [] :=
      List.filter_eq_nil_iff.2 (fun x hx => hnp x (List.mem_cons_of_mem _ hx))
    rcases hrv with ⟨hp, -⟩ | ⟨-, hv⟩
    · exact absurd hp hr
    · rw [hv, ih hrest]

theorem Compiled_pattern_eq {H : Type} {e : routerEntry H} (hc : e.Compiled) :
    e.Pattern = '/' :: Join e.segments '/' := by
  obtain ⟨hh, -, hs⟩ := hc
  rw [hs, Join_Split]
  cases hp : e.Pattern with
  | nil => rw [hp] at hh; simp at hh
  | cons c cs => rw [hp] at hh; simp at hh; simp [hh]

theorem Split_drop_instance {H : Type} {e : routerEntry H} (hc : e.Compiled) {vs : List Str}
    (hi : List.Forall₂ Instantiates e.segments vs) : Split (Join vs '/') '/' = vs := by
  have hlen := hi.length_eq
  have hne : vs ≠ [] := by
    intro h0
    rw [h0, hc.2.2] at hlen
    exact Split_ne_nil _ _ (List.length_eq_zero.1 (by simpa using hlen))
  apply Split_Join hne
  have hno : ∀ s ∈ e.segments, '/' ∉ s := by
    intro s hs
    rw [hc.2.2] at hs
    exact not_mem_of_mem_Split hs
  generalize e.segments = rs at hi hno
  clear hlen hne
  induction hi with
  | nil => simp
  | @cons r v rs vs hrv _ ih =>
    intro w hw
    rcases List.mem_cons.1 hw with h | h
    · subst h
      rcases hrv with ⟨-, -, -, hs⟩ | ⟨-, hv⟩
      · exact hs
      · rw [hv]; exact hno r (List.mem_cons_self _ _)
    · exact ih (fun s hs => hno s (List.mem_cons_of_mem _ hs)) w h

theorem ne_nil_of_Instantiates {rs vs : List Str} (hi : List.Forall₂ Instantiates rs vs)
    (hne : ∀ s ∈ rs, s ≠ []) : ∀ v ∈ vs, v ≠ [] := by
  induction hi with
  | nil => simp
  | @cons r v rs vs hrv _ ih =>
    intro w hw
    rcases List.mem_cons.1 hw with h | h
    · subst h
      rcases hrv with ⟨-, hv, -⟩ | ⟨-, hv⟩
      · exact hv
      · rw [hv]; exact hne r (List.mem_cons_self _ _)
    · exact ih (fun s hs => hne s (List.mem_cons_of_mem _ hs)) w h

/-- The probe of a compiled entry `e` as a url runs the segment loop on the segments of
`e`. -/
theorem matchEntry_probe_eq {H : Type} {x e : routerEntry H} (he : e.Compiled)
    (hflag : (x.HasParams || e.HasParams) = true) :
    matchEntry x e.Pattern e.HasParams =
      if e.segments.length ≠ x.segments.length then .ok none
      else matchSegments e.segments x.segments [] := by
  obtain ⟨hh, -, hs⟩ := he
  unfold matchEntry
  rw [if_pos hflag]
  cases hp : e.Pattern with
  | nil => rw [hp] at hh; simp at hh
  | cons c tail =>
    rw [hp] at hs
    simp only [List.drop_succ_cons, List.drop_zero] at hs
    simp only
    rw [← hs]

theorem matchEntry_instance_self {H : Type} {e : routerEntry H} (hc : e.Compiled)
    (hseg : (∀ s ∈ e.segments, s ≠ []) ∨ e.Pattern = ['/']) {vs : List Str}
    (hi : List.Forall₂ Instantiates e.segments vs) :
    ∃ ps, matchEntry e ('/' :: Join vs '/') false = .ok (some ps) := by
  cases hf : e.HasParams with
  | false =>
    have hvs := eq_of_Instantiates_of_no_param hi (hc.filter_isParam_eq_nil hf)
    rw [hvs, ← Compiled_pattern_eq hc]
    refine ⟨[], ?_⟩
    unfold matchEntry
    simp [hf]
  | true =>
    have hne : ∀ s ∈ e.segments, s ≠ [] := by
      rcases hseg with h | h
      · exact h
      · have := hc.2.1
        rw [hf, h] at this
        exact absurd this (by decide)
    have hsplit := Split_drop_instance hc hi
    obtain ⟨ps, hps⟩ := matchSegments_ok_some_of_compat [] (segCompat_of_Instantiates hi)
      (ne_nil_of_Instantiates hi hne) hne
    refine ⟨ps, ?_⟩
    unfold matchEntry
    simp only [hf, Bool.or_false, if_true]
    rw [hsplit, if_neg (fun hn => hn hi.length_eq.symm)]
    exact hps

theorem matchEntry_instance_other {H : Type} {x e : routerEntry H} (hx : x.Compiled)
    (he : e.Compiled) (hne : x.Pattern ≠ e.Pattern)
    (hprobe : matchEntry x e.Pattern e.HasParams = .ok none) {vs : List Str}
    (hi : List.Forall₂ Instantiates e.segments vs) :
    matchEntry x ('/' :: Join vs '/') false = .ok none := by
  have hsplit := Split_drop_instance he hi
  have hlen := hi.length_eq
  cases hxf : x.HasParams with
  | true =>
    rw [matchEntry_probe_eq he (by simp [hxf])] at hprobe
    unfold matchEntry
    simp only [hxf, Bool.or_false, if_true]
    rw [hsplit]
    by_cases hl : vs.length = x.segments.length
    · rw [if_neg (fun hn => hn hl)]
      rw [if_neg (fun hn => hn (hlen.trans hl))] at hprobe
      exact matchSegments_ok_none_of_instance hi [] hprobe
    · rw [if_pos hl]
  | false =>
    have hgoal : x.Pattern ≠ '/' :: Join vs '/' →
        matchEntry x ('/' :: Join vs '/') false = .ok none := by
      intro hn
      unfold matchEntry
      simp only [hxf, Bool.or_false, Bool.false_eq_true, if_false]
      rw [if_neg hn]
    apply hgoal
    cases hef : e.HasParams with
    | false =>
      have hvs := eq_of_Instantiates_of_no_param hi (he.filter_isParam_eq_nil hef)
      rw [hvs, ← Compiled_pattern_eq he]
      exact hne
    | true =>
      intro heq
      have hxs : x.segments = vs := by
        rw [hx.2.2, heq]
        simpa using hsplit
      rw [matchEntry_probe_eq he (by simp [hef]), hxs,
        if_neg (fun hn => hn hlen)] at hprobe
      have h1 := matchSegments_ok_none_of_instance hi [] hprobe
      exact matchSegments_ne_ok_none []
        (List.forall₂_same.2 (fun _ _ => Or.inl rfl)) h1

/-- C11. In every table reachable by successful registrations, for every route `e` stored
under a method `m` whose segments are all non-empty (or whose pattern is "/"), and every
path obtained from the pattern of `e` by replacing each parameter segment with a
non-empty text (a segment, so without a slash) that does not begin with a colon, the
dispatch-time lookup returns exactly `e`, whatever other routes are stored before or
after it. -/
theorem find_registered {H : Type} (r : Router H) (hr : Reachable r) (m : Str)
    (e : routerEntry H) (he : e ∈ r.entries m)
    (hseg : (∀ s ∈ e.segments, s ≠ []) ∨ e.Pattern = ['/']) (vs : List Str)
    (hi : List.Forall₂ Instantiates e.segments vs) :
    ∃ ps, find r m ('/' :: Join vs '/') false = .ok (some (e, ps)) := by
  obtain ⟨hcomp, hpw⟩ := hr.inv m
  obtain ⟨ps, hps⟩ := matchEntry_instance_self (hcomp e he) hseg hi
  obtain ⟨k, hk, hek⟩ := List.getElem_of_mem he
  refine ⟨ps, (findIn_eq_ok_some_iff _ _ _ _ _).2 ⟨k, ?_, hps, ?_⟩⟩
  · rw [List.getElem?_eq_getElem hk, hek]
  · intro j hj x hxj
    obtain ⟨hj', rfl⟩ := List.getElem?_eq_some.1 hxj
    have h := List.pairwise_iff_getElem.1 hpw j k hj' hk hj
    rw [hek] at h
    exact matchEntry_instance_other (hcomp _ (List.getElem_mem _)) (hcomp e he) h.1 h.2 hi

theorem Reachable.addAll {H : Type} {r : Router H} (hr : Reachable r)
    (l : List (Str × Str × Option H)) (h : (addAll r l).2 = .ok none) :
    Reachable (addAll r l).1 := by
  induction l generalizing r with
  | nil => exact hr
  | cons t rest ih =>
    obtain ⟨m, p, hd⟩ := t
    have hstep := Reachable.add r m p hd [] hr
    unfold Gohan.addAll at h ⊢
    cases hres : Gohan.add r m p hd [] with
    | mk r' out =>
      rw [hres] at hstep h
      cases out with
      | error q => simp at h
      | ok o =>
        cases o with
        | none => exact ih (hstep rfl) h
        | some e => simp at h

/-- C11, on `TestHandler`: after the five registrations the lookups GET "/", GET "/users",
POST "/users", GET "/users/1" and DELETE "/users/1" return the routes with the handlers
1, 2, 3, 4 and 5; the theorem is applied to the route GET "/users/:id" and the path
"/users/1". -/
theorem find_registered_witness :
    (find handlerRouter GET "/".toList false).map (fun o => o.map (fun x => x.1.Handler)) =
      .ok (some (some 1)) ∧
    (find handlerRouter GET "/users".toList false).map
      (fun o => o.map (fun x => x.1.Handler)) = .ok (some (some 2)) ∧
    (find handlerRouter POST "/users".toList false).map
      (fun o => o.map (fun x => x.1.Handler)) = .ok (some (some 3)) ∧
    (find handlerRouter GET "/users/1".toList false).map
      (fun o => o.map (fun x => x.1.Handler)) = .ok (some (some 4)) ∧
    (find handlerRouter DELETE "/users/1".toList false).map
      (fun o => o.map (fun x => x.1.Handler)) = .ok (some (some 5)) ∧
    ∃ ps, find handlerRouter GET ('/' :: Join ["users".toList, "1".toList] '/') false =
      .ok (some (newEntry "/users/:id".toList (some 4), ps)) :=
  ⟨by decide, by decide, by decide, by decide, by decide,
    find_registered handlerRouter (Reachable.addAll Reachable.new handlerRoutes (by decide))
      GET (newEntry "/users/:id".toList (some 4)) (by decide) (Or.inl (by decide))
      ["users".toList, "1".toList]
      (List.Forall₂.cons (Or.inr ⟨by decide, rfl⟩)
        (List.Forall₂.cons (Or.inl ⟨by decide, by decide, by decide, by decide⟩)
          List.Forall₂.nil))⟩

/-! ## Methods -/

theorem add_eq_of_nil {H : Type} (r : Router H) (m : Str) {p : Str}
    (mw : List (MiddlewareFunc H)) (hp : p.head? = some '/') :
    add r m p none mw = (r, .ok (some (.nilHandler p))) := by
  have hne : p ≠ [] := by intro h0; simp [h0] at hp
  unfold add
  rw [if_neg hne, if_neg (by simpa using hp)]
  simp

theorem add_eq_of_invalid {H : Type} (r : Router H) (m : Str) {p : Str} (h : Option H)
    (mw : List (MiddlewareFunc H)) (hp : p.head? ≠ some '/') :
    add r m p h mw =
      (r, .ok (some (if p = [] then .invalidPattern p else .mustBeginWithSlash p))) := by
  unfold add
  by_cases h0 : p = []
  · rw [if_pos h0, if_pos h0]
  · rw [if_neg h0, if_pos hp, if_neg h0]

theorem add_outcome_congr {H : Type} {r r' : Router H} {m : Str}
    (he : r'.entries m = r.entries m) (p : Str) (h : Option H)
    (mw : List (MiddlewareFunc H)) : (add r' m p h mw).2 = (add r m p h mw).2 := by
  by_cases hp : p.head? = some '/'
  · cases h with
    | none => rw [add_eq_of_nil r' m mw hp, add_eq_of_nil r m mw hp]
    | some h =>
      rw [add_eq_of_valid r' m mw hp (show (some h).isSome = true from rfl),
        add_eq_of_valid r m mw hp (show (some h).isSome = true from rfl)]
      unfold find
      rw [he]
      split
      · rfl
      · cases findIn (r.entries m) (normalize p) (Contains (normalize p) ':') with
        | error q => rfl
        | ok o =>
          cases o with
          | none => rfl
          | some ep => rfl
  · rw [add_eq_of_invalid r' m h mw hp, add_eq_of_invalid r m h mw hp]

theorem add_entries_other {H : Type} (r : Router H) {m k : Str} (hk : k ≠ m) (p : Str)
    (h : Option H) (mw : List (MiddlewareFunc H)) :
    (add r m p h mw).1.entries k = r.entries k := by
  by_cases hok : (add r m p h mw).2 = .ok none
  · rw [add_entries_of_ok hok]
    simp [hk]
  · rw [add_unchanged_of_not_ok r m p h mw hok]

theorem Handle_fst {H : Type} (U : Str → Str) (r : Router H) (m p : Str) (h : Option H)
    (mw : List (MiddlewareFunc H)) :
    (Handle U r m p h mw).1 = (add r (ToUpper U m) p h mw).1 := by
  unfold Handle
  cases hres : add r (ToUpper U m) p h mw with
  | mk r' out =>
    cases out with
    | error q => rfl
    | ok o => cases o <;> rfl

theorem Handle_snd {H : Type} (U : Str → Str) (r : Router H) (m p : Str) (h : Option H)
    (mw : List (MiddlewareFunc H)) :
    (Handle U r m p h mw).2 =
      match (add r (ToUpper U m) p h mw).2 with
      | .ok none => .ok ()
      | .ok (some err) => .error (.error err)
      | .error q => .error (.runtime q) := by
  unfold Handle
  cases hres : add r (ToUpper U m) p h mw with
  | mk r' out =>
    cases out with
    | error q => rfl
    | ok o => cases o <;> rfl

theorem Handle_snd_eq_ok_iff {H : Type} (U : Str → Str) (r : Router H) (m p : Str)
    (h : Option H) (mw : List (MiddlewareFunc H)) :
    (Handle U r m p h mw).2 = .ok () ↔ (add r (ToUpper U m) p h mw).2 = .ok none := by
  rw [Handle_snd]
  cases (add r (ToUpper U m) p h mw).2 with
  | error q => simp
  | ok o => cases o <;> simp

theorem find_congr {H : Type} {r r' : Router H} {m : Str}
    (he : r'.entries m = r.entries m) (path : Str) (hp : Bool) :
    find r' m path hp = find r m path hp := by
  unfold find
  rw [he]

theorem Handle_entries_other {H : Type} {U : Str → Str} (r : Router H) {m k : Str}
    (hk : k ≠ ToUpper U m) (p : Str) (h : Option H) (mw : List (MiddlewareFunc H)) :
    (Handle U r m p h mw).1.entries k = r.entries k := by
  rw [Handle_fst]
  exact add_entries_other r hk p h mw

theorem Handle_outcome_congr {H : Type} {U : Str → Str} {r r' : Router H} {m : Str}
    (he : r'.entries (ToUpper U m) = r.entries (ToUpper U m)) (p : Str) (h : Option H)
    (mw : List (MiddlewareFunc H)) : (Handle U r' m p h mw).2 = (Handle U r m p h mw).2 := by
  rw [Handle_snd, Handle_snd, add_outcome_congr he]

theorem add_ok_of_no_entries {H : Type} (r : Router H) {m p : Str} (h : H)
    (mw : List (MiddlewareFunc H)) (he : r.entries m = []) (hp : p.head? = some '/') :
    (add r m p (some h) mw).2 = .ok none := by
  rw [add_eq_ok_none_iff]
  exact ⟨hp, rfl, by simp [he], by simp [he]⟩

/-- The router of `TestHServeHttp` does not depend on the Unicode branch of the
upper-casing: its methods are strings of ASCII bytes. -/
theorem HandleAll_serveRoutes (U : Str → Str) :
    (HandleAll U New serveRoutes).1 = serveRouter ∧
      (HandleAll U New serveRoutes).2 = .ok () := by
  have h : HandleAll U New serveRoutes = HandleAll keepRunes New serveRoutes := rfl
  rw [h]
  exact ⟨rfl, by decide⟩

/-- C12. Methods are isolated.  The result of `find` under a method and the outcome of a
registration under it are the same in any two routers that store the same sequence for
that method.  For methods `m` and `m'` that differ after upper-casing, `Handle` under
`m'` leaves the sequence of `m` as it is, so it changes no lookup under `m` and not the
outcome of a later registration under `m`; if nothing is stored under `m`, every lookup
under `m` yields nil, whatever is registered under `m'`; and one pattern can be
registered under `m` and then under `m'`.  The upper-casing is `strings.ToUpper` with any
Unicode branch `U`: two methods that the case tables map to one key, such as "ſ" and "S",
do not differ after upper-casing. -/
theorem methods_isolated {H : Type} (U : Str → Str) (r : Router H) (m m' p' : Str)
    (h' : Option H) (mw' : List (MiddlewareFunc H)) (hmm : ToUpper U m ≠ ToUpper U m') :
    (∀ r' : Router H, r'.entries m = r.entries m →
      (∀ path hp, find r' m path hp = find r m path hp) ∧
      (∀ p h mw, (add r' m p h mw).2 = (add r m p h mw).2)) ∧
    (Handle U r m' p' h' mw').1.entries (ToUpper U m) = r.entries (ToUpper U m) ∧
    (∀ path hp,
      find (Handle U r m' p' h' mw').1 (ToUpper U m) path hp = find r (ToUpper U m) path hp) ∧
    (∀ p h mw, (Handle U (Handle U r m' p' h' mw').1 m p h mw).2 = (Handle U r m p h mw).2) ∧
    (r.entries (ToUpper U m) = [] →
      ∀ path hp, find (Handle U r m' p' h' mw').1 (ToUpper U m) path hp = .ok none) ∧
    (∀ (p : Str) (h1 h2 : H), p.head? = some '/' →
      (Handle U (New : Router H) m p (some h1) []).2 = .ok () ∧
      (Handle U (Handle U (New : Router H) m p (some h1) []).1 m' p (some h2) []).2 = .ok ()) := by
  have hent : (Handle U r m' p' h' mw').1.entries (ToUpper U m) = r.entries (ToUpper U m) :=
    Handle_entries_other r hmm p' h' mw'
  refine ⟨?_, hent, ?_, ?_, ?_, ?_⟩
  · intro r' he
    exact ⟨fun path hp => find_congr he path hp, fun p h mw => add_outcome_congr he p h mw⟩
  · intro path hp
    exact find_congr hent path hp
  · intro p h mw
    exact Handle_outcome_congr hent p h mw
  · intro he path hp
    unfold find
    rw [hent, he]
    rfl
  · intro p h1 h2 hp
    refine ⟨?_, ?_⟩
    · rw [Handle_snd_eq_ok_iff]
      exact add_ok_of_no_entries New h1 [] rfl hp
    · rw [Handle_snd_eq_ok_iff]
      apply add_ok_of_no_entries _ h2 [] _ hp
      rw [Handle_entries_other New (Ne.symm hmm)]
      rfl

/-- C12, on `TestHandler` and `TestHServeHttp`: the pattern "/users" registers under GET
and then under POST, "/users/:id" under GET and then under DELETE, and the path
"/users/123456", which matches only the POST and the DELETE route, yields nil under
GET. -/
theorem methods_isolated_witness :
    ((Handle keepRunes (New : Router Nat) GET "/users".toList (some 1) []).2 = .ok () ∧
      (Handle keepRunes (Handle keepRunes (New : Router Nat) GET "/users".toList (some 1)
        []).1 POST "/users".toList (some 2) []).2 = .ok ()) ∧
    ((Handle keepRunes (New : Router Nat) GET "/users/:id".toList (some 1) []).2 = .ok () ∧
      (Handle keepRunes (Handle keepRunes (New : Router Nat) GET "/users/:id".toList
        (some 1) []).1 DELETE "/users/:id".toList (some 2) []).2 = .ok ()) ∧
    (HandleAll keepRunes New serveRoutes).2 = .ok () ∧
    find serveRouter GET "/users/123456".toList false = .ok none ∧
    (find serveRouter POST "/users/123456".toList false).map
      (fun o => o.map (fun x => x.1.Pattern)) = .ok (some "/users/:id".toList) :=
  ⟨(methods_isolated keepRunes New GET POST [] none [] (by decide)).2.2.2.2.2
      "/users".toList 1 2 (by decide),
    (methods_isolated keepRunes New GET DELETE [] none [] (by decide)).2.2.2.2.2
      "/users/:id".toList 1 2 (by decide),
    by decide, by decide, by decide⟩

theorem ServeHTTP_eq_of_no_hook {H : Type} (r : Router H) (calls : Calls H)
    (w : ResponseWriter) (req : Request) (hph : r.PanicHandler = none) :
    ServeHTTP r calls w req = ((serveBody r calls w req).1, (serveBody r calls w req).2.1) := by
  unfold ServeHTTP
  rw [hph]

theorem ServeHTTP_eq_of_return {H : Type} (r : Router H) (calls : Calls H)
    (w : ResponseWriter) (req : Request) (hout : (serveBody r calls w req).2.1 = none) :
    ServeHTTP r calls w req = ((serveBody r calls w req).1, none) := by
  unfold ServeHTTP
  rw [hout]
  cases r.PanicHandler <;> rfl

theorem ServeHTTP_eq_of_recover {H : Type} (r : Router H) (calls : Calls H)
    (w : ResponseWriter) (req : Request) {ph : H} {rcv : PanicValue}
    (hph : r.PanicHandler = some ph) (hout : (serveBody r calls w req).2.1 = some rcv) :
    ServeHTTP r calls w req =
      ((serveBody r calls w req).1 ++ [.panicHandler ph w (serveBody r calls w req).2.2 rcv],
        calls (.panicHandler ph w (serveBody r calls w req).2.2 rcv)) := by
  unfold ServeHTTP
  rw [hph, hout]

/-- The calls of `ServeHTTP` other than the call of the hook are the calls of its body. -/
theorem ServeHTTP_filter {H : Type} (r : Router H) (calls : Calls H) (w : ResponseWriter)
    (req : Request) (f : Event H → Bool)
    (hf : ∀ ph w' q v, f (.panicHandler ph w' q v) = false) :
    (ServeHTTP r calls w req).1.filter f = (serveBody r calls w req).1.filter f := by
  cases hph : r.PanicHandler with
  | none => rw [ServeHTTP_eq_of_no_hook r calls w req hph]
  | some ph =>
    cases hout : (serveBody r calls w req).2.1 with
    | none => rw [ServeHTTP_eq_of_return r calls w req hout]
    | some rcv =>
      rw [ServeHTTP_eq_of_recover r calls w req hph hout]
      simp [hf]

theorem serveBody_of_no_match {H : Type} (r : Router H) (calls : Calls H)
    (w : ResponseWriter) (req : Request)
    (hfind : find r req.Method req.Path false = .ok none) :
    serveBody r calls w req = ((noFound r calls w req).1, (noFound r calls w req).2, req) := by
  unfold serveBody
  rw [hfind]

theorem serveBody_of_match {H : Type} (r : Router H) (calls : Calls H)
    (w : ResponseWriter) (req : Request) {e : routerEntry H} {B : Params} {h : H}
    (hfind : find r req.Method req.Path false = .ok (some (e, B)))
    (hh : e.Handler = some h) :
    serveBody r calls w req =
      ([.handler h w (publish B req)], calls (.handler h w (publish B req)),
        publish B req) := by
  unfold serveBody
  rw [hfind]
  simp only
  rw [hh]

/-- C14. For every request whose lookup yields nil, `ServeHTTP` calls the configured
`NotFound` handler exactly once, with the response writer and the request, when one is
set, and calls `http.NotFound` (the standard 404 reply) exactly once otherwise; in both
cases it calls no route handler. -/
theorem ServeHTTP_not_found {H : Type} (r : Router H) (calls : Calls H)
    (w : ResponseWriter) (req : Request)
    (hfind : find r req.Method req.Path false = .ok none) :
    (∀ nf, r.NotFound = some nf →
      (ServeHTTP r calls w req).1.filter Event.isNotFound = [.notFound nf w req] ∧
      (ServeHTTP r calls w req).1.filter Event.isHttpNotFound = [] ∧
      (ServeHTTP r calls w req).1.head? = some (.notFound nf w req)) ∧
    (r.NotFound = none →
      (ServeHTTP r calls w req).1.filter Event.isHttpNotFound = [.httpNotFound w req] ∧
      (ServeHTTP r calls w req).1.filter Event.isNotFound = [] ∧
      (ServeHTTP r calls w req).1.head? = some (.httpNotFound w req)) ∧
    (ServeHTTP r calls w req).1.filter Event.isHandler = [] := by
  have hb := serveBody_of_no_match r calls w req hfind
  have hhead : (ServeHTTP r calls w req).1.head? = (noFound r calls w req).1.head? := by
    have hne : (noFound r calls w req).1 ≠ [] := by
      unfold noFound; cases r.NotFound <;> simp
    cases hph : r.PanicHandler with
    | none => rw [ServeHTTP_eq_of_no_hook r calls w req hph, hb]
    | some ph =>
      cases hout : (serveBody r calls w req).2.1 with
      | none => rw [ServeHTTP_eq_of_return r calls w req hout, hb]
      | some rcv =>
        rw [ServeHTTP_eq_of_recover r calls w req hph hout, hb]
        simp only
        rw [List.head?_append_of_ne_nil _ hne]
  rw [ServeHTTP_filter r calls w req Event.isNotFound (fun _ _ _ _ => rfl),
    ServeHTTP_filter r calls w req Event.isHttpNotFound (fun _ _ _ _ => rfl),
    ServeHTTP_filter r calls w req Event.isHandler (fun _ _ _ _ => rfl), hb, hhead]
  refine ⟨?_, ?_, ?_⟩
  · intro nf hnf
    simp [noFound, hnf, Event.isNotFound, Event.isHttpNotFound]
  · intro hnf
    simp [noFound, hnf, Event.isNotFound, Event.isHttpNotFound]
  · unfold noFound
    cases r.NotFound <;> simp [Event.isHandler]

/-- C14, on `TestHServeHttp`: GET "/users/123456" matches no GET route, no `NotFound`
handler is configured, and `ServeHTTP` makes the single call `http.NotFound(w, req)`. -/
theorem ServeHTTP_not_found_witness :
    (ServeHTTP serveRouter (fun _ => none) 0
        { Method := GET, Path := "/users/123456".toList, Form := none, parsed := [] }).1 =
      [.httpNotFound 0
        { Method := GET, Path := "/users/123456".toList, Form := none, parsed := [] }] ∧
    (ServeHTTP serveRouter (fun _ => none) 0
        { Method := GET, Path := "/users/123456".toList, Form := none,
          parsed := [] }).1.filter Event.isHandler = [] :=
  ⟨by decide,
    (ServeHTTP_not_found serveRouter (fun _ => none) 0
      { Method := GET, Path := "/users/123456".toList, Form := none, parsed := [] }
      (by decide)).2.2⟩

/-- C16. Failure recovery is opt-in.  When the route handler that `ServeHTTP` invokes
panics with a value `v`: if `PanicHandler` is set, `ServeHTTP` calls the handler and then
the hook exactly once, with the response writer, the request and `v`, and its outcome is
the outcome of that call, so it returns normally when the hook returns; if `PanicHandler`
is not set, `ServeHTTP` panics with the same value `v` and calls nothing else. -/
theorem ServeHTTP_recovery {H : Type} (r : Router H) (calls : Calls H)
    (w : ResponseWriter) (req : Request) (e : routerEntry H) (B : Params) (h : H)
    (v : PanicValue)
    (hfind : find r req.Method req.Path false = .ok (some (e, B)))
    (hh : e.Handler = some h)
    (hpanic : calls (.handler h w (publish B req)) = some v) :
    (∀ ph, r.PanicHandler = some ph →
      (ServeHTTP r calls w req).1 =
        [.handler h w (publish B req), .panicHandler ph w (publish B req) v] ∧
      (ServeHTTP r calls w req).2 = calls (.panicHandler ph w (publish B req) v) ∧
      (calls (.panicHandler ph w (publish B req) v) = none →
        (ServeHTTP r calls w req).2 = none)) ∧
    (r.PanicHandler = none →
      (ServeHTTP r calls w req).1 = [.handler h w (publish B req)] ∧
      (ServeHTTP r calls w req).2 = some v) := by
  have hb := serveBody_of_match r calls w req hfind hh
  have hout : (serveBody r calls w req).2.1 = some v := by rw [hb]; exact hpanic
  refine ⟨?_, ?_⟩
  · intro ph hph
    rw [ServeHTTP_eq_of_recover r calls w req hph hout, hb]
    exact ⟨rfl, rfl, fun hret => hret⟩
  · intro hph
    rw [ServeHTTP_eq_of_no_hook r calls w req hph, hb]
    exact ⟨rfl, hpanic⟩

/-- C16, on the route PUT "/users/:uuid" with a handler that panics with the value 7:
with the hook 9 set, the hook is called once with 7 and `ServeHTTP` returns; without a
hook `ServeHTTP` panics with 7. -/
theorem ServeHTTP_recovery_witness :
    (ServeHTTP { serveRouter with PanicHandler := some 9 }
        (fun ev => if ev.isHandler then some (.value 7) else none) 0
        { Method := PUT, Path := "/users/1".toList, Form := none, parsed := [] } =
      ([.handler 2 0
          { Method := PUT, Path := "/users/1".toList,
            Form := some [(":uuid".toList, ["1".toList])], parsed := [] },
        .panicHandler 9 0
          { Method := PUT, Path := "/users/1".toList,
            Form := some [(":uuid".toList, ["1".toList])], parsed := [] } (.value 7)],
        none)) ∧
    (ServeHTTP serveRouter (fun ev => if ev.isHandler then some (.value 7) else none) 0
        { Method := PUT, Path := "/users/1".toList, Form := none, parsed := [] }).1 =
      [.handler 2 0 (publish [(":uuid".toList, "1".toList)]
        { Method := PUT, Path := "/users/1".toList, Form := none, parsed := [] })] ∧
    (ServeHTTP serveRouter (fun ev => if ev.isHandler then some (.value 7) else none) 0
        { Method := PUT, Path := "/users/1".toList, Form := none, parsed := [] }).2 =
      some (.value 7) :=
  ⟨by decide,
    (ServeHTTP_recovery serveRouter (fun ev => if ev.isHandler then some (.value 7) else none)
      0 { Method := PUT, Path := "/users/1".toList, Form := none, parsed := [] }
      (newEntry "/users/:uuid".toList (some 2)) [(":uuid".toList, "1".toList)] 2 (.value 7)
      (by decide) (by decide) (by decide)).2 (by decide)⟩

theorem Reachable.handler_isSome {H : Type} {r : Router H} (hr : Reachable r) (m : Str) :
    ∀ e ∈ r.entries m, e.Handler.isSome = true := by
  induction hr generalizing m with
  | new => simp [New]
  | add r m' p h mw _ hok ih =>
    have hc := (add_eq_ok_none_iff r m' p h mw).1 hok
    rw [add_entries_of_ok hok]
    by_cases hk : m = m'
    · subst hk
      simp only [if_true]
      intro e he
      rcases List.mem_append.1 he with he | he
      · exact ih m e he
      · rw [List.mem_singleton.1 he]; exact hc.2.1
    · simp only [if_neg hk]
      exact ih m

theorem valuesIndex_valuesAdd (vals : Values) (k v k' : Str) :
    valuesIndex (valuesAdd vals k v) k' =
      if k' = k then valuesIndex vals k' ++ [v] else valuesIndex vals k' := by
  induction vals with
  | nil =>
    by_cases h : k' = k
    · simp [valuesAdd, valuesIndex, h]
    · simp [valuesAdd, valuesIndex, h, Ne.symm h]
  | cons kv rest ih =>
    obtain ⟨k₀, vs⟩ := kv
    unfold valuesAdd
    by_cases h0 : k₀ = k
    · subst h0
      rw [if_pos rfl]
      by_cases h : k' = k₀
      · subst h; simp [valuesIndex]
      · simp [valuesIndex, h, Ne.symm h]
    · rw [if_neg h0]
      by_cases h1 : k₀ = k'
      · subst h1
        simp [valuesIndex, h0]
      · simp only [valuesIndex, if_neg h1, ih]

/-- The values that `publish` leaves under a key: the values the form held before,
followed by the values bound to the key. -/
theorem valuesIndex_publish (B : Params) (req : Request) (k : Str) :
    valuesIndex ((publish B req).Form.getD []) k =
      valuesIndex (req.Form.getD []) k ++
        (B.filter (fun kv => decide (kv.1 = k))).map Prod.snd := by
  induction B generalizing req with
  | nil => simp [publish]
  | cons kv rest ih =>
    obtain ⟨k₀, v₀⟩ := kv
    unfold publish
    rw [ih]
    simp only [Option.getD_some, valuesIndex_valuesAdd]
    by_cases h : k = k₀
    · subst h; simp
    · simp [h, Ne.symm h]

theorem publish_Form_isSome (B : Params) (req : Request) (hB : B ≠ []) :
    ∃ form, (publish B req).Form = some form := by
  have key : ∀ (B : Params) (req : Request), (∃ form, req.Form = some form) →
      ∃ form, (publish B req).Form = some form := by
    intro B
    induction B with
    | nil => intro req h; exact h
    | cons kv rest ih =>
      intro req _
      obtain ⟨k₀, v₀⟩ := kv
      unfold publish
      exact ih _ ⟨_, rfl⟩
  cases B with
  | nil => exact absurd rfl hB
  | cons kv rest =>
    obtain ⟨k₀, v₀⟩ := kv
    unfold publish
    exact key _ _ ⟨_, rfl⟩

theorem filter_key_of_mapIndex {B : Params} {k v : Str} (h : mapIndex B k = some v) :
    ∃ rest, (B.filter (fun kv => decide (kv.1 = k))).map Prod.snd = v :: rest := by
  induction B with
  | nil => simp [mapIndex] at h
  | cons kv tail ih =>
    obtain ⟨k₀, v₀⟩ := kv
    unfold mapIndex at h
    by_cases h0 : k₀ = k
    · rw [if_pos h0] at h
      simp only [Option.some.injEq] at h
      subst h
      exact ⟨(tail.filter (fun kv => decide (kv.1 = k))).map Prod.snd, by simp [h0]⟩
    · rw [if_neg h0] at h
      obtain ⟨rest, hrest⟩ := ih h
      exact ⟨rest, by simpa [h0] using hrest⟩

/-- The lookups on the published request: the bound value is among the values of its
key, and it is the first one when the form held no value under the key before. -/
theorem lookup_publish {B : Params} {k v : Str} (req : Request)
    (hk : mapIndex B k = some v) :
    v ∈ valuesIndex ((publish B req).Form.getD []) k ∧
    (valuesIndex (req.Form.getD []) k = [] →
      valuesGet ((publish B req).Form.getD []) k = v ∧ FormValue (publish B req) k = v) := by
  obtain ⟨rest, hrest⟩ := filter_key_of_mapIndex hk
  have hidx := valuesIndex_publish B req k
  rw [hrest] at hidx
  refine ⟨by rw [hidx]; simp, ?_⟩
  intro hfresh
  rw [hfresh] at hidx
  have hget : valuesGet ((publish B req).Form.getD []) k = v := by
    unfold valuesGet
    rw [hidx]
    rfl
  refine ⟨hget, ?_⟩
  have hB : B ≠ [] := by
    intro h0; rw [h0] at hk; simp [mapIndex] at hk
  obtain ⟨form, hform⟩ := publish_Form_isSome B req hB
  unfold FormValue
  rw [hform] at hget ⊢
  exact hget

/-- C15, as stated, fails: on the route PUT "/users/:uuid" and the request
PUT "/users/12345-67890" whose form already holds the value "x" under ":uuid", the lookup
binds ":uuid" to "12345-67890" and `ServeHTTP` adds it to the form, but inside the
handler the lookup `req.Form.Get(":uuid")` returns "x". -/
theorem lookup_shadowed_by_form :
    find serveRouter PUT "/users/12345-67890".toList false =
      .ok (some (newEntry "/users/:uuid".toList (some 2),
        [(":uuid".toList, "12345-67890".toList)])) ∧
    (ServeHTTP serveRouter (fun _ => none) 0
        (uuidRequest (some [(":uuid".toList, ["x".toList])]))).1 =
      [.handler 2 0
        (uuidRequest (some [(":uuid".toList, ["x".toList, "12345-67890".toList])]))] ∧
    valuesGet [(":uuid".toList, ["x".toList, "12345-67890".toList])] ":uuid".toList =
      "x".toList ∧
    "x".toList ≠ "12345-67890".toList := by
  refine ⟨by decide, by decide, by decide, by decide⟩

/-- C15, amended. In a router whose table is built by registrations, whatever its
`NotFound` handler and its `PanicHandler` are, for every request that the lookup matches
to a route `e` with bindings `B`, `ServeHTTP` adds every pair of `B` to the form of the
request and then calls the handler of `e` exactly once, with the response writer and that
request, and calls neither the `NotFound` handler nor `http.NotFound`; inside the handler
the bound value is among the values of its name, and the name-keyed lookup (`Form.Get`,
`FormValue`) returns it for every name under which the form held no value when
`ServeHTTP` was called. -/
theorem ServeHTTP_match {H : Type} (r : Router H)
    (hr : Reachable { r with NotFound := none, PanicHandler := none }) (calls : Calls H)
    (w : ResponseWriter) (req : Request) (e : routerEntry H) (B : Params)
    (hfind : find r req.Method req.Path false = .ok (some (e, B))) :
    ∃ h, e.Handler = some h ∧
      (ServeHTTP r calls w req).1.filter Event.isHandler = [.handler h w (publish B req)] ∧
      (ServeHTTP r calls w req).1.head? = some (.handler h w (publish B req)) ∧
      (ServeHTTP r calls w req).1.filter Event.isNotFound = [] ∧
      (ServeHTTP r calls w req).1.filter Event.isHttpNotFound = [] ∧
      (∀ k v, mapIndex B k = some v →
        v ∈ valuesIndex ((publish B req).Form.getD []) k) ∧
      (∀ k v, mapIndex B k = some v → valuesIndex (req.Form.getD []) k = [] →
        valuesGet ((publish B req).Form.getD []) k = v ∧
          FormValue (publish B req) k = v) := by
  obtain ⟨k, hk, -, -⟩ := (findIn_eq_ok_some_iff _ _ _ _ _).1 hfind
  have hsome := hr.handler_isSome req.Method e (List.getElem?_mem hk)
  cases hh : e.Handler with
  | none => rw [hh] at hsome; cases hsome
  | some h =>
    have hb := serveBody_of_match r calls w req hfind hh
    refine ⟨h, rfl, ?_, ?_, ?_, ?_, ?_, ?_⟩
    · rw [ServeHTTP_filter r calls w req Event.isHandler (fun _ _ _ _ => rfl), hb]
      rfl
    · cases hph : r.PanicHandler with
      | none => rw [ServeHTTP_eq_of_no_hook r calls w req hph, hb]; rfl
      | some ph =>
        cases hout : (serveBody r calls w req).2.1 with
        | none => rw [ServeHTTP_eq_of_return r calls w req hout, hb]; rfl
        | some rcv => rw [ServeHTTP_eq_of_recover r calls w req hph hout, hb]; rfl
    · rw [ServeHTTP_filter r calls w req Event.isNotFound (fun _ _ _ _ => rfl), hb]
      rfl
    · rw [ServeHTTP_filter r calls w req Event.isHttpNotFound (fun _ _ _ _ => rfl), hb]
      rfl
    · intro k v hkv
      exact (lookup_publish req hkv).1
    · intro k v hkv hfresh
      exact (lookup_publish req hkv).2 hfresh

/-- C15, amended, on `TestHServeHttp` with a `NotFound` handler and a `PanicHandler` set:
for PUT "/users/12345-67890" with a nil form the handler `handlerTest2` is the only call,
and it reads "12345-67890" under ":uuid". -/
theorem ServeHTTP_match_witness :
    hookedRouter.NotFound = some 7 ∧ hookedRouter.PanicHandler = some 9 ∧
    (ServeHTTP hookedRouter (fun _ => none) 0 (uuidRequest none)).1 =
      [.handler 2 0 (uuidRequest (some [(":uuid".toList, ["12345-67890".toList])]))] ∧
    ∃ h, (newEntry "/users/:uuid".toList (some 2) : routerEntry Nat).Handler = some h ∧
      (ServeHTTP hookedRouter (fun _ => none) 0 (uuidRequest none)).1.filter
          Event.isHandler =
        [.handler h 0 (publish [(":uuid".toList, "12345-67890".toList)] (uuidRequest none))] ∧
      (ServeHTTP hookedRouter (fun _ => none) 0 (uuidRequest none)).1.filter
          Event.isNotFound = [] ∧
      valuesGet ((publish [(":uuid".toList, "12345-67890".toList)]
        (uuidRequest none)).Form.getD []) ":uuid".toList = "12345-67890".toList := by
  refine ⟨rfl, rfl, by decide, ?_⟩
  obtain ⟨h, h1, h2, -, h4, -, -, h7⟩ :=
    ServeHTTP_match hookedRouter
      (Reachable.addAll Reachable.new serveRoutes (by decide)) (fun _ => none) 0
      (uuidRequest none) (newEntry "/users/:uuid".toList (some 2))
      [(":uuid".toList, "12345-67890".toList)] (by decide)
  exact ⟨h, h1, h2, h4, (h7 ":uuid".toList "12345-67890".toList (by decide) (by decide)).1⟩

/-- Every key of the bindings built by the segment loop is either a key of the initial
map, left as it was, or a parameter segment of the entry bound to the url segment at one
of its positions. -/
theorem matchSegments_bound (vs es : List Str) (acc ps : Params)
    (hlen : vs.length = es.length) (h : matchSegments vs es acc = .ok (some ps)) (k : Str) :
    (mapIndex ps k = mapIndex acc k ∧ k ∉ es.filter isParam) ∨
    (∃ (i : Nat) (v : Str), es[i]? = some k ∧ isParam k = true ∧ vs[i]? = some v ∧
      mapIndex ps k = some v) := by
  induction vs generalizing es acc with
  | nil =>
    cases es with
    | nil =>
      simp only [matchSegments, Except.ok.injEq, Option.some.injEq] at h
      subst h
      exact Or.inl ⟨rfl, by simp⟩
    | cons e es => simp at hlen
  | cons v vs ih =>
    cases es with
    | nil => simp at hlen
    | cons e es =>
      have hlen' : vs.length = es.length := by simpa using hlen
      cases e with
      | nil => simp [matchSegments] at h
      | cons c cs =>
        by_cases hc : c = ':'
        · subst hc
          have hpar : isParam (':' :: cs) = true := by simp [isParam]
          simp only [matchSegments, if_true] at h
          rcases ih es (mapAssign acc (':' :: cs) v) hlen' h with ⟨h1, h2⟩ | ⟨i, u, h1, h2, h3, h4⟩
          · by_cases hk : k = ':' :: cs
            · subst hk
              right
              refine ⟨0, v, by simp, hpar, by simp, ?_⟩
              rw [h1, mapIndex_mapAssign_self]
            · left
              refine ⟨by rw [h1, mapIndex_mapAssign_ne _ _ hk], ?_⟩
              rw [List.filter_cons_of_pos hpar]
              simp only [List.mem_cons, not_or]
              exact ⟨hk, h2⟩
          · right
            exact ⟨i + 1, u, by simpa using h1, h2, by simpa using h3, h4⟩
        · have hpar : ¬ (isParam (c :: cs) = true) := by simp [isParam, hc]
          simp only [matchSegments, if_neg hc] at h
          cases v with
          | nil => simp at h
          | cons d ds =>
            simp only at h
            split at h
            · rcases ih es acc hlen' h with ⟨h1, h2⟩ | ⟨i, u, h1, h2, h3, h4⟩
              · left
                refine ⟨h1, ?_⟩
                rw [List.filter_cons_of_neg hpar]
                exact h2
              · right
                exact ⟨i + 1, u, by simpa using h1, h2, by simpa using h3, h4⟩
            · simp at h

/-- C19, as stated, fails: on the route POST "/users/:id" and the request
POST "/users/123456" whose form already holds the value "0" under ":id", the handler is
called with a request on which `PathParam(req, "id")` returns "0", not the path segment
"123456" bound to the parameter. -/
theorem PathParam_shadowed_by_form :
    find serveRouter POST "/users/123456".toList false =
      .ok (some (newEntry "/users/:id".toList (some 1),
        [(":id".toList, "123456".toList)])) ∧
    (ServeHTTP serveRouter (fun _ => none) 0
        (idRequest (some [(":id".toList, ["0".toList])]))).1 =
      [.handler 1 0 (idRequest (some [(":id".toList, ["0".toList, "123456".toList])]))] ∧
    PathParam (idRequest (some [(":id".toList, ["0".toList, "123456".toList])]))
      "id".toList = "0".toList ∧
    "0".toList ≠ "123456".toList := by
  refine ⟨by decide, by decide, by decide, by decide⟩

/-- C19, amended. In a router whose table is built by registrations, whatever its
`NotFound` handler and its `PanicHandler` are, for every request that the lookup matches
to a route with a parameter segment `':' + name`, and whose form holds no value under the
key `':' + name` when `ServeHTTP` is called (as for a nil form), `ServeHTTP` calls the
handler with a request on which `PathParam(req, name)` returns the value bound to that
parameter, which is the path segment at a position of that parameter segment. -/
theorem PathParam_bound {H : Type} (r : Router H)
    (hr : Reachable { r with NotFound := none, PanicHandler := none }) (calls : Calls H)
    (w : ResponseWriter) (req : Request) (e : routerEntry H) (B : Params)
    (hfind : find r req.Method req.Path false = .ok (some (e, B)))
    (name : Str) (hseg : (':' :: name) ∈ e.segments)
    (hfresh : valuesIndex (req.Form.getD []) (':' :: name) = []) :
    ∃ (h : H) (i : Nat) (v : Str),
      (ServeHTTP r calls w req).1.filter Event.isHandler = [.handler h w (publish B req)] ∧
      e.segments[i]? = some (':' :: name) ∧
      (Split (req.Path.drop 1) '/')[i]? = some v ∧
      mapIndex B (':' :: name) = some v ∧
      PathParam (publish B req) name = v := by
  obtain ⟨k, hk, hm, -⟩ := (findIn_eq_ok_some_iff _ _ _ _ _).1 hfind
  have hmem := List.getElem?_mem hk
  have hc : e.Compiled := (hr.inv req.Method).1 e hmem
  have hsome := hr.handler_isSome req.Method e hmem
  have hpar : isParam (':' :: name) = true := by simp [isParam]
  have hflag : e.HasParams = true := by
    cases hf : e.HasParams with
    | true => rfl
    | false =>
      have hnil := hc.filter_isParam_eq_nil hf
      have : (':' :: name) ∈ e.segments.filter isParam := List.mem_filter.2 ⟨hseg, hpar⟩
      rw [hnil] at this
      cases this
  have hbound : ∃ (i : Nat) (v : Str), e.segments[i]? = some (':' :: name) ∧
      (Split (req.Path.drop 1) '/')[i]? = some v ∧ mapIndex B (':' :: name) = some v := by
    unfold matchEntry at hm
    simp only [hflag, Bool.or_false, if_true] at hm
    cases hpath : req.Path with
    | nil => rw [hpath] at hm; simp at hm
    | cons c tail =>
      rw [hpath] at hm
      simp only at hm
      split at hm
      · simp at hm
      · next hlen =>
        simp only [ne_eq, Decidable.not_not] at hlen
        rcases matchSegments_bound _ _ [] B hlen hm (':' :: name) with ⟨-, h2⟩ | ⟨i, v, h1, -, h3, h4⟩
        · exact absurd (List.mem_filter.2 ⟨hseg, hpar⟩) h2
        · exact ⟨i, v, h1, by simpa using h3, h4⟩
  obtain ⟨i, v, h1, h2, h3⟩ := hbound
  cases hh : e.Handler with
  | none => rw [hh] at hsome; cases hsome
  | some h =>
    refine ⟨h, i, v, ?_, h1, h2, h3, ?_⟩
    · rw [ServeHTTP_filter r calls w req Event.isHandler (fun _ _ _ _ => rfl),
        serveBody_of_match r calls w req hfind hh]
      rfl
    · exact ((lookup_publish req h3).2 hfresh).2

/-- C19, amended, on `TestHServeHttp` with a `NotFound` handler and a `PanicHandler` set:
for POST "/users/123456" with a nil form the handler is called with a request on which
`PathParam(req, "id")` returns "123456". -/
theorem PathParam_bound_witness :
    PathParam (publish [(":id".toList, "123456".toList)] (idRequest none)) "id".toList =
      "123456".toList ∧
    ∃ (h : Nat) (i : Nat) (v : Str),
      (ServeHTTP hookedRouter (fun _ => none) 0 (idRequest none)).1.filter Event.isHandler =
        [.handler h 0 (publish [(":id".toList, "123456".toList)] (idRequest none))] ∧
      (newEntry "/users/:id".toList (some 1) : routerEntry Nat).segments[i]? =
        some (':' :: "id".toList) ∧
      (Split ((idRequest none).Path.drop 1) '/')[i]? = some v ∧
      mapIndex [(":id".toList, "123456".toList)] (':' :: "id".toList) = some v ∧
      PathParam (publish [(":id".toList, "123456".toList)] (idRequest none)) "id".toList = v :=
  ⟨by decide,
    PathParam_bound hookedRouter (Reachable.addAll Reachable.new serveRoutes (by decide))
      (fun _ => none) 0 (idRequest none) (newEntry "/users/:id".toList (some 1))
      [(":id".toList, "123456".toList)] (by decide) "id".toList (by decide) (by decide)⟩

/-! ## Middlewares -/

theorem add_middleware_unused {H : Type} (r : Router H) (m p : Str) (h : Option H)
    (mw : List (MiddlewareFunc H)) : add r m p h mw = add r m p h [] := by
  unfold add
  rfl

/-- C17. `Router.Handle` does not wrap the handler: the middlewares are passed to `add`,
which never uses them, so a call with middlewares is the same as a call without any, and
the stored handler is the handler as supplied.  On a new router,
`Handle("GET", "/x", h, m1)` with the handler 0 and the middleware adding 1 stores the
handler 0, not `m1(h)` = 1. -/
theorem Handle_drops_middleware (U : Str → Str) :
    (∀ (H : Type) (r : Router H) (m p : Str) (h : Option H) (mw : List (MiddlewareFunc H)),
      Handle U r m p h mw = Handle U r m p h []) ∧
    (Handle U (New : Router Nat) GET "/x".toList (some 0) [fun h => h + 1]).2 = .ok () ∧
    ((Handle U (New : Router Nat) GET "/x".toList (some 0) [fun h => h + 1]).1.entries GET).map
      (fun e => e.Handler) = [some 0] ∧
    ((Handle U (New : Router Nat) GET "/x".toList (some 0) [fun h => h + 1]).1.entries GET).map
      (fun e => e.Handler) ≠ [some ((fun h => h + 1) 0)] := by
  have hk : Handle U (New : Router Nat) GET "/x".toList (some 0) [fun h => h + 1] =
      Handle keepRunes (New : Router Nat) GET "/x".toList (some 0) [fun h => h + 1] := rfl
  rw [hk]
  refine ⟨?_, by decide, by decide, by decide⟩
  intro H r m p h mw
  unfold Handle
  rw [add_middleware_unused]

/-- C18. `Service.Handle` registers with the router the service-wrapped handler built by
folding the middlewares in listed order over the raw handler: with no middleware the
handler itself, with a first middleware `m` the fold of the others over `m h` (the first
supplied wraps the raw handler directly), with a last middleware `m` the handler `m`
applied to the fold of the others (the last supplied is outermost), for three middlewares
`m3 (m2 (m1 h))`; and when the registration returns, the route appended to the sequence
of the upper-cased method holds exactly that wrapped handler. -/
theorem Service_Handle_folds {G H : Type} (U : Str → Str) (s : Service G H)
    (method path : Str) (handle : G) (middlewares : List (ServiceMiddlewareFunc G)) :
    (Service.Handle U s method path handle middlewares).1.router =
      (Handle U s.router method path
        (some (s.wrapHandle (middlewares.foldl (fun h mw => mw h) handle))) []).1 ∧
    (Service.Handle U s method path handle middlewares).2 =
      (Handle U s.router method path
        (some (s.wrapHandle (middlewares.foldl (fun h mw => mw h) handle))) []).2 ∧
    Service.Handle U s method path handle [] =
      ({ s with router := (Handle U s.router method path (some (s.wrapHandle handle)) []).1 },
        (Handle U s.router method path (some (s.wrapHandle handle)) []).2) ∧
    (∀ m : ServiceMiddlewareFunc G, Service.Handle U s method path handle (m :: middlewares) =
      Service.Handle U s method path (m handle) middlewares) ∧
    (∀ m : ServiceMiddlewareFunc G,
      (middlewares ++ [m]).foldl (fun h mw => mw h) handle =
        m (middlewares.foldl (fun h mw => mw h) handle)) ∧
    (∀ m1 m2 m3 : ServiceMiddlewareFunc G,
      Service.Handle U s method path handle [m1, m2, m3] =
        Service.Handle U s method path (m3 (m2 (m1 handle))) []) ∧
    ((Service.Handle U s method path handle middlewares).2 = .ok () →
      (Service.Handle U s method path handle middlewares).1.router.entries (ToUpper U method) =
        s.router.entries (ToUpper U method) ++
          [newEntry path
            (some (s.wrapHandle (middlewares.foldl (fun h mw => mw h) handle)))]) := by
  refine ⟨rfl, rfl, rfl, fun _ => rfl, ?_, fun _ _ _ => rfl, ?_⟩
  · intro m
    rw [List.foldl_append]
    rfl
  · intro hok
    have hok' : (Handle U s.router method path
        (some (s.wrapHandle (middlewares.foldl (fun h mw => mw h) handle))) []).2 = .ok () :=
      hok
    rw [Handle_snd_eq_ok_iff] at hok'
    show (Handle U s.router method path
        (some (s.wrapHandle (middlewares.foldl (fun h mw => mw h) handle))) []).1.entries
          (ToUpper U method) = _
    rw [Handle_fst, add_entries_of_ok hok']
    simp

/-! ## The mutex -/

theorem LockReachable.mutex_inv {s : LockState} (hs : LockReachable s) :
    s.readers = 0 ∧ s.adding = (if s.writer = true then 1 else 0) := by
  induction hs with
  | init => exact ⟨rfl, rfl⟩
  | step s t _ hstep ih =>
    obtain ⟨h1, h2⟩ := ih
    cases hstep with
    | addLock hw hr => simp [h1, h2, hw]
    | addUnlock ha =>
      refine ⟨h1, ?_⟩
      cases hw : s.writer with
      | false => rw [hw] at h2; simp at h2; omega
      | true => rw [hw] at h2; simp at h2; simp [h2]
    | findBegin => exact ⟨h1, h2⟩
    | findEnd _ => exact ⟨h1, h2⟩

/-- C20. The scan of `find` does not run under the read lock: in every reachable state of
the mutex no read lock is held (the code never takes one), and a state is reachable in
which a goroutine scans the table in `find` while another one is inside the body of
`add` holding the write lock.  Registrations exclude each other: at most one goroutine is
inside the body of `add`. -/
theorem scan_overlaps_registration :
    (∀ s, LockReachable s → s.readers = 0) ∧
    (∃ s, LockReachable s ∧ s.writer = true ∧ 0 < s.adding ∧ 0 < s.scanning) ∧
    (∀ s, LockReachable s → s.adding ≤ 1) := by
  refine ⟨fun s hs => hs.mutex_inv.1, ?_, ?_⟩
  · refine ⟨{ writer := true, readers := 0, adding := 1, scanning := 1 }, ?_, rfl,
      by decide, by decide⟩
    have h1 : LockReachable { writer := true, readers := 0, adding := 1, scanning := 0 } :=
      LockReachable.step _ _ LockReachable.init (LockStep.addLock _ rfl rfl)
    exact LockReachable.step _ _ h1 (LockStep.findBegin _)
  · intro s hs
    have h := hs.mutex_inv.2
    split at h <;> omega

/-! ## The comparison of one route -/

theorem matchEntry_length_eq {H : Type} {e : routerEntry H} {path : Str} {hp : Bool}
    {ps : Params} (hflag : (e.HasParams || hp) = true)
    (hm : matchEntry e path hp = .ok (some ps)) :
    (Split (path.drop 1) '/').length = e.segments.length ∧
      matchSegments (Split (path.drop 1) '/') e.segments [] = .ok (some ps) := by
  unfold matchEntry at hm
  rw [if_pos hflag] at hm
  cases path with
  | nil => simp at hm
  | cons c tail =>
    simp only at hm
    split at hm
    · simp at hm
    · next hlen =>
      simp only [ne_eq, Decidable.not_not] at hlen
      exact ⟨by simpa using hlen, by simpa using hm⟩

theorem matchEntry_fast {H : Type} (e : routerEntry H) (path : Str)
    (hflag : e.HasParams = false) :
    matchEntry e path false = if e.Pattern = path then .ok (some []) else .ok none := by
  unfold matchEntry
  simp [hflag]

/-- A route returned at dispatch is compatible with the path at every position. -/
theorem matchEntry_segCompat {H : Type} {e : routerEntry H} (hc : e.Compiled) {path : Str}
    {ps : Params} (hm : matchEntry e path false = .ok (some ps)) :
    List.Forall₂ segCompat (Split (path.drop 1) '/') e.segments := by
  cases hf : e.HasParams with
  | false =>
    rw [matchEntry_fast e path hf] at hm
    split at hm
    · next heq =>
      rw [hc.2.2, heq]
      exact List.forall₂_same.2 (fun _ _ => Or.inl rfl)
    · simp at hm
  | true =>
    obtain ⟨hlen, hseg⟩ := matchEntry_length_eq (by simp [hf]) hm
    exact matchSegments_compat_of_ok_some hlen hseg

/-- C21. At dispatch a request segment that begins with a colon passes for any literal:
the test of the first byte of the request segment in the segment loop of `find` does not
consult `hasParam`.  On the route HEAD "/users/:param1/:param2/nonparam/:param3" the path
"/users/a/b/:x/c", whose fourth segment ":x" is not the literal "nonparam", is not
rejected: the route is returned.  On the table with GET "/x/:id/a" and GET "/x/:id/b",
built by two registrations, the path "/x/1/:z" matches both routes, and the lookup
returns the first, although the last segment of the path is not "a". -/
theorem colon_segment_passes_literal :
    find headRouter HEAD "/users/a/b/:x/c".toList false =
      .ok (some (headEntry,
        [(":param1".toList, "a".toList), (":param2".toList, "b".toList),
          (":param3".toList, "c".toList)])) ∧
    headEntry.segments[3]? = some "nonparam".toList ∧
    (Split ("/users/a/b/:x/c".toList.drop 1) '/')[3]? = some ":x".toList ∧
    ":x".toList ≠ "nonparam".toList ∧
    Reachable twinRouter ∧
    (twinRouter.entries GET).map (fun e => e.Pattern) =
      ["/x/:id/a".toList, "/x/:id/b".toList] ∧
    (twinRouter.entries GET).map (fun e => matchEntry e "/x/1/:z".toList false) =
      [.ok (some [(":id".toList, "1".toList)]), .ok (some [(":id".toList, "1".toList)])] ∧
    find twinRouter GET "/x/1/:z".toList false =
      .ok (some (newEntry "/x/:id/a".toList (some 0), [(":id".toList, "1".toList)])) := by
  refine ⟨by decide, by decide, by decide, by decide, ?_, by decide, by decide, by decide⟩
  exact Reachable.add _ GET "/x/:id/b".toList (some 1) []
    (Reachable.add New GET "/x/:id/a".toList (some 0) [] Reachable.new (by decide))
    (by decide)

/-- In a table built by registrations, a route returned at dispatch (`find` with
`hasParam = false`) has as many segments as the path, and at every position where the
segment of the route is a literal the segment of the path is textually equal to it or
begins with a colon; so for a path none of whose segments begins with a colon the segment
of the path equals the literal at every such position. -/
theorem find_literal_positions {H : Type} (r : Router H) (hr : Reachable r) (m path : Str)
    (e : routerEntry H) (ps : Params)
    (hfind : find r m path false = .ok (some (e, ps))) :
    (Split (path.drop 1) '/').length = e.segments.length ∧
    (∀ (i : Nat) (s v : Str), e.segments[i]? = some s → isParam s = false →
      (Split (path.drop 1) '/')[i]? = some v → v = s ∨ isParam v = true) ∧
    ((∀ v ∈ Split (path.drop 1) '/', isParam v = false) →
      ∀ (i : Nat) (s v : Str), e.segments[i]? = some s → isParam s = false →
        (Split (path.drop 1) '/')[i]? = some v → v = s) := by
  obtain ⟨k, hk, hm, -⟩ := (findIn_eq_ok_some_iff _ _ _ _ _).1 hfind
  have hc : e.Compiled := (hr.inv m).1 e (List.getElem?_mem hk)
  have hcompat := matchEntry_segCompat hc hm
  have key : ∀ (i : Nat) (s v : Str), e.segments[i]? = some s → isParam s = false →
      (Split (path.drop 1) '/')[i]? = some v → v = s ∨ isParam v = true := by
    intro i s v hs hps hv
    obtain ⟨hi, rfl⟩ := List.getElem?_eq_some.1 hs
    obtain ⟨hj, rfl⟩ := List.getElem?_eq_some.1 hv
    have h := (List.forall₂_iff_get.1 hcompat).2 i hj hi
    simp only [List.get_eq_getElem] at h
    rcases h with h | h | h
    · exact Or.inl h
    · exact Or.inr h
    · rw [hps] at h; cases h
  refine ⟨hcompat.length_eq, key, ?_⟩
  intro hpath i s v hs hps hv
  rcases key i s v hs hps hv with h | h
  · exact h
  · rw [hpath v (List.getElem?_mem hv)] at h; cases h

/-! ## The stored route -/

theorem add_fst_of_ok {H : Type} {r : Router H} {m p : Str} {h : Option H}
    {mw : List (MiddlewareFunc H)} (hok : (add r m p h mw).2 = .ok none) :
    (add r m p h mw).1 =
      { r with entries := fun k =>
          if k = m then r.entries m ++ [newEntry p h] else r.entries k } := by
  have hc := (add_eq_ok_none_iff r m p h mw).1 hok
  obtain ⟨hp, hh, hdup, hfind⟩ := hc
  rw [add_eq_of_valid r m mw hp hh] at hok ⊢
  have hany : ¬ ((r.entries m).any (fun e => decide (e.Pattern = normalize p)) = true) := by
    simp only [List.any_eq_true, decide_eq_true_eq, not_exists, not_and]
    exact hdup
  rw [if_neg hany]
  have hf : find r m (normalize p) (Contains (normalize p) ':') = .ok none :=
    (findIn_eq_ok_none_iff _ _ _).2 hfind
  rw [hf]

theorem normalize_strips_one {p : Str} (hne : p ≠ ['/']) (hlast : p.getLast? = some '/') :
    p = normalize p ++ ['/'] := by
  rcases normalize_eq_self_or p with h | ⟨-, h⟩
  · exfalso
    have hlen : 0 < p.length := by
      cases p with
      | nil => simp at hlast
      | cons c cs => simp
    have hcond : p ≠ ['/'] ∧ p.length > 0 ∧ p[p.length - 1]? = some '/' :=
      ⟨hne, hlen, by rw [← List.getLast?_eq_getElem?]; exact hlast⟩
    unfold normalize at h
    simp only at h
    rw [if_pos hcond] at h
    have := congrArg List.length h
    rw [List.length_take] at this
    omega
  · exact h

/-- C22. Postcondition of a registration that returns nil: the router differs from the
previous one only in the sequence of `m`, which is the previous sequence followed by
exactly one new route; the pattern of the new route is `p` with one trailing slash
removed (`p` itself when `p` is "/" or has no trailing slash), its segments are that
pattern without its first byte split on the slash, and its handler is the registered
one; the routes stored before keep their positions, and the sequences of all other
methods are unchanged. -/
theorem add_postcondition {H : Type} (r : Router H) (m p : Str) (h : Option H)
    (mw : List (MiddlewareFunc H)) (hok : (add r m p h mw).2 = .ok none) :
    (∃ e : routerEntry H,
      (add r m p h mw).1 =
        { r with entries := fun k => if k = m then r.entries m ++ [e] else r.entries k } ∧
      (add r m p h mw).1.entries m = r.entries m ++ [e] ∧
      e.Pattern = normalize p ∧ e.segments = Split ((normalize p).drop 1) '/' ∧
      e.Handler = h ∧ h.isSome = true) ∧
    ((p = ['/'] ∨ p.getLast? ≠ some '/') → normalize p = p) ∧
    (p ≠ ['/'] → p.getLast? = some '/' → p = normalize p ++ ['/']) ∧
    (∀ (i : Nat) (x : routerEntry H), (r.entries m)[i]? = some x →
      ((add r m p h mw).1.entries m)[i]? = some x) ∧
    (∀ k, k ≠ m → (add r m p h mw).1.entries k = r.entries k) := by
  have hfst := add_fst_of_ok hok
  have hent : (add r m p h mw).1.entries m = r.entries m ++ [newEntry p h] := by
    rw [hfst]; simp
  refine ⟨⟨newEntry p h, hfst, hent, rfl, rfl, rfl,
    ((add_eq_ok_none_iff r m p h mw).1 hok).2.1⟩, ?_, ?_, ?_, ?_⟩
  · rintro (h0 | h0)
    · rw [h0]; decide
    · exact normalize_of_no_trailing_slash h0
  · exact fun hne hlast => normalize_strips_one hne hlast
  · intro i x hx
    rw [hent]
    obtain ⟨hi, rfl⟩ := List.getElem?_eq_some.1 hx
    rw [List.getElem?_append_left hi]
    exact List.getElem?_eq_getElem hi
  · intro k hk
    rw [hfst]
    simp [hk]

/-- C22, on GET "/users/" registered after GET "/": the sequence of GET is the route "/"
followed by the route with the pattern "/users" and the segments ["users"]. -/
theorem add_postcondition_witness :
    ((add (add (New : Router Nat) GET "/".toList (some 0) []).1 GET "/users/".toList
        (some 1) []).1.entries GET).map (fun e => (e.Pattern, e.segments, e.Handler)) =
      [("/".toList, [[]], some 0), ("/users".toList, ["users".toList], some 1)] ∧
    ∀ k, k ≠ GET →
      (add (add (New : Router Nat) GET "/".toList (some 0) []).1 GET "/users/".toList
        (some 1) []).1.entries k =
      (add (New : Router Nat) GET "/".toList (some 0) []).1.entries k :=
  ⟨by decide,
    (add_postcondition (add (New : Router Nat) GET "/".toList (some 0) []).1 GET
      "/users/".toList (some 1) [] (by decide)).2.2.2.2⟩

theorem mem_Split_of_mem {s : Str} {sep c : Char} (hc : c ∈ s) (hne : c ≠ sep) :
    ∃ w ∈ Split s sep, c ∈ w := by
  induction s with
  | nil => simp at hc
  | cons d ds ih =>
    unfold Split
    split
    · next hd =>
      rcases List.mem_cons.1 hc with h | h
      · exact absurd (h.trans hd) hne
      · obtain ⟨w, hw, hcw⟩ := ih h
        exact ⟨w, List.mem_cons_of_mem _ hw, hcw⟩
    · cases hs : Split ds sep with
      | nil => exact absurd hs (Split_ne_nil ds sep)
      | cons w' ws =>
        rw [hs] at ih
        rcases List.mem_cons.1 hc with h | h
        · exact ⟨d :: w', List.mem_cons_self _ _, by simp [h]⟩
        · obtain ⟨w, hw, hcw⟩ := ih h
          rcases List.mem_cons.1 hw with h' | h'
          · subst h'
            exact ⟨d :: w, List.mem_cons_self _ _, List.mem_cons_of_mem _ hcw⟩
          · exact ⟨w, List.mem_cons_of_mem _ h', hcw⟩

/-- C23, as stated, fails: the route registered for the pattern "/a:b" has the flag
`HasParams` set, and its only segment "a:b" is not a parameter segment. -/
theorem HasParams_without_parameter :
    (add (New : Router Nat) GET "/a:b".toList (some 0) []).2 = .ok none ∧
    colonRouter.entries GET =
      [{ HasParams := true, Handler := some 0, Pattern := "/a:b".toList,
         segments := ["a:b".toList] }] ∧
    isParam "a:b".toList = false := by
  refine ⟨by decide, by decide, by decide⟩

/-- C23, amended. For every route stored by a registration, the flag `HasParams` is
`strings.Contains(pattern, ":")`: it is true if and only if at least one segment of the
route contains a colon, at any position; so it is true whenever a segment of the route is
a parameter segment, a segment whose first byte is the colon. -/
theorem HasParams_iff_colon {H : Type} (r : Router H) (hr : Reachable r) (m : Str)
    (e : routerEntry H) (he : e ∈ r.entries m) :
    e.HasParams = Contains e.Pattern ':' ∧
    (e.HasParams = true ↔ ∃ s ∈ e.segments, ':' ∈ s) ∧
    ((∃ s ∈ e.segments, isParam s = true) → e.HasParams = true) := by
  have hc : e.Compiled := (hr.inv m).1 e he
  obtain ⟨hh, hflag, hseg⟩ := hc
  have hiff : e.HasParams = true ↔ ∃ s ∈ e.segments, ':' ∈ s := by
    rw [hflag, Contains_eq_true, hseg]
    constructor
    · intro hmem
      have hdrop : ':' ∈ e.Pattern.drop 1 := by
        cases hp : e.Pattern with
        | nil => rw [hp] at hmem; simp at hmem
        | cons c cs =>
          rw [hp] at hmem hh
          simp only [List.head?_cons, Option.some.injEq] at hh
          subst hh
          rcases List.mem_cons.1 hmem with h | h
          · exact absurd h (by decide)
          · simpa using h
      exact mem_Split_of_mem hdrop (by decide)
    · rintro ⟨s, hs, hcs⟩
      exact List.mem_of_mem_drop (mem_of_mem_Split hs hcs)
  refine ⟨hflag, hiff, ?_⟩
  rintro ⟨s, hs, hps⟩
  rw [hiff]
  refine ⟨s, hs, ?_⟩
  cases s with
  | nil => simp [isParam] at hps
  | cons c cs => simp [isParam] at hps; simp [hps]

/-- C23, amended, on the routes "/a:b" (flag set, a colon inside the segment) and
"/users" (flag not set). -/
theorem HasParams_iff_colon_witness :
    (newEntry "/users".toList (some 0) : routerEntry Nat).HasParams = false ∧
    ((newEntry "/a:b".toList (some 0) : routerEntry Nat).HasParams =
        Contains (newEntry "/a:b".toList (some 0) : routerEntry Nat).Pattern ':' ∧
      ((newEntry "/a:b".toList (some 0) : routerEntry Nat).HasParams = true ↔
        ∃ s ∈ (newEntry "/a:b".toList (some 0) : routerEntry Nat).segments, ':' ∈ s) ∧
      ((∃ s ∈ (newEntry "/a:b".toList (some 0) : routerEntry Nat).segments,
          isParam s = true) →
        (newEntry "/a:b".toList (some 0) : routerEntry Nat).HasParams = true)) :=
  ⟨by decide,
    HasParams_iff_colon colonRouter
      (Reachable.add New GET "/a:b".toList (some 0) [] Reachable.new (by decide)) GET
      (newEntry "/a:b".toList (some 0)) (by decide)⟩

/-- C24. Fast path: at dispatch, a route that is not flagged as parameterized matches a
path if and only if the path is the stored pattern, byte for byte; otherwise the route
is rejected, and the comparison never panics. -/
theorem fast_path_exact {H : Type} (e : routerEntry H) (path : Str)
    (hflag : e.HasParams = false) :
    (Matches e path false ↔ e.Pattern = path) ∧
    (Rejects e path false ↔ e.Pattern ≠ path) ∧
    (e.Pattern = path → matchEntry e path false = .ok (some [])) ∧
    (∀ p, matchEntry e path false ≠ .error p) := by
  have h := matchEntry_fast e path hflag
  unfold Matches Rejects
  rw [h]
  by_cases heq : e.Pattern = path
  · rw [if_pos heq]
    exact ⟨⟨fun _ => heq, fun _ => ⟨[], rfl⟩⟩, by simp [heq], fun _ => rfl, by simp⟩
  · rw [if_neg heq]
    exact ⟨by simp [heq], by simp [heq], fun h' => absurd h' heq, by simp⟩

/-- C24, with only "/users" registered under GET: the path "/users" returns the route,
the paths "/users/" and "/Users" yield nil. -/
theorem fast_path_exact_witness :
    (find onlyUsersRouter GET "/users".toList false).map (fun o => o.map (fun x => x.1.Pattern))
      = .ok (some "/users".toList) ∧
    find onlyUsersRouter GET "/users/".toList false = .ok none ∧
    find onlyUsersRouter GET "/Users".toList false = .ok none ∧
    (Rejects (newEntry "/users".toList (some 0) : routerEntry Nat) "/users/".toList false ↔
      (newEntry "/users".toList (some 0) : routerEntry Nat).Pattern ≠ "/users/".toList) :=
  ⟨by decide, by decide, by decide,
    (fast_path_exact (newEntry "/users".toList (some 0) : routerEntry Nat) "/users/".toList
      (by decide)).2.1⟩

/-- C25. A route compared segment by segment (a flagged route, or any route during a
probe) is returned by `find` only for a path with as many segments as the route; for a
path with a different number of segments such a route is rejected without looking at any
segment, unless the path is empty. -/
theorem segment_count_must_agree {H : Type} (r : Router H) (m path : Str) (hp : Bool)
    (e : routerEntry H) (hflag : (e.HasParams || hp) = true) :
    (∀ ps, find r m path hp = .ok (some (e, ps)) →
      (Split (path.drop 1) '/').length = e.segments.length) ∧
    (∀ ps, matchEntry e path hp = .ok (some ps) →
      (Split (path.drop 1) '/').length = e.segments.length) ∧
    ((Split (path.drop 1) '/').length ≠ e.segments.length → path ≠ [] →
      matchEntry e path hp = .ok none) := by
  refine ⟨?_, ?_, ?_⟩
  · intro ps hfind
    obtain ⟨k, -, hm, -⟩ := (findIn_eq_ok_some_iff _ _ _ _ _).1 hfind
    exact (matchEntry_length_eq hflag hm).1
  · intro ps hm
    exact (matchEntry_length_eq hflag hm).1
  · intro hlen hne
    unfold matchEntry
    rw [if_pos hflag]
    cases path with
    | nil => exact absurd rfl hne
    | cons c tail =>
      simp only
      rw [if_pos (by simpa using hlen)]

/-- C25, on the GET routes "/users" and "/users/:id/email": the lookup of
GET "/users/123456" yields nil and `ServeHTTP` makes the single call `http.NotFound`. -/
theorem segment_count_must_agree_witness :
    find emailRouter GET "/users/123456".toList false = .ok none ∧
    (ServeHTTP emailRouter (fun _ => none) 0
        { Method := GET, Path := "/users/123456".toList, Form := none, parsed := [] }).1 =
      [.httpNotFound 0
        { Method := GET, Path := "/users/123456".toList, Form := none, parsed := [] }] ∧
    matchEntry (newEntry "/users/:id/email".toList (some 1) : routerEntry Nat)
      "/users/123456".toList false = .ok none :=
  ⟨by decide, by decide,
    (segment_count_must_agree emailRouter GET "/users/123456".toList false
      (newEntry "/users/:id/email".toList (some 1)) (by decide)).2.2 (by decide) (by decide)⟩

/-! ## Faults -/

/-- C26. Dispatch can fault: on the table with the routes GET "/users" and
GET "/users/:id", built by two registrations, the lookup of the path "//1" panics with an
index out of range (the first byte of the empty first segment is read when it is compared
with the literal "users"), the lookup of the empty path panics with a slice bound out of
range (`url[1:]`), and `ServeHTTP` without a `PanicHandler` panics with that run-time
error instead of answering. -/
theorem dispatch_panics_on_empty_segment :
    Reachable usersRouter ∧
    find usersRouter GET "//1".toList false = .error .indexOutOfRange ∧
    find usersRouter GET [] false = .error .sliceBoundsOutOfRange ∧
    ServeHTTP usersRouter (fun _ => none) 0
        { Method := GET, Path := "//1".toList, Form := none, parsed := [] } =
      ([], some (.runtime .indexOutOfRange)) := by
  refine ⟨?_, by decide, by decide, by decide⟩
  exact Reachable.add _ GET "/users/:id".toList (some 1) []
    (Reachable.add New GET "/users".toList (some 0) [] Reachable.new (by decide)) (by decide)

/-- C27. Registration can fault: after the registration of "/" the registration of "/:id"
panics with an index out of range, and so does the registration of "/a/x/:c" after
"/a//b": the probe reads the first byte of an empty segment of the stored route.  The
outcome is neither nil nor one of the errors of `add`. -/
theorem registration_panics_on_empty_segment (U : Str → Str) :
    (add (New : Router Nat) GET "/".toList (some 1) []).2 = .ok none ∧
    (add (add (New : Router Nat) GET "/".toList (some 1) []).1 GET "/:id".toList
        (some 2) []).2 = .error .indexOutOfRange ∧
    (add (New : Router Nat) GET "/a//b".toList (some 1) []).2 = .ok none ∧
    (add (add (New : Router Nat) GET "/a//b".toList (some 1) []).1 GET "/a/x/:c".toList
        (some 2) []).2 = .error .indexOutOfRange ∧
    (Handle U (Handle U (New : Router Nat) GET "/".toList (some 1) []).1 GET "/:id".toList
        (some 2) []).2 = .error (.runtime .indexOutOfRange) := by
  refine ⟨by decide, by decide, by decide, by decide, rfl⟩

/-! ## Failed registrations -/

/-- C28. Registration is atomic on failure: whenever `add` does not return nil (it returns
one of its errors, or panics), the router state after the call is the state before it, so
every method has the same sequence and every later lookup and registration gives what it
gives without the failed call. -/
theorem add_atomic_on_failure {H : Type} (r : Router H) (m p : Str) (h : Option H)
    (mw : List (MiddlewareFunc H)) (hne : (add r m p h mw).2 ≠ .ok none) :
    (add r m p h mw).1 = r ∧
    (∀ k, (add r m p h mw).1.entries k = r.entries k) ∧
    (∀ k path hp, find (add r m p h mw).1 k path hp = find r k path hp) ∧
    (∀ m' p' h' mw', add (add r m p h mw).1 m' p' h' mw' = add r m' p' h' mw') := by
  have hst := add_unchanged_of_not_ok r m p h mw hne
  rw [hst]
  exact ⟨rfl, fun _ => rfl, fun _ _ _ => rfl, fun _ _ _ _ => rfl⟩

/-- C28, on the four errors: a second GET "/users" (duplicate), GET "/users/:name" after
GET "/users/:id" (conflict), GET "users" (pattern) and a nil handler leave the router as
it was. -/
theorem add_atomic_on_failure_witness :
    (add usersRouter GET "/users".toList (some 5) []).2 =
      .ok (some (.multipleRegistrations "/users".toList)) ∧
    (add usersRouter GET "/users/:name".toList (some 5) []).2 =
      .ok (some (.matched "/users/:name".toList "/users/:id".toList)) ∧
    (add usersRouter GET "/users".toList (some 5) []).1 = usersRouter ∧
    (add usersRouter GET "/users/:name".toList (some 5) []).1 = usersRouter ∧
    (add usersRouter GET "users".toList (some 5) []).1 = usersRouter ∧
    (add usersRouter GET "/x".toList none []).1 = usersRouter :=
  ⟨by decide, by decide,
    (add_atomic_on_failure usersRouter GET "/users".toList (some 5) [] (by decide)).1,
    (add_atomic_on_failure usersRouter GET "/users/:name".toList (some 5) [] (by decide)).1,
    (add_atomic_on_failure usersRouter GET "users".toList (some 5) [] (by decide)).1,
    (add_atomic_on_failure usersRouter GET "/x".toList none [] (by decide)).1⟩

/-! ## Repeated parameter names -/

theorem mem_mapKeys_mapAssign (ps : Params) (k v k' : Str) :
    k' ∈ mapKeys (mapAssign ps k v) ↔ k' = k ∨ k' ∈ mapKeys ps := by
  induction ps with
  | nil => simp [mapAssign, mapKeys]
  | cons kv ps ih =>
    obtain ⟨k₀, v₀⟩ := kv
    unfold mapAssign
    split
    · next h0 =>
      subst h0
      simp [mapKeys]
    · simp only [mapKeys, List.map_cons, List.mem_cons] at ih ⊢
      rw [ih]
      tauto

theorem nodup_mapKeys_mapAssign {ps : Params} (k v : Str) (h : (mapKeys ps).Nodup) :
    (mapKeys (mapAssign ps k v)).Nodup := by
  induction ps with
  | nil => simp [mapAssign, mapKeys]
  | cons kv ps ih =>
    obtain ⟨k₀, v₀⟩ := kv
    have h' : k₀ ∉ mapKeys ps ∧ (mapKeys ps).Nodup := by
      simpa [mapKeys] using h
    unfold mapAssign
    split
    · next h0 =>
      subst h0
      simpa [mapKeys] using h
    · next h0 =>
      have hmem : k₀ ∉ mapKeys (mapAssign ps k v) := by
        rw [mem_mapKeys_mapAssign]
        rintro (h1 | h1)
        · exact h0 h1
        · exact h'.1 h1
      have := ih h'.2
      simp only [mapKeys, List.map_cons, List.nodup_cons] at hmem this ⊢
      exact ⟨hmem, this⟩

theorem matchSegments_keys (vs es : List Str) (acc ps : Params)
    (hlen : vs.length = es.length) (h : matchSegments vs es acc = .ok (some ps)) :
    ((mapKeys acc).Nodup → (mapKeys ps).Nodup) ∧
    ∀ k, k ∈ mapKeys ps ↔ k ∈ mapKeys acc ∨ k ∈ es.filter isParam := by
  induction vs generalizing es acc with
  | nil =>
    cases es with
    | nil =>
      simp only [matchSegments, Except.ok.injEq, Option.some.injEq] at h
      subst h
      simp
    | cons e es => simp at hlen
  | cons v vs ih =>
    cases es with
    | nil => simp at hlen
    | cons e es =>
      have hlen' : vs.length = es.length := by simpa using hlen
      cases e with
      | nil => simp [matchSegments] at h
      | cons c cs =>
        by_cases hc : c = ':'
        · subst hc
          have hpar : isParam (':' :: cs) = true := by simp [isParam]
          simp only [matchSegments, if_true] at h
          obtain ⟨h1, h2⟩ := ih es (mapAssign acc (':' :: cs) v) hlen' h
          refine ⟨fun hnd => h1 (nodup_mapKeys_mapAssign _ _ hnd), ?_⟩
          intro k
          rw [h2 k, mem_mapKeys_mapAssign, List.filter_cons_of_pos hpar, List.mem_cons]
          tauto
        · have hpar : ¬ (isParam (c :: cs) = true) := by simp [isParam, hc]
          simp only [matchSegments, if_neg hc] at h
          cases v with
          | nil => simp at h
          | cons d ds =>
            simp only at h
            split at h
            · obtain ⟨h1, h2⟩ := ih es acc hlen' h
              refine ⟨h1, ?_⟩
              intro k
              rw [h2 k, List.filter_cons_of_neg hpar]
            · simp at h

theorem matchSegments_last (vs es : List Str) (acc ps : Params)
    (hlen : vs.length = es.length) (h : matchSegments vs es acc = .ok (some ps))
    (i : Nat) (k : Str) (hi : es[i]? = some k) (hp : isParam k = true)
    (hlast : ∀ j : Nat, i < j → es[j]? ≠ some k) :
    ∃ v, vs[i]? = some v ∧ mapIndex ps k = some v := by
  induction vs generalizing es acc i with
  | nil =>
    cases es with
    | nil => simp at hi
    | cons e es => simp at hlen
  | cons v vs ih =>
    cases es with
    | nil => simp at hlen
    | cons e es =>
      have hlen' : vs.length = es.length := by simpa using hlen
      cases e with
      | nil => simp [matchSegments] at h
      | cons c cs =>
        have hrest : ∀ (acc' : Params), matchSegments vs es acc' = .ok (some ps) →
            ∀ i' : Nat, i = i' + 1 → ∃ u, (v :: vs)[i]? = some u ∧ mapIndex ps k = some u := by
          intro acc' h' i' hi'
          subst hi'
          obtain ⟨u, hu1, hu2⟩ := ih es acc' hlen' h' i' (by simpa using hi)
            (fun j hj => by
              have := hlast (j + 1) (Nat.succ_lt_succ hj)
              simpa using this)
          exact ⟨u, by simpa using hu1, hu2⟩
        by_cases hc : c = ':'
        · subst hc
          simp only [matchSegments, if_true] at h
          cases i with
          | zero =>
            simp only [List.getElem?_cons_zero, Option.some.injEq] at hi
            subst hi
            refine ⟨v, by simp, ?_⟩
            rcases matchSegments_bound vs es _ ps hlen' h (':' :: cs) with
              ⟨h1, -⟩ | ⟨j, u, h1, -, -, -⟩
            · rw [h1, mapIndex_mapAssign_self]
            · exact absurd (by simpa using h1) (hlast (j + 1) (Nat.succ_pos j))
          | succ i' => exact hrest _ h i' rfl
        · simp only [matchSegments, if_neg hc] at h
          cases v with
          | nil => simp at h
          | cons d ds =>
            simp only at h
            split at h
            · cases i with
              | zero =>
                simp only [List.getElem?_cons_zero, Option.some.injEq] at hi
                subst hi
                simp [isParam, hc] at hp
              | succ i' => exact hrest _ h i' rfl
            · simp at h

/-- C29. Repeated parameter names: in a table built by registrations, the bindings
returned at dispatch hold one entry for each distinct parameter segment of the matched
route and no other entry, so their number is the number of distinct parameter segment
texts; a name that occurs at several positions is bound to the path segment at the last
of these positions. -/
theorem repeated_names_last_wins {H : Type} (r : Router H) (hr : Reachable r)
    (m path : Str) (e : routerEntry H) (ps : Params)
    (hfind : find r m path false = .ok (some (e, ps))) :
    (mapKeys ps).Nodup ∧
    (∀ k, k ∈ mapKeys ps ↔ k ∈ e.segments ∧ isParam k = true) ∧
    ps.length = (e.segments.filter isParam).dedup.length ∧
    (∀ (i : Nat) (k : Str), e.segments[i]? = some k → isParam k = true →
      (∀ j : Nat, i < j → e.segments[j]? ≠ some k) →
      ∃ v, (Split (path.drop 1) '/')[i]? = some v ∧ mapIndex ps k = some v) := by
  obtain ⟨n, hn, hm, -⟩ := (findIn_eq_ok_some_iff _ _ _ _ _).1 hfind
  have hc : e.Compiled := (hr.inv m).1 e (List.getElem?_mem hn)
  have key : (mapKeys ps).Nodup ∧
      (∀ k, k ∈ mapKeys ps ↔ k ∈ e.segments.filter isParam) ∧
      (∀ (i : Nat) (k : Str), e.segments[i]? = some k → isParam k = true →
        (∀ j : Nat, i < j → e.segments[j]? ≠ some k) →
        ∃ v, (Split (path.drop 1) '/')[i]? = some v ∧ mapIndex ps k = some v) := by
    cases hf : e.HasParams with
    | false =>
      have hnil := hc.filter_isParam_eq_nil hf
      rw [matchEntry_fast e path hf] at hm
      split at hm
      · simp only [Except.ok.injEq, Option.some.injEq] at hm
        subst hm
        refine ⟨by simp [mapKeys], by simp [mapKeys, hnil], ?_⟩
        intro i k hi hp _
        have : k ∈ e.segments.filter isParam :=
          List.mem_filter.2 ⟨List.getElem?_mem hi, hp⟩
        rw [hnil] at this
        cases this
      · simp at hm
    | true =>
      obtain ⟨hlen, hseg⟩ := matchEntry_length_eq (by simp [hf]) hm
      obtain ⟨h1, h2⟩ := matchSegments_keys _ _ [] ps hlen hseg
      refine ⟨h1 (by simp [mapKeys]), ?_, ?_⟩
      · intro k
        rw [h2 k]
        simp [mapKeys]
      · intro i k hi hp hlast
        exact matchSegments_last _ _ [] ps hlen hseg i k hi hp hlast
  obtain ⟨hnd, hmem, hlast⟩ := key
  refine ⟨hnd, ?_, ?_, hlast⟩
  · intro k
    rw [hmem k, List.mem_filter]
  · have hperm : (mapKeys ps).Perm (e.segments.filter isParam).dedup :=
      (List.perm_ext_iff_of_nodup hnd (List.nodup_dedup _)).2
        (fun k => by rw [hmem k, List.mem_dedup])
    have := hperm.length_eq
    simpa [mapKeys] using this

/-- C29, on the route GET "/:a/:a" and the path "/x/y": the bindings hold the single
entry ":a", bound to "y". -/
theorem repeated_names_last_wins_witness :
    Reachable repeatRouter ∧
    find repeatRouter GET "/x/y".toList false =
      .ok (some (newEntry "/:a/:a".toList (some 0), [(":a".toList, "y".toList)])) ∧
    [(":a".toList, "y".toList)].length =
      ((newEntry "/:a/:a".toList (some 0) : routerEntry Nat).segments.filter
        isParam).dedup.length :=
  ⟨Reachable.add New GET "/:a/:a".toList (some 0) [] Reachable.new (by decide), by decide,
    (repeated_names_last_wins repeatRouter
      (Reachable.add New GET "/:a/:a".toList (some 0) [] Reachable.new (by decide))
      GET "/x/y".toList (newEntry "/:a/:a".toList (some 0)) [(":a".toList, "y".toList)]
      (by decide)).2.2.1⟩

/-! ## The method of a request -/

theorem Char_toUpper_not_isLower (x : Char) : x.toUpper.isLower = false := by
  by_cases h : x.toNat ≥ 97 ∧ x.toNat ≤ 122
  · have hc : x = Char.ofNat x.toNat := (Char.ofNat_toNat x).symm
    obtain ⟨h1, h2⟩ := h
    generalize x.toNat = n at hc h1 h2
    subst hc
    interval_cases n <;> decide
  · have hc : x.toUpper = x := by
      unfold Char.toUpper
      simp only
      rw [if_neg h]
    rw [hc]
    unfold Char.isLower
    simp only [Char.toNat, ge_iff_le, not_and, not_le] at h
    simp only [ge_iff_le, Bool.and_eq_false_imp, decide_eq_true_eq, decide_eq_false_iff_not]
    intro h1
    have h1' : (97 : Nat) ≤ x.val.toNat := by simpa [UInt32.le_def] using h1
    have := h h1'
    intro h2
    have h2' : x.val.toNat ≤ 122 := by simpa [UInt32.le_def] using h2
    omega

theorem ToUpper_not_isLower (U : Str → Str) {m : Str}
    (hm : isASCII m = true ∨ ∀ c ∈ U m, c.isLower = false) :
    ∀ c ∈ ToUpper U m, c.isLower = false := by
  intro c hc
  unfold ToUpper at hc
  split at hc
  · obtain ⟨x, -, rfl⟩ := List.mem_map.1 hc
    exact Char_toUpper_not_isLower x
  · next hna =>
    rcases hm with hm | hm
    · exact absurd hm hna
    · exact hm c hc

theorem HandleReachable.keys_upper {H : Type} {U : Str → Str} {r : Router H}
    (hr : HandleReachable U r) (k : Str) (hk : r.entries k ≠ []) :
    ∀ c ∈ k, c.isLower = false := by
  induction hr with
  | new => exact absurd rfl hk
  | handle r m p h mw hm _ ih =>
    by_cases hkm : k = ToUpper U m
    · rw [hkm]
      exact ToUpper_not_isLower U hm
    · rw [Handle_entries_other r hkm] at hk
      exact ih hk
  | configure r nf ph _ ih => exact ih hk

theorem HandleReachable.handleAll {H : Type} {U : Str → Str} {r : Router H}
    (hr : HandleReachable U r) (l : List (Str × Str × Option H))
    (hl : ∀ t ∈ l, isASCII t.1 = true ∨ ∀ c ∈ U t.1, c.isLower = false) :
    HandleReachable U (HandleAll U r l).1 := by
  induction l generalizing r with
  | nil => exact hr
  | cons t rest ih =>
    have ht := hl t (List.mem_cons_self _ _)
    have hrest : ∀ t ∈ rest, isASCII t.1 = true ∨ ∀ c ∈ U t.1, c.isLower = false :=
      fun x hx => hl x (List.mem_cons_of_mem _ hx)
    obtain ⟨m, p, hd⟩ := t
    have hstep := HandleReachable.handle r m p hd [] ht hr
    unfold Gohan.HandleAll
    cases hres : Gohan.Handle U r m p hd [] with
    | mk r' out =>
      rw [hres] at hstep
      cases out with
      | error q => exact hstep
      | ok u => exact ih hstep hrest

/-- C30, as stated, fails: "ß" is a lower-case letter, and `strings.ToUpper` keeps it.
After `Handle("ß", "/x", h)` on a new router the route is stored under the key "ß", and
for the request with the method "ß" and the path "/x" the lookup returns that route and
`ServeHTTP` calls its handler; `http.NotFound` is not called. -/
theorem lowercase_sharp_s_dispatched :
    isASCII sharpS = false ∧
    ToUpper keepRunes sharpS = sharpS ∧
    (Handle keepRunes (New : Router Nat) sharpS "/x".toList (some 1) []).2 = .ok () ∧
    ((Handle keepRunes (New : Router Nat) sharpS "/x".toList (some 1) []).1.entries
      sharpS).map (fun e => e.Pattern) = ["/x".toList] ∧
    (ServeHTTP (Handle keepRunes (New : Router Nat) sharpS "/x".toList (some 1) []).1
        (fun _ => none) 0
        { Method := sharpS, Path := "/x".toList, Form := none, parsed := [] }).1 =
      [.handler 1 0 { Method := sharpS, Path := "/x".toList, Form := none, parsed := [] }] := by
  refine ⟨by decide, by decide, by decide, by decide, by decide⟩

/-- C30, amended. Dispatch does not normalize the request method: in every table built
through `Handle` under methods that are strings of ASCII bytes (or that the Unicode
branch of `strings.ToUpper` maps to a string without a byte 'a' to 'z'), nothing is stored
under a method string that contains an ASCII lower-case letter 'a' to 'z', so for every
request with such a method the lookup yields nil, `ServeHTTP` calls no route handler, and
the `NotFound` handler (or `http.NotFound` when none is set) is called once, whatever
routes are registered. -/
theorem lowercase_method_not_found {H : Type} (U : Str → Str) (r : Router H)
    (hr : HandleReachable U r) (calls : Calls H) (w : ResponseWriter) (req : Request)
    (hlow : ∃ c ∈ req.Method, c.isLower = true) :
    r.entries req.Method = [] ∧
    find r req.Method req.Path false = .ok none ∧
    (ServeHTTP r calls w req).1.filter Event.isHandler = [] ∧
    (∀ nf, r.NotFound = some nf →
      (ServeHTTP r calls w req).1.filter Event.isNotFound = [.notFound nf w req]) ∧
    (r.NotFound = none →
      (ServeHTTP r calls w req).1.filter Event.isHttpNotFound = [.httpNotFound w req]) := by
  have hent : r.entries req.Method = [] := by
    by_contra hne
    obtain ⟨c, hc, hl⟩ := hlow
    rw [hr.keys_upper req.Method hne c hc] at hl
    cases hl
  have hfind : find r req.Method req.Path false = .ok none := by
    unfold find
    rw [hent]
    rfl
  have hb := serveBody_of_no_match r calls w req hfind
  rw [ServeHTTP_filter r calls w req Event.isNotFound (fun _ _ _ _ => rfl),
    ServeHTTP_filter r calls w req Event.isHttpNotFound (fun _ _ _ _ => rfl),
    ServeHTTP_filter r calls w req Event.isHandler (fun _ _ _ _ => rfl), hb]
  refine ⟨hent, hfind, ?_, ?_, ?_⟩
  · unfold noFound
    cases r.NotFound <;> simp [Event.isHandler]
  · intro nf hnf
    simp [noFound, hnf, Event.isNotFound]
  · intro hnf
    simp [noFound, hnf, Event.isHttpNotFound]

/-- C30, amended, on `TestHServeHttp`: the request "get" "/users" finds nothing although
GET "/users" is registered, and `ServeHTTP` makes the single call `http.NotFound`. -/
theorem lowercase_method_not_found_witness :
    (∀ t ∈ serveRoutes, isASCII t.1 = true) ∧
    (find serveRouter GET "/users".toList false).map (fun o => o.map (fun x => x.1.Pattern))
      = .ok (some "/users".toList) ∧
    (ServeHTTP serveRouter (fun _ => none) 0
        { Method := "get".toList, Path := "/users".toList, Form := none, parsed := [] }).1 =
      [.httpNotFound 0
        { Method := "get".toList, Path := "/users".toList, Form := none, parsed := [] }] ∧
    find serveRouter "get".toList "/users".toList false = .ok none :=
  ⟨by decide, by decide, by decide,
    (lowercase_method_not_found keepRunes serveRouter
      (HandleReachable.handleAll HandleReachable.new serveRoutes
        (fun t ht => Or.inl ((show ∀ t ∈ serveRoutes, isASCII t.1 = true from by decide) t ht)))
      (fun _ => none) 0
      { Method := "get".toList, Path := "/users".toList, Form := none, parsed := [] }
      ⟨'g', by decide, by decide⟩).2.1⟩

end Gohan
